import Mathlib

/-!
# bayonet: probability tables and the Gibbs sampler

A shallow embedding of the table engine of the bayonet Bayesian-network library
(`src/src/ConditionalProbabilityTable.cpp`, `src/src/JointProbabilityTable.cpp`) and of
its Gibbs sampler (`src/src/GibbsSampler.cpp`).

* `unsigned int` values are natural numbers. Row counts and row lengths are the sizes
  of the containers themselves: they are taken to fit an `unsigned int`, the spec leaving
  it to the caller to keep the number of rows tractable. The one subtraction that can
  wrap around, `cycles-1` in the sampler, is computed modulo `2^32`.
* `double` values are embedded twice. Where a statement is about the shape of a table
  (keys, rows, lengths, positions) or names the operation that a method applies to an
  entry, they are rationals and the operation is the exact one. Where a statement is about
  the values that the arithmetic of the program leaves in a table (sums of normalised or
  randomised rows, a second normalisation, sums of marginals), they are `Double` values,
  the data of the IEEE 754 binary64 format, and every sum and quotient is the exact result
  rounded to nearest, ties to even, with the infinities, the two zeros and the
  not-a-numbers of the format; intermediate results are taken to be rounded to the format
  itself.
* `Option` results: `none` stands for a thrown `std::out_of_range`, or for an access out
  of the bounds of a container (the dereference of a past-the-end iterator, an index
  past the end of a vector), as said at each definition.
* Random generators are seeded afresh at every call in the source; their outcomes are
  an explicit argument of the embedded functions.
-/

namespace bayonet

/-! ## Keys and the associative container -/

/-- Row key, a `std::vector<unsigned int>`: one state per dimension. -/
abbrev Key := List Nat

/-- Lexicographic comparison of two keys: `operator<` of `std::vector<unsigned int>`,
the ordering of the rows inside the map. -/
def keyLt : Key → Key → Bool
  | [], [] => false
  | [], _ :: _ => true
  | _ :: _, [] => false
  | a :: as, b :: bs => if a < b then true else if b < a then false else keyLt as bs

/-- Modelled from the spec: the members `conditionalMap` and `mJointMap` are declared in
`ConditionalProbabilityTable.h` and `JointProbabilityTable.h`, which are not among the
sources. The spec gives them as `mapping<ParentKey, ProbabilityVector>` and
`mapping<AssignmentKey, double>`, walked from `begin()` in key order; they are embedded as
`std::map`: an association list whose entries are kept in increasing `keyLt` order. -/
abbrev RowMap (V : Type) := List (Key × V)

/-- Lookup `std::map::find`: the value stored under the key, if any. -/
def mapFind {V : Type} (k : Key) : RowMap V → Option V
  | [] => none
  | (k', v) :: rest => if k' = k then some v else mapFind k rest

/-- Insertion `std::map::insert`: puts the pair at its place in key order; a key that is
already present keeps its old value. -/
def mapInsert {V : Type} (k : Key) (v : V) : RowMap V → RowMap V
  | [] => [(k, v)]
  | (k', v') :: rest =>
    if keyLt k k' then (k, v) :: (k', v') :: rest
    else if k' = k then (k', v') :: rest
    else (k', v') :: mapInsert k v rest

/-- Subscript `std::map::operator[]`: the value under the key, after inserting a
value-initialised entry (`dflt`) when the key is missing. Returns the value and the map
as the call leaves it. -/
def mapSubscript {V : Type} (k : Key) (dflt : V) (m : RowMap V) : V × RowMap V :=
  match mapFind k m with
  | some v => (v, m)
  | none => (dflt, mapInsert k dflt m)

/-- Overwrites the value of an entry that exists: `m[k] = v` or `m.at(k)... = ` on a
present key. A missing key leaves the map as it is. -/
def mapModify {V : Type} (k : Key) (f : V → V) : RowMap V → RowMap V
  | [] => []
  | (k', v) :: rest => if k' = k then (k', f v) :: rest else (k', v) :: mapModify k f rest

/-! ## The odometer of `FillMap` -/

/-- Test `iterator_container[i] == vector_container[i].end()`; an iterator is its offset
from `begin()`. -/
def atEnd (vector_container : List (List Nat)) (iterator_container : List Nat) (i : Nat) : Bool :=
  iterator_container.getD i 0 == (vector_container.getD i []).length

/-- The loop that fills `key_vector`: dereferences every iterator in turn. `none` when an
iterator is past the end of its vector (undefined behaviour in the source). -/
def readKey : List (List Nat) → List Nat → Option Key
  | v :: vs, c :: cs =>
    match v[c]?, readKey vs cs with
    | some x, some xs => some (x :: xs)
    | _, _ => none
  | _, _ => some []

/-- The carry loop
`for (int i = K-1; (i > 0) && (iterator_container[i] == vector_container[i].end()); --i)`,
started at index `i`. -/
def carry (vector_container : List (List Nat)) : Nat → List Nat → List Nat
  | 0, its => its
  | i + 1, its =>
    if atEnd vector_container its (i + 1) then
      let its1 := its.set (i + 1) 0
      carry vector_container i (its1.set i (its1.getD i 0 + 1))
    else its

/-- Increment of the odometer by one: `++iterator_container[K-1]` followed by the carry
loop. -/
def advance (vector_container : List (List Nat)) (its : List Nat) : List Nat :=
  let K := its.length
  carry vector_container (K - 1) (its.set (K - 1) (its.getD (K - 1) 0 + 1))

/-- The `while (iterator_container[0] != vector_container[0].end())` loop shared by both
`FillMap` functions: inserts one row per odometer position. The first argument bounds the
number of iterations; `none` when it is exhausted or when a key cannot be read. -/
def fillLoop {V : Type} (vector_container : List (List Nat)) (data : V) :
    Nat → List Nat → RowMap V → Option (RowMap V)
  | 0, _, _ => none
  | fuel + 1, its, m =>
    if atEnd vector_container its 0 then some m
    else
      match readKey vector_container its with
      | none => none
      | some key_vector =>
        fillLoop vector_container data fuel (advance vector_container its)
          (mapInsert key_vector data m)

/-- Steps 1, 2 and 4 of `FillMap` for a non-empty list of cardinalities: the vectors
`0..k-1`, the iterators at `begin()`, and the cascade loop, which is given one iteration
per row and one more for the final test. -/
def fillRows {V : Type} (states : List Nat) (data : V) (m : RowMap V) : Option (RowMap V) :=
  let vector_container := states.map List.range
  let iterator_container := vector_container.map (fun _ => 0)
  fillLoop vector_container data (states.prod + 1) iterator_container m

/-! ## ConditionalProbabilityTable -/

/-- State of a `ConditionalProbabilityTable` object. -/
structure ConditionalProbabilityTable where
  conditionalMap : RowMap (List ℚ)
  mTotalParentsStates : List Nat
deriving DecidableEq

/-- The private `FillMap(NodeStatesNumber, parentsStates)`. -/
def ConditionalProbabilityTable.FillMap (t : ConditionalProbabilityTable)
    (NodeStatesNumber : Nat) (parentsStates : List Nat) : Option ConditionalProbabilityTable :=
  let data_vector : List ℚ := List.replicate NodeStatesNumber ((1 : ℚ) / (NodeStatesNumber : ℚ))
  if parentsStates.length = 0 then
    some { t with conditionalMap := mapInsert [] data_vector t.conditionalMap }
  else
    (fillRows parentsStates data_vector t.conditionalMap).map
      (fun m => { t with conditionalMap := m })

/-- Constructor `ConditionalProbabilityTable(NodeStatesNumber)`: a table without
parents. -/
def ConditionalProbabilityTable.newRoot (NodeStatesNumber : Nat) :
    Option ConditionalProbabilityTable :=
  let n := if NodeStatesNumber < 2 then 2 else NodeStatesNumber
  ConditionalProbabilityTable.FillMap ⟨[], []⟩ n []

/-- Constructor `ConditionalProbabilityTable(NodeStatesNumber, parentsStates)`. -/
def ConditionalProbabilityTable.new (NodeStatesNumber : Nat) (parentsStates : List Nat) :
    Option ConditionalProbabilityTable :=
  let n := if NodeStatesNumber < 2 then 2 else NodeStatesNumber
  (ConditionalProbabilityTable.FillMap ⟨[], []⟩ n parentsStates).map
    (fun t => { t with mTotalParentsStates := parentsStates })

/-- Method `ReturnRowsNumber`. -/
def ConditionalProbabilityTable.ReturnRowsNumber (t : ConditionalProbabilityTable) : Nat :=
  t.conditionalMap.length

/-- Method `ReturnColumnsNumber`. -/
def ConditionalProbabilityTable.ReturnColumnsNumber (t : ConditionalProbabilityTable) : Nat :=
  if t.conditionalMap.length = 0 then 0
  else
    match t.conditionalMap with
    | [] => 0
    | (_, row) :: _ => row.length

/-- Method `ReturnRow(index)`. `none` when `std::advance` stops on `end()` and the
iterator is dereferenced there. -/
def ConditionalProbabilityTable.ReturnRow (t : ConditionalProbabilityTable) (index : Nat) :
    Option (Key × List ℚ) :=
  if index > t.conditionalMap.length then some ([], [])
  else t.conditionalMap[index]?

/-- Method `ReturnParentsState(index)`. `none` as for `ReturnRow`. -/
def ConditionalProbabilityTable.ReturnParentsState (t : ConditionalProbabilityTable)
    (index : Nat) : Option Key :=
  if index > t.conditionalMap.length then some []
  else (t.conditionalMap[index]?).map Prod.fst

/-- Method `GetProbability(variableState, parentsStates)`: the value returned (`none`
when `at` throws `std::out_of_range`) and the table as the call leaves it. -/
def ConditionalProbabilityTable.GetProbability (t : ConditionalProbabilityTable)
    (variableState : Nat) (parentsStates : Key) : Option ℚ × ConditionalProbabilityTable :=
  let r := mapSubscript parentsStates [] t.conditionalMap
  let row_vector := r.1
  (row_vector[variableState]?, { t with conditionalMap := r.2 })

/-- Method `GetProbabilities(parentsStates)`: the row returned and the table as the call
leaves it. -/
def ConditionalProbabilityTable.GetProbabilities (t : ConditionalProbabilityTable)
    (parentsStates : Key) : List ℚ × ConditionalProbabilityTable :=
  let r := mapSubscript parentsStates [] t.conditionalMap
  (r.1, { t with conditionalMap := r.2 })

/-- Body of the outer loop of `ConditionalProbabilityTable::NormalizeProbabilities` for
one row: the accumulation loop, then the guarded division loop, on rational entries with
the exact sum and the exact quotient (`binary64.normalizeRow` is the same loop on `double`
values). -/
def normalizeRow (row : List ℚ) : List ℚ :=
  let accumulator := row.foldl (fun acc x => acc + x) 0
  row.map (fun x => if accumulator ≠ 0 then x / accumulator else 0)

/-- Method `NormalizeProbabilities`. -/
def ConditionalProbabilityTable.NormalizeProbabilities (t : ConditionalProbabilityTable) :
    ConditionalProbabilityTable :=
  { t with conditionalMap := t.conditionalMap.map (fun r => (r.1, normalizeRow r.2)) }

/-- Method `SetProbabilities(parentsStates, probabilities)`: the value returned and the
table as the call leaves it. The assignment goes through `operator[]` on a key that
`find` has just found. -/
def ConditionalProbabilityTable.SetProbabilities (t : ConditionalProbabilityTable)
    (parentsStates : Key) (probabilities : List ℚ) : Bool × ConditionalProbabilityTable :=
  if (mapFind parentsStates t.conditionalMap).isSome then
    let m := mapModify parentsStates (fun _ => probabilities)
      (mapSubscript parentsStates [] t.conditionalMap).2
    (true, { t with conditionalMap := m })
  else (false, t)

/-- Ways in which a call of `AddToProbability` ends: it returns a value and leaves a
table; or `at` throws `std::out_of_range` before anything is written; or the unchecked
`operator[]` of the row is used past the end of the row (undefined behaviour). -/
inductive AddOutcome where
  | returned (value : Bool) (table : ConditionalProbabilityTable)
  | out_of_range
  | out_of_bounds
deriving DecidableEq

/-- Method `AddToProbability(variableState, parentsStates, valueToAdd)`. -/
def ConditionalProbabilityTable.AddToProbability (t : ConditionalProbabilityTable)
    (variableState : Nat) (parentsStates : Key) (valueToAdd : ℚ) : AddOutcome :=
  match mapFind parentsStates t.conditionalMap with
  | none => AddOutcome.out_of_range
  | some row =>
    if variableState > row.length then AddOutcome.returned false t
    else if variableState < row.length then
      let m := mapModify parentsStates
        (fun r => r.set variableState (r.getD variableState 0 + valueToAdd)) t.conditionalMap
      AddOutcome.returned true { t with conditionalMap := m }
    else AddOutcome.out_of_bounds

/-- Method `ResetProbabilities(valueToSet)`. -/
def ConditionalProbabilityTable.ResetProbabilities (t : ConditionalProbabilityTable)
    (valueToSet : ℚ) : ConditionalProbabilityTable :=
  { t with conditionalMap := t.conditionalMap.map (fun r => (r.1, r.2.map (fun _ => valueToSet))) }

/-- Method `AddVariable(totStates)`. `none` as for `FillMap`. -/
def ConditionalProbabilityTable.AddVariable (t : ConditionalProbabilityTable) (totStates : Nat) :
    Option ConditionalProbabilityTable :=
  let totStates1 := if totStates < 2 then 2 else totStates
  let t1 : ConditionalProbabilityTable :=
    { t with mTotalParentsStates := t.mTotalParentsStates ++ [totStates1] }
  let tot_columns := t1.ReturnColumnsNumber
  let t2 : ConditionalProbabilityTable := { t1 with conditionalMap := [] }
  t2.FillMap tot_columns t2.mTotalParentsStates

/-- The loop of `FindParentState`: `row` counts the rows passed, `rows_vector` collects
the positions found; both error branches return what has been collected so far. -/
def findParentStateLoop (parentIndex parentState : Nat) :
    RowMap (List ℚ) → Nat → List Nat → List Nat
  | [], _, rows_vector => rows_vector
  | (parents_vector, _) :: rest, row, rows_vector =>
    if parents_vector.length = 0 then rows_vector
    else if parentIndex > parents_vector.length - 1 then rows_vector
    else
      findParentStateLoop parentIndex parentState rest (row + 1)
        (if parents_vector.getD parentIndex 0 = parentState then rows_vector ++ [row]
         else rows_vector)

/-- Method `FindParentState(parentIndex, parentState)`: the list returned and the table
as the call leaves it. -/
def ConditionalProbabilityTable.FindParentState (t : ConditionalProbabilityTable)
    (parentIndex parentState : Nat) : List Nat × ConditionalProbabilityTable :=
  (findParentStateLoop parentIndex parentState t.conditionalMap 0 [], t)

/-- Method `ReturnSample(parentsStates)`: `outcome` is the value that the generator of the
call makes `std::discrete_distribution` return on the weights it is given. Returns the
sample and the table as the call leaves it (the row is read through `operator[]`). -/
def ConditionalProbabilityTable.ReturnSample (t : ConditionalProbabilityTable)
    (parentsStates : Key) (outcome : List ℚ → Nat) : Nat × ConditionalProbabilityTable :=
  let r := mapSubscript parentsStates [] t.conditionalMap
  (outcome r.1, { t with conditionalMap := r.2 })

/-- Method `Clear`. -/
def ConditionalProbabilityTable.Clear (_t : ConditionalProbabilityTable) :
    ConditionalProbabilityTable :=
  { conditionalMap := [], mTotalParentsStates := [] }

/-! ## JointProbabilityTable -/

/-- State of a `JointProbabilityTable` object. -/
structure JointProbabilityTable where
  mJointMap : RowMap ℚ
  mVariablesTotStatesVector : List Nat
deriving DecidableEq

/-- The private `FillMap(variablesTotStates)`. -/
def JointProbabilityTable.FillMap (t : JointProbabilityTable) (variablesTotStates : List Nat) :
    Option JointProbabilityTable :=
  if variablesTotStates.length = 0 then some t
  else
    (fillRows variablesTotStates (0 : ℚ) t.mJointMap).map (fun m => { t with mJointMap := m })

/-- Constructor `JointProbabilityTable(variablesTotStates)`. -/
def JointProbabilityTable.new (variablesTotStates : List Nat) : Option JointProbabilityTable :=
  (JointProbabilityTable.FillMap ⟨[], []⟩ variablesTotStates).map
    (fun t => { t with mVariablesTotStatesVector := variablesTotStates })

/-- Method `ReturnRowsNumber`. -/
def JointProbabilityTable.ReturnRowsNumber (t : JointProbabilityTable) : Nat :=
  t.mJointMap.length

/-- The loop of `ReturnKey`: walks the rows with a counter. -/
def returnKeyLoop (index : Nat) : RowMap ℚ → Nat → Key
  | [], _ => []
  | (k, _) :: rest, counter => if counter = index then k else returnKeyLoop index rest (counter + 1)

/-- Method `ReturnKey(index)`. -/
def JointProbabilityTable.ReturnKey (t : JointProbabilityTable) (index : Nat) : Key :=
  returnKeyLoop index t.mJointMap 0

/-- Method `AddVariable(totStates)`. `none` as for `FillMap`. -/
def JointProbabilityTable.AddVariable (t : JointProbabilityTable) (totStates : Nat) :
    Option JointProbabilityTable :=
  let totStates1 := if totStates < 2 then 2 else totStates
  let t1 : JointProbabilityTable :=
    { t with mVariablesTotStatesVector := t.mVariablesTotStatesVector ++ [totStates1] }
  let t2 : JointProbabilityTable := { t1 with mJointMap := [] }
  t2.FillMap t2.mVariablesTotStatesVector

/-- Method `GetProbability(variablesTotStates)`: the mass returned and the table as the
call leaves it. -/
def JointProbabilityTable.GetProbability (t : JointProbabilityTable) (variablesTotStates : Key) :
    ℚ × JointProbabilityTable :=
  let r := mapSubscript variablesTotStates (0 : ℚ) t.mJointMap
  (r.1, { t with mJointMap := r.2 })

/-- Method `SetProbability(variablesTotStates, probability)`: the value returned and the
table as the call leaves it. -/
def JointProbabilityTable.SetProbability (t : JointProbabilityTable) (variablesTotStates : Key)
    (probability : ℚ) : Bool × JointProbabilityTable :=
  if (mapFind variablesTotStates t.mJointMap).isSome then
    let m := mapModify variablesTotStates (fun _ => probability)
      (mapSubscript variablesTotStates (0 : ℚ) t.mJointMap).2
    (true, { t with mJointMap := m })
  else (false, t)

/-! ## Binary64 arithmetic -/

/-- A value of type `double`: the sign bit, the biased exponent (11 bits) and the fraction
(52 bits) of the IEEE 754 binary64 format. -/
structure Double where
  sign : Bool
  expo : Fin 2048
  frac : Fin 4503599627370496
deriving DecidableEq, Repr

/-- A zero of the given sign; `Double.zero false` is the constant `0.0`. -/
def Double.zero (s : Bool) : Double :=
  ⟨s, ⟨0, by decide⟩, ⟨0, by decide⟩⟩

/-- An infinity of the given sign. -/
def Double.inf (s : Bool) : Double :=
  ⟨s, ⟨2047, by decide⟩, ⟨0, by decide⟩⟩

/-- The not-a-number that an invalid operation returns. Which of the not-a-numbers of the
format results depends on the platform; no statement depends on the choice made here. -/
def Double.nan : Double :=
  ⟨false, ⟨2047, by decide⟩, ⟨2251799813685248, by decide⟩⟩

/-- Test `std::isnan`. -/
def Double.isNaN (x : Double) : Bool :=
  x.expo.val == 2047 && x.frac.val != 0

/-- Test `std::isinf`. -/
def Double.isInf (x : Double) : Bool :=
  x.expo.val == 2047 && x.frac.val == 0

/-- Test `std::isfinite`. -/
def Double.isFinite (x : Double) : Bool :=
  decide (x.expo.val < 2047)

/-- The integer significand of a finite value: the fraction, with the hidden bit when the
value is normal. -/
def Double.mant (x : Double) : Nat :=
  if x.expo.val = 0 then x.frac.val else 4503599627370496 + x.frac.val

/-- The binary exponent of the unit of the significand of a finite value. -/
def Double.ulpExp (x : Double) : Int :=
  if x.expo.val = 0 then -1074 else (x.expo.val : Int) - 1075

/-- The significand with the sign of the value. -/
def Double.smant (x : Double) : Int :=
  if x.sign then -(x.mant : Int) else (x.mant : Int)

/-- The number that a finite value stands for. -/
def Double.val (x : Double) : ℚ :=
  (x.smant : ℚ) * (2 : ℚ) ^ x.ulpExp

/-- The number of binary digits of `n`; the first argument bounds the recursion. -/
def bitLength : Nat → Nat → Nat
  | 0, _ => 0
  | fuel + 1, n => if n = 0 then 0 else bitLength fuel (n / 2) + 1

/-- The integer nearest to `n / d`, the even one of the two when `n / d` lies half way. -/
def roundHalfEven (n d : Nat) : Nat :=
  if 2 * (n % d) < d then n / d
  else if d < 2 * (n % d) then n / d + 1
  else if (n / d) % 2 = 0 then n / d else n / d + 1

/-- The exponent `e` with `2^e <= a / b < 2^(e+1)`, for positive `a` and `b`. -/
def binExp (a b : Nat) : Int :=
  let d : Int := (bitLength a a : Int) - (bitLength b b : Int)
  if b * 2 ^ d.toNat ≤ a * 2 ^ (-d).toNat then d else d - 1

/-- The value of sign `s` and magnitude `m * 2^e`, for `m <= 2^53`, with `e = -1074` when
`m < 2^52`: an infinity when the magnitude reaches `2^1024`. -/
def Double.pack (s : Bool) (m : Nat) (e : Int) : Double :=
  if m < 4503599627370496 then
    ⟨s, ⟨0, by decide⟩, ⟨m % 4503599627370496, Nat.mod_lt _ (by decide)⟩⟩
  else
    let m1 := if m < 9007199254740992 then m else m / 2
    let e1 := if m < 9007199254740992 then e else e + 1
    if e1 + 1075 < 2047 then
      ⟨s, ⟨(e1 + 1075).toNat % 2048, Nat.mod_lt _ (by decide)⟩,
        ⟨(m1 - 4503599627370496) % 4503599627370496, Nat.mod_lt _ (by decide)⟩⟩
    else Double.inf s

/-- Rounding to nearest, ties to even, of the number of sign `s` and magnitude `a / b`,
for positive `a` and `b`: the rounding that every operation of the format applies to its
exact result. The significand is taken at the exponent of the result, or at the least
exponent `-1074` when the result is subnormal. -/
def Double.round (s : Bool) (a b : Nat) : Double :=
  let e : Int := max (binExp a b - 52) (-1074)
  Double.pack s (roundHalfEven (a * 2 ^ (-e).toNat) (b * 2 ^ e.toNat)) e

/-- The `double` that a decimal literal or a converted integer denotes: the rounding of
the number. -/
def Double.ofRat (q : ℚ) : Double :=
  if q.num = 0 then Double.zero false
  else Double.round (decide (q.num < 0)) q.num.natAbs q.den

/-- The sum `x + y` of two `double` values. -/
def Double.add (x y : Double) : Double :=
  if x.isNaN || y.isNaN then Double.nan
  else if x.isInf then (if y.isInf && (x.sign != y.sign) then Double.nan else x)
  else if y.isInf then y
  else
    let e := min x.ulpExp y.ulpExp
    let k : Int := x.smant * 2 ^ (x.ulpExp - e).toNat + y.smant * 2 ^ (y.ulpExp - e).toNat
    if k = 0 then Double.zero (x.sign && y.sign)
    else Double.round (decide (k < 0)) (k.natAbs * 2 ^ e.toNat) (2 ^ (-e).toNat)

/-- The quotient `x / y` of two `double` values. -/
def Double.div (x y : Double) : Double :=
  if x.isNaN || y.isNaN then Double.nan
  else if x.isInf then (if y.isInf then Double.nan else Double.inf (xor x.sign y.sign))
  else if y.isInf then Double.zero (xor x.sign y.sign)
  else if y.mant = 0 then
    (if x.mant = 0 then Double.nan else Double.inf (xor x.sign y.sign))
  else if x.mant = 0 then Double.zero (xor x.sign y.sign)
  else
    let d := x.ulpExp - y.ulpExp
    Double.round (xor x.sign y.sign) (x.mant * 2 ^ d.toNat) (y.mant * 2 ^ (-d).toNat)

/-- The comparison `x != 0`: false on the two zeros only, true on a not-a-number. -/
def Double.neZero (x : Double) : Bool :=
  !(x.isFinite && x.mant == 0)

/-! ## The tables over binary64 values

The methods whose claims are about the values that the arithmetic of the program
produces, embedded on tables whose probabilities are `Double` values. -/

namespace binary64

/-- State of a `ConditionalProbabilityTable` object. -/
structure ConditionalProbabilityTable where
  conditionalMap : RowMap (List Double)
  mTotalParentsStates : List Nat
deriving DecidableEq

/-- Body of the outer loop of `ConditionalProbabilityTable::NormalizeProbabilities` for
one row: `double accumulator = 0`, the accumulation loop, then the guarded division
loop. -/
def normalizeRow (row : List Double) : List Double :=
  let accumulator := row.foldl Double.add (Double.zero false)
  row.map (fun x => if accumulator.neZero then Double.div x accumulator else Double.zero false)

/-- Method `NormalizeProbabilities`. -/
def ConditionalProbabilityTable.NormalizeProbabilities (t : ConditionalProbabilityTable) :
    ConditionalProbabilityTable :=
  { t with conditionalMap := t.conditionalMap.map (fun r => (r.1, normalizeRow r.2)) }

/-- The outer loop of `RandomizeProbabilities`. The generator of the call is the sequence
`draws` of the values of `real_dist(generator)`; `pos` is the number of values drawn so
far. Each row is refilled with as many draws as it had entries, which are accumulated as
they are drawn and then divided by the accumulator, with no test of the divisor. -/
def randomizeRows (draws : Nat → Double) : RowMap (List Double) → Nat → RowMap (List Double)
  | [], _ => []
  | (k, row) :: rest, pos =>
    let numberOfStates := row.length
    let values := (List.range numberOfStates).map (fun i => draws (pos + i))
    let accumulator := values.foldl Double.add (Double.zero false)
    (k, values.map (fun x => Double.div x accumulator))
      :: randomizeRows draws rest (pos + numberOfStates)

/-- Method `RandomizeProbabilities`, for the outcome `draws` of its generator. -/
def ConditionalProbabilityTable.RandomizeProbabilities (t : ConditionalProbabilityTable)
    (draws : Nat → Double) : ConditionalProbabilityTable :=
  { t with conditionalMap := randomizeRows draws t.conditionalMap 0 }

/-- State of a `JointProbabilityTable` object. -/
structure JointProbabilityTable where
  mJointMap : RowMap Double
  mVariablesTotStatesVector : List Nat
deriving DecidableEq

/-- The private `FillMap(variablesTotStates)`: every row is inserted with the mass `0`. -/
def JointProbabilityTable.FillMap (t : JointProbabilityTable) (variablesTotStates : List Nat) :
    Option JointProbabilityTable :=
  if variablesTotStates.length = 0 then some t
  else
    (fillRows variablesTotStates (Double.zero false) t.mJointMap).map
      (fun m => { t with mJointMap := m })

/-- Constructor `JointProbabilityTable(variablesTotStates)`. -/
def JointProbabilityTable.new (variablesTotStates : List Nat) : Option JointProbabilityTable :=
  (JointProbabilityTable.FillMap ⟨[], []⟩ variablesTotStates).map
    (fun t => { t with mVariablesTotStatesVector := variablesTotStates })

/-- Method `NormalizeProbabilities`: `double accumulator = 0`, the accumulation loop over
the rows, then the division loop, with no test of the divisor. -/
def JointProbabilityTable.NormalizeProbabilities (t : JointProbabilityTable) :
    JointProbabilityTable :=
  let accumulator := t.mJointMap.foldl (fun acc r => Double.add acc r.2) (Double.zero false)
  { t with mJointMap := t.mJointMap.map (fun r => (r.1, Double.div r.2 accumulator)) }

/-- The loop of `ReturnMarginal`: `none` when `at(variableIndex)` throws
`std::out_of_range` on the key of a row. -/
def returnMarginalLoop (variableIndex variableState : Nat) :
    RowMap Double → Double → Option Double
  | [], total => some total
  | (key, mass) :: rest, total =>
    match key[variableIndex]? with
    | none => none
    | some s =>
      returnMarginalLoop variableIndex variableState rest
        (if s = variableState then Double.add total mass else total)

/-- Method `ReturnMarginal(variableIndex, variableState)`. -/
def JointProbabilityTable.ReturnMarginal (t : JointProbabilityTable)
    (variableIndex variableState : Nat) : Option Double :=
  returnMarginalLoop variableIndex variableState t.mJointMap (Double.zero false)

end binary64

/-! ## Bayesnet and GibbsSampler -/

/-- Modelled from the spec: class `Bayesnode` is declared in `Bayesnode.h`, which is not
among the sources. Of a node the sampler uses the evidence (`IsEvidence()`,
`GetEvidence()`; in the spec `evidence: Option<uint>`, `None` for a latent node) and the
member `conditionalTable`. -/
structure Bayesnode where
  evidence : Option Nat
  conditionalTable : ConditionalProbabilityTable

/-- Modelled from the spec: the member functions of `Bayesnet` are declared in
`Bayesnet.h` and defined outside the sources. The network is the vector of its nodes,
indexed by their ids; the lists returned by `ReturnInEdges` and `ReturnTopologicalList`,
which the sampler only reads and which depend on the edges alone, are part of the
record. -/
structure Bayesnet where
  nodesVector : List Bayesnode
  inEdges : Nat → List Nat
  topologicalList : List Nat

/-- Method `ReturnNumberOfNodes`. -/
def Bayesnet.ReturnNumberOfNodes (net : Bayesnet) : Nat :=
  net.nodesVector.length

/-- Method `ReturnInEdges(index)`. -/
def Bayesnet.ReturnInEdges (net : Bayesnet) (index : Nat) : List Nat :=
  net.inEdges index

/-- Method `ReturnTopologicalList`. -/
def Bayesnet.ReturnTopologicalList (net : Bayesnet) : List Nat :=
  net.topologicalList

/-- The id `i` is that of a node which is not flagged as evidence. -/
def isNotEvidence (nodes : List Bayesnode) (i : Nat) : Bool :=
  match nodes[i]? with
  | some node => node.evidence.isNone
  | none => false

/-- Modelled from the spec: `ReturnNotEvidenceNodes()`, whose definition is outside the
sources: the ids of the nodes that are not flagged as evidence (listed here by increasing
id; the spec does not fix the order). -/
def Bayesnet.ReturnNotEvidenceNodes (net : Bayesnet) : List Nat :=
  (List.range net.nodesVector.length).filter (isNotEvidence net.nodesVector)

/-- Outcomes of the random generators. Every call of
`ConditionalProbabilityTable::ReturnSample` and of `GibbsSampler::ReturnInteger` seeds a
generator of its own; the calls are numbered in the order in which they are made, and the
source gives the value that the generator of each call produces: `discrete c weights`
for `std::discrete_distribution` on the weights, `integer c a b` for
`std::uniform_int_distribution` on the range from `a` to `b`. -/
structure RandomSource where
  discrete : Nat → List ℚ → Nat
  integer : Nat → Nat → Nat → Nat

/-- Method `GibbsSampler::ReturnInteger(minRange, maxRange)`, as call number `call`. -/
def GibbsSampler.ReturnInteger (rnd : RandomSource) (call : Nat) (minRange maxRange : Nat) : Nat :=
  rnd.integer call minRange maxRange

/-- The loop of `ReturnSample` that builds `key_vector` from `sample_map`: a parent whose
flag is false is skipped (with a message), the others contribute their value. The map is
a function: `operator[]` on a missing key gives the value-initialised pair. -/
def keyFromMap (sample_map : Nat → Bool × Nat) : List Nat → Key
  | [] => []
  | i :: in_list =>
    if (sample_map i).1 = false then keyFromMap sample_map in_list
    else (sample_map i).2 :: keyFromMap sample_map in_list

/-- The cycle of `ReturnSample` through the topological list. The state is the map of the
samples, the nodes (the table of a node changes when `ReturnSample` reads a row through
`operator[]`) and the number of generator calls made. `none` when `net[id]` is out of
range. -/
def returnSampleLoop (inEdges : Nat → List Nat) (rnd : RandomSource) :
    List Nat → (Nat → Bool × Nat) → List Bayesnode → Nat →
      Option ((Nat → Bool × Nat) × List Bayesnode × Nat)
  | [], sample_map, nodes, calls => some (sample_map, nodes, calls)
  | id :: topo, sample_map, nodes, calls =>
    let key_vector := keyFromMap sample_map (inEdges id)
    match nodes[id]? with
    | none => none
    | some node =>
      match node.evidence with
      | some ev =>
        returnSampleLoop inEdges rnd topo (fun j => if j = id then (true, ev) else sample_map j)
          nodes calls
      | none =>
        let r := node.conditionalTable.ReturnSample key_vector (rnd.discrete calls)
        returnSampleLoop inEdges rnd topo (fun j => if j = id then (true, r.1) else sample_map j)
          (nodes.set id { node with conditionalTable := r.2 }) (calls + 1)

/-- Method `GibbsSampler::ReturnSample(net)`, the generator calls being numbered from
`calls`: the sample, the network as the call leaves it and the number of the next
generator call. -/
def GibbsSampler.ReturnSample (net : Bayesnet) (rnd : RandomSource) (calls : Nat) :
    Option (List Nat × Bayesnet × Nat) :=
  let tot_nodes := net.ReturnNumberOfNodes
  match returnSampleLoop net.inEdges rnd net.ReturnTopologicalList (fun _ => (false, 0))
      net.nodesVector calls with
  | none => none
  | some (sample_map, nodes, calls1) =>
    some ((List.range tot_nodes).map (fun i => (sample_map i).2),
      { net with nodesVector := nodes }, calls1)

/-- The loop of `AccumulateSamples` that builds `key_vector` from the running sample;
`none` when an in-edge is not an index of the sample. -/
def keyFromSample (sample : List Nat) : List Nat → Option Key
  | [] => some []
  | i :: in_list =>
    match sample[i]?, keyFromSample sample in_list with
    | some state, some key => some (state :: key)
    | _, _ => none

/-- Body of the main loop of `AccumulateSamples`: one step of the chain from the running
sample. `none` when an index is out of range. -/
def chainStep (inEdges : Nat → List Nat) (rnd : RandomSource) (not_evidence_nodes_list : List Nat)
    (starting_sample_vector : List Nat) (nodes : List Bayesnode) (calls : Nat) :
    Option (List Nat × List Bayesnode × Nat) :=
  let temp_int := GibbsSampler.ReturnInteger rnd calls 0 (not_evidence_nodes_list.length - 1)
  match not_evidence_nodes_list[temp_int]? with
  | none => none
  | some selected_node =>
    match keyFromSample starting_sample_vector (inEdges selected_node) with
    | none => none
    | some key_vector =>
      match nodes[selected_node]? with
      | none => none
      | some node =>
        let r := node.conditionalTable.ReturnSample key_vector (rnd.discrete (calls + 1))
        if selected_node < starting_sample_vector.length then
          some (starting_sample_vector.set selected_node r.1,
            nodes.set selected_node { node with conditionalTable := r.2 }, calls + 2)
        else none

/-- The main loop of `AccumulateSamples`, run `steps` times: the samples pushed to
`vector_to_return`, in order, with the nodes and the call number it ends with. -/
def chainLoop (inEdges : Nat → List Nat) (rnd : RandomSource) (not_evidence_nodes_list : List Nat) :
    Nat → List Nat → List Bayesnode → Nat → Option (List (List Nat) × List Bayesnode × Nat)
  | 0, _, nodes, calls => some ([], nodes, calls)
  | steps + 1, starting_sample_vector, nodes, calls =>
    match chainStep inEdges rnd not_evidence_nodes_list starting_sample_vector nodes calls with
    | none => none
    | some (sample1, nodes1, calls1) =>
      match chainLoop inEdges rnd not_evidence_nodes_list steps sample1 nodes1 calls1 with
      | none => none
      | some (pushed, nodes2, calls2) => some (sample1 :: pushed, nodes2, calls2)

/-- The bound `cycles-1` of the loops of `AccumulateSamples`, computed on
`unsigned int`: subtracting 1 is adding `2^32 - 1` modulo `2^32`. -/
def cyclesMinusOne (cycles : Nat) : Nat :=
  (4294967295 + cycles) % 4294967296

/-- Method `GibbsSampler::AccumulateSamples(net, cycles)`, the generator calls being
numbered from `calls`: the samples, the network as the call leaves it and the number of
the next generator call. -/
def GibbsSampler.AccumulateSamples (net : Bayesnet) (rnd : RandomSource) (calls : Nat)
    (cycles : Nat) : Option (List (List Nat) × Bayesnet × Nat) :=
  match GibbsSampler.ReturnSample net rnd calls with
  | none => none
  | some (starting_sample_vector, net1, calls1) =>
    let not_evidence_nodes_list := net1.ReturnNotEvidenceNodes
    if net1.ReturnNumberOfNodes = 0 then some ([starting_sample_vector], net1, calls1)
    else if not_evidence_nodes_list.length = 0 then
      some (starting_sample_vector ::
        List.replicate (cyclesMinusOne cycles) starting_sample_vector, net1, calls1)
    else
      match chainLoop net1.inEdges rnd not_evidence_nodes_list (cyclesMinusOne cycles)
          starting_sample_vector net1.nodesVector calls1 with
      | none => none
      | some (pushed, nodes2, calls2) =>
        some (starting_sample_vector :: pushed, { net1 with nodesVector := nodes2 }, calls2)

/-! ## Specification-side notions -/

/-- Mixed-radix value of a key, in the words of the spec: the sum over `j` of `key[j]`
times the product of the cardinalities `k_l` for `l > j`. -/
def mixedRadixValue (states : List Nat) (key : Key) : Nat :=
  ((List.range states.length).map (fun j => key.getD j 0 * (states.drop (j + 1)).prod)).sum

/-- A key is in the Cartesian product of the cardinalities: same length, and every entry
below its cardinality. -/
def inProduct (states : List Nat) (key : Key) : Prop :=
  List.Forall₂ (fun c k => c < k) key states

/-- The digits of `v` in the mixed radix given by the cardinalities, most significant
first. -/
def digits : List Nat → Nat → Key
  | [], _ => []
  | _ :: ks, v => (v / ks.prod) :: digits ks (v % ks.prod)

/-- The same value computed along the two lists: the leading entry times the product of
the remaining cardinalities, plus the value of the tails. -/
def weightedValue : List Nat → Key → Nat
  | _ :: ks, c :: cs => c * ks.prod + weightedValue ks cs
  | _, _ => 0

/-- Index form of membership in the Cartesian product, with one position `i` allowed to
have reached its cardinality: the shape of the odometer inside the carry loop. -/
def MidCarry (states : List Nat) (its : List Nat) (i : Nat) : Prop :=
  its.length = states.length ∧
    (∀ j, j < states.length → j ≠ i → its.getD j 0 < states.getD j 0) ∧
    its.getD i 0 ≤ states.getD i 0

/-- One call of an editing method of a `ConditionalProbabilityTable`. -/
inductive TableEdit where
  | setProbabilities (parentsStates : Key) (probabilities : List ℚ)
  | addToProbability (variableState : Nat) (parentsStates : Key) (valueToAdd : ℚ)
  | normalizeProbabilities
  | resetProbabilities (valueToSet : ℚ)
  | addVariable (totStates : Nat)

/-- The table after one editing call. A call of `AddToProbability` that throws leaves the
table as it was; `none` when the call has no defined outcome. -/
def applyEdit (t : ConditionalProbabilityTable) : TableEdit → Option ConditionalProbabilityTable
  | TableEdit.setProbabilities k v => some (t.SetProbabilities k v).2
  | TableEdit.addToProbability s k d =>
    match t.AddToProbability s k d with
    | AddOutcome.returned _ t1 => some t1
    | AddOutcome.out_of_range => some t
    | AddOutcome.out_of_bounds => none
  | TableEdit.normalizeProbabilities => some t.NormalizeProbabilities
  | TableEdit.resetProbabilities v => some (t.ResetProbabilities v)
  | TableEdit.addVariable s => t.AddVariable s

/-- The table after a sequence of editing calls, made in the order of the list. -/
def applyEdits (t : ConditionalProbabilityTable) :
    List TableEdit → Option ConditionalProbabilityTable
  | [] => some t
  | e :: es =>
    match applyEdit t e with
    | none => none
    | some t1 => applyEdits t1 es

/-- The vectors passed to `SetProbabilities` in a sequence of calls all have length
`len`. -/
def setLengthsAre (len : Nat) : List TableEdit → Prop
  | [] => True
  | TableEdit.setProbabilities _ v :: es => v.length = len ∧ setLengthsAre len es
  | _ :: es => setLengthsAre len es

/-- The sequence of calls contains no `AddVariable`. -/
def noAddVariable : List TableEdit → Prop
  | [] => True
  | TableEdit.addVariable _ :: _ => False
  | _ :: es => noAddVariable es

/-- Row-length invariant of a table whose node has `len` states: every row has `len`
entries, and a table without rows has a first parent of cardinality 0. -/
def RowLengthInv (len : Nat) (t : ConditionalProbabilityTable) : Prop :=
  (∀ r ∈ t.conditionalMap, r.2.length = len) ∧
    (t.conditionalMap = [] → t.mTotalParentsStates.head? = some 0)

/-- The exact sum of the numbers that the values of a list stand for. -/
def exactSum (row : List Double) : ℚ :=
  (row.map Double.val).sum

/-- The values of a list are finite and not negative. -/
def NonNegFinite (row : List Double) : Prop :=
  ∀ x ∈ row, x.isFinite = true ∧ 0 ≤ x.val

/-- A list of fewer than `2^32` finite values, none negative, whose sum, accumulated from
`0.0` in the order of the list, does not overflow. -/
def SummableRow (row : List Double) : Prop :=
  NonNegFinite row ∧ (row.foldl Double.add (Double.zero false)).isFinite = true ∧
    row.length < 4294967296

/-- The masses of the rows whose `i`-th key entry equals `v`, in row order. -/
def massesAt (m : RowMap Double) (i v : Nat) : List Double :=
  (m.filter (fun r => decide (r.1[i]? = some v))).map Prod.snd

/-- The draws that `RandomizeProbabilities` gives to each row, in row order. -/
def drawsOfRows (draws : Nat → Double) : RowMap (List Double) → Nat → List (List Double)
  | [], _ => []
  | (_, row) :: rest, pos =>
    (List.range row.length).map (fun i => draws (pos + i))
      :: drawsOfRows draws rest (pos + row.length)

/-- The ids that occur in the lists of a network are ids of its nodes. -/
def Bayesnet.WellFormed (net : Bayesnet) : Prop :=
  (∀ i ∈ net.topologicalList, i < net.nodesVector.length) ∧
    ∀ j, ∀ i ∈ net.inEdges j, i < net.nodesVector.length

/-- The integers of the source lie in the range they are asked for. -/
def RandomSource.Valid (rnd : RandomSource) : Prop :=
  ∀ c a b, a ≤ b → a ≤ rnd.integer c a b ∧ rnd.integer c a b ≤ b

/-- The evidence of the node with id `i`, when there is such a node. -/
def evidenceOf (nodes : List Bayesnode) (i : Nat) : Option (Option Nat) :=
  (nodes[i]?).map (fun node => node.evidence)

/-- One sample follows another in the chain: it is the other with the entry of one node
of the list replaced. -/
def SingleSite (sites : List Nat) (a b : List Nat) : Prop :=
  ∃ s x, s ∈ sites ∧ s < a.length ∧ b = a.set s x

/-! ## Small networks used as instances -/

/-- The table of a binary node without parents, as the constructor builds it. -/
def uniformRoot : ConditionalProbabilityTable :=
  { conditionalMap := [([], [1 / 2, 1 / 2])], mTotalParentsStates := [] }

/-- The table of a binary node with one binary parent, as the constructor builds it. -/
def uniformChild : ConditionalProbabilityTable :=
  { conditionalMap := [([0], [1 / 2, 1 / 2]), ([1], [1 / 2, 1 / 2])],
    mTotalParentsStates := [2] }

/-- The in-edges of the chain `0 → 1`. -/
def chainEdges (j : Nat) : List Nat :=
  if j = 1 then [0] else []

/-- The network without nodes. -/
def emptyNet : Bayesnet :=
  { nodesVector := [], inEdges := fun _ => [], topologicalList := [] }

/-- The chain `0 → 1` of two binary latent nodes. -/
def chainNet : Bayesnet :=
  { nodesVector := [⟨none, uniformRoot⟩, ⟨none, uniformChild⟩],
    inEdges := chainEdges, topologicalList := [0, 1] }

/-- The chain `0 → 1` with node 0 fixed as evidence of value 1. -/
def evidenceNet : Bayesnet :=
  { nodesVector := [⟨some 1, uniformRoot⟩, ⟨none, uniformChild⟩],
    inEdges := chainEdges, topologicalList := [0, 1] }

/-- The chain `0 → 1` with both nodes fixed as evidence. -/
def allEvidenceNet : Bayesnet :=
  { nodesVector := [⟨some 1, uniformRoot⟩, ⟨some 0, uniformChild⟩],
    inEdges := chainEdges, topologicalList := [0, 1] }

/-- The random source whose generators always return the least value they can. -/
def leastSource : RandomSource :=
  { discrete := fun _ _ => 0, integer := fun _ a _ => a }

/-! ## Key order and insertion -/

theorem keyLt_irrefl (a : Key) : keyLt a a = false := by
  induction a with
  | nil => rfl
  | cons x xs ih => simp [keyLt, ih]

theorem keyLt_asymm : ∀ (a b : Key), keyLt a b = true → keyLt b a = false
  | [], [], h => by simp [keyLt] at h
  | [], _ :: _, _ => by simp [keyLt]
  | _ :: _, [], h => by simp [keyLt] at h
  | x :: xs, y :: ys, h => by
    simp only [keyLt] at h ⊢
    by_cases h1 : x < y
    · have h2 : ¬ y < x := by omega
      simp [h2, h1]
    · by_cases h2 : y < x
      · simp [h1, h2] at h
      · simp only [h1, h2, if_false] at h ⊢
        exact keyLt_asymm xs ys h

theorem keyLt_ne (a b : Key) (h : keyLt a b = true) : a ≠ b := by
  intro hab
  subst hab
  rw [keyLt_irrefl] at h
  exact Bool.false_ne_true h

theorem mapInsert_append {V : Type} (k : Key) (v : V) (m : RowMap V)
    (h : ∀ p ∈ m, keyLt p.1 k = true) : mapInsert k v m = m ++ [(k, v)] := by
  induction m with
  | nil => rfl
  | cons p rest ih =>
    obtain ⟨k', v'⟩ := p
    have h1 : keyLt k' k = true := h (k', v') (List.mem_cons_self _ _)
    have h2 : keyLt k k' = false := keyLt_asymm _ _ h1
    have h3 : k' ≠ k := keyLt_ne _ _ h1
    simp only [mapInsert, h2, h3, if_false, Bool.false_eq_true, List.cons_append]
    rw [ih (fun p hp => h p (List.mem_cons_of_mem _ hp))]

theorem weightedValue_cons (k : Nat) (ks : List Nat) (c : Nat) (cs : Key) :
    weightedValue (k :: ks) (c :: cs) = c * ks.prod + weightedValue ks cs := rfl

theorem mixedRadixValue_eq : ∀ (states : List Nat) (key : Key),
    mixedRadixValue states key = weightedValue states key
  | [], key => by simp [mixedRadixValue, weightedValue]
  | k :: ks, [] => by
    simp [mixedRadixValue, weightedValue]
  | k :: ks, c :: cs => by
    have ih := mixedRadixValue_eq ks cs
    rw [weightedValue_cons, ← ih]
    simp only [mixedRadixValue, List.length_cons, List.range_succ_eq_map, List.map_cons,
      List.sum_cons, List.map_map]
    congr 1

/-! ## Index lemmas for the odometer -/

theorem getD_set_self (l : List Nat) (i x : Nat) (h : i < l.length) :
    (l.set i x).getD i 0 = x := by
  simp [List.getD_eq_getElem?_getD, List.getElem?_set, h]

theorem getD_set_other (l : List Nat) (i j x : Nat) (h : i ≠ j) :
    (l.set i x).getD j 0 = l.getD j 0 := by
  simp [List.getD_eq_getElem?_getD, List.getElem?_set, h]

theorem drop_prod (ks : List Nat) (i : Nat) (h : i < ks.length) :
    (ks.drop i).prod = ks.getD i 0 * (ks.drop (i + 1)).prod := by
  rw [List.drop_eq_getElem_cons h, List.prod_cons]
  simp [List.getD_eq_getElem?_getD, List.getElem?_eq_getElem h]

theorem weightedValue_set : ∀ (ks : List Nat) (its : Key) (i x : Nat),
    its.length = ks.length → i < ks.length →
    weightedValue ks (its.set i x) + its.getD i 0 * (ks.drop (i + 1)).prod
      = weightedValue ks its + x * (ks.drop (i + 1)).prod
  | [], _, _, _, _, h => by simp at h
  | _ :: _, [], _, _, h, _ => by simp at h
  | k :: ks, c :: cs, 0, x, _, _ => by
    simp [weightedValue_cons]
    ring
  | k :: ks, c :: cs, i + 1, x, hl, hi => by
    have ih := weightedValue_set ks cs i x (by simpa using hl) (by simpa using hi)
    simp only [List.set_cons_succ, weightedValue_cons, List.getD_cons_succ, List.drop_succ_cons]
    omega

theorem atEnd_range (ks : List Nat) (its : List Nat) (i : Nat) :
    atEnd (ks.map List.range) its i = true ↔ its.getD i 0 = ks.getD i 0 := by
  have : ((ks.map List.range).getD i []).length = ks.getD i 0 := by
    simp only [List.getD_eq_getElem?_getD, List.getElem?_map]
    cases ks[i]? <;> simp
  unfold atEnd
  rw [this]
  simp

theorem carry_spec (ks : List Nat) (hpos : ∀ j, j < ks.length → 1 ≤ ks.getD j 0) :
    ∀ (i : Nat) (its : List Nat), i < ks.length → MidCarry ks its i →
      MidCarry ks (carry (ks.map List.range) i its) 0 ∧
        weightedValue ks (carry (ks.map List.range) i its) = weightedValue ks its := by
  intro i
  induction i with
  | zero => intro its _ h; exact ⟨h, rfl⟩
  | succ i ih =>
    intro its hi hmid
    obtain ⟨hlen, hval, htop⟩ := hmid
    have hi0 : i < ks.length := by omega
    unfold carry
    by_cases hend : atEnd (ks.map List.range) its (i + 1) = true
    · rw [if_pos hend]
      have heq : its.getD (i + 1) 0 = ks.getD (i + 1) 0 := (atEnd_range ks its (i + 1)).1 hend
      have h1 : (its.set (i + 1) 0).getD i 0 = its.getD i 0 :=
        getD_set_other its (i + 1) i 0 (by omega)
      have hlen1 : (its.set (i + 1) 0).length = ks.length := by simp [hlen]
      have hmid2 : MidCarry ks ((its.set (i + 1) 0).set i ((its.set (i + 1) 0).getD i 0 + 1)) i := by
        refine ⟨by simp [hlen], ?_, ?_⟩
        · intro j hj hji
          rw [getD_set_other _ i j _ (by omega)]
          by_cases hj1 : j = i + 1
          · subst hj1
            rw [getD_set_self its (i + 1) 0 (by omega)]
            exact hpos _ hj
          · rw [getD_set_other its (i + 1) j 0 (by omega)]
            exact hval j hj hj1
        · rw [getD_set_self _ i _ (by omega), h1]
          have := hval i hi0 (by omega)
          omega
      obtain ⟨r1, r2⟩ := ih _ hi0 hmid2
      refine ⟨r1, ?_⟩
      rw [r2]
      have e1 := weightedValue_set ks its (i + 1) 0 hlen hi
      have e2 := weightedValue_set ks (its.set (i + 1) 0) i
        ((its.set (i + 1) 0).getD i 0 + 1) hlen1 hi0
      have e3 := drop_prod ks (i + 1) hi
      rw [heq] at e1
      rw [e3] at e2
      rw [h1] at e2 ⊢
      simp only [Nat.zero_mul, Nat.add_zero, Nat.add_mul, Nat.one_mul] at e1 e2
      omega
    · rw [if_neg hend]
      refine ⟨⟨hlen, ?_, ?_⟩, rfl⟩
      · intro j hj hj0
        by_cases hj1 : j = i + 1
        · subst hj1
          have hne : its.getD (i + 1) 0 ≠ ks.getD (i + 1) 0 :=
            fun h => hend ((atEnd_range ks its (i + 1)).2 h)
          omega
        · exact hval j hj hj1
      · have := hval 0 (by omega) (by omega)
        omega

/-! ## Mixed-radix digits -/

theorem inProduct_nil : inProduct [] [] := List.Forall₂.nil

theorem inProduct_cons (k : Nat) (ks : List Nat) (c : Nat) (cs : Key) :
    inProduct (k :: ks) (c :: cs) ↔ c < k ∧ inProduct ks cs := by
  simp [inProduct]

theorem inProduct_length (ks : List Nat) (its : Key) (h : inProduct ks its) :
    its.length = ks.length := List.Forall₂.length_eq h

theorem inProduct_index : ∀ (ks : List Nat) (its : Key),
    inProduct ks its ↔
      its.length = ks.length ∧ ∀ j, j < ks.length → its.getD j 0 < ks.getD j 0
  | [], [] => by simp [inProduct]
  | [], _ :: _ => by simp [inProduct]
  | _ :: _, [] => by simp [inProduct]
  | k :: ks, c :: cs => by
    rw [inProduct_cons, inProduct_index ks cs]
    constructor
    · rintro ⟨h0, hl, hr⟩
      refine ⟨by simp [hl], ?_⟩
      intro j hj
      cases j with
      | zero => simpa using h0
      | succ j =>
        simp only [List.getD_cons_succ]
        exact hr j (by simpa using hj)
    · rintro ⟨hl, hr⟩
      refine ⟨by simpa using hr 0 (by simp), by simpa using hl, ?_⟩
      intro j hj
      have := hr (j + 1) (by simpa using hj)
      simpa only [List.getD_cons_succ] using this

theorem weightedValue_lt : ∀ (ks : List Nat) (its : Key),
    inProduct ks its → weightedValue ks its < ks.prod
  | [], [], _ => by simp [weightedValue]
  | [], _ :: _, h => by simp [inProduct] at h
  | _ :: _, [], h => by simp [inProduct] at h
  | k :: ks, c :: cs, h => by
    rw [inProduct_cons] at h
    have ih := weightedValue_lt ks cs h.2
    rw [weightedValue_cons, List.prod_cons]
    calc c * ks.prod + weightedValue ks cs < c * ks.prod + ks.prod := by omega
      _ = (c + 1) * ks.prod := by ring
      _ ≤ k * ks.prod := Nat.mul_le_mul_right _ h.1

theorem digits_weightedValue : ∀ (ks : List Nat) (its : Key),
    inProduct ks its → digits ks (weightedValue ks its) = its
  | [], [], _ => rfl
  | [], _ :: _, h => by simp [inProduct] at h
  | _ :: _, [], h => by simp [inProduct] at h
  | k :: ks, c :: cs, h => by
    rw [inProduct_cons] at h
    have hlt := weightedValue_lt ks cs h.2
    have ih := digits_weightedValue ks cs h.2
    have hpos : 0 < ks.prod := by omega
    rw [weightedValue_cons]
    simp only [digits]
    have e1 : (c * ks.prod + weightedValue ks cs) / ks.prod = c := by
      rw [Nat.add_comm, Nat.add_mul_div_right _ _ hpos, Nat.div_eq_of_lt hlt, Nat.zero_add]
    have e2 : (c * ks.prod + weightedValue ks cs) % ks.prod = weightedValue ks cs := by
      rw [Nat.add_comm, Nat.add_mul_mod_self_right, Nat.mod_eq_of_lt hlt]
    rw [e1, e2, ih]

theorem prod_pos_of_pos (ks : List Nat) (hpos : ∀ k ∈ ks, 1 ≤ k) : 0 < ks.prod := by
  induction ks with
  | nil => simp
  | cons k ks ih =>
    rw [List.prod_cons]
    exact Nat.mul_pos (hpos k (List.mem_cons_self _ _))
      (ih (fun x hx => hpos x (List.mem_cons_of_mem _ hx)))

theorem digits_spec : ∀ (ks : List Nat) (v : Nat), (∀ k ∈ ks, 1 ≤ k) → v < ks.prod →
    inProduct ks (digits ks v) ∧ weightedValue ks (digits ks v) = v
  | [], v, _, _ => by simp [digits, inProduct, weightedValue] at *; omega
  | k :: ks, v, hpos, hv => by
    have hp : 0 < ks.prod := prod_pos_of_pos ks (fun x hx => hpos x (List.mem_cons_of_mem _ hx))
    have ih := digits_spec ks (v % ks.prod) (fun x hx => hpos x (List.mem_cons_of_mem _ hx))
      (Nat.mod_lt _ hp)
    rw [List.prod_cons] at hv
    simp only [digits, inProduct_cons, weightedValue_cons]
    refine ⟨⟨?_, ih.1⟩, ?_⟩
    · exact (Nat.div_lt_iff_lt_mul hp).2 hv
    · rw [ih.2]
      exact Nat.div_add_mod' v ks.prod

theorem digits_lt : ∀ (ks : List Nat) (v w : Nat), (∀ k ∈ ks, 1 ≤ k) → v < w → w < ks.prod →
    keyLt (digits ks v) (digits ks w) = true
  | [], v, w, _, hvw, hw => by simp at hw; omega
  | k :: ks, v, w, hpos, hvw, hw => by
    have hpos1 : ∀ x ∈ ks, 1 ≤ x := fun x hx => hpos x (List.mem_cons_of_mem _ hx)
    have hp : 0 < ks.prod := prod_pos_of_pos ks hpos1
    simp only [digits, keyLt]
    have hle : v / ks.prod ≤ w / ks.prod := Nat.div_le_div_right (Nat.le_of_lt hvw)
    by_cases h1 : v / ks.prod < w / ks.prod
    · simp [h1]
    · have heq : v / ks.prod = w / ks.prod := by omega
      have h2 : ¬ w / ks.prod < v / ks.prod := by omega
      simp only [h1, h2, if_false]
      apply digits_lt ks _ _ hpos1 _ (Nat.mod_lt _ hp)
      have ev := Nat.div_add_mod v ks.prod
      have ew := Nat.div_add_mod w ks.prod
      rw [heq] at ev
      omega

theorem digits_zero : ∀ (ks : List Nat),
    digits ks 0 = (ks.map List.range).map (fun _ => 0)
  | [] => rfl
  | k :: ks => by
    simp only [digits, Nat.zero_div, Nat.zero_mod, List.map_cons]
    rw [digits_zero ks]

theorem readKey_valid : ∀ (ks : List Nat) (its : Key),
    inProduct ks its → readKey (ks.map List.range) its = some its
  | [], [], _ => rfl
  | [], _ :: _, h => by simp [inProduct] at h
  | _ :: _, [], h => by simp [inProduct] at h
  | k :: ks, c :: cs, h => by
    rw [inProduct_cons] at h
    have ih := readKey_valid ks cs h.2
    simp only [List.map_cons, readKey, ih, List.getElem?_range h.1]

/-! ## The increment and the fill loop -/

theorem pos_index (ks : List Nat) (hpos : ∀ k ∈ ks, 1 ≤ k) :
    ∀ j, j < ks.length → 1 ≤ ks.getD j 0 := by
  intro j hj
  have : ks.getD j 0 = ks[j] := by
    simp [List.getD_eq_getElem?_getD, List.getElem?_eq_getElem hj]
  rw [this]
  exact hpos _ (List.getElem_mem hj)

theorem advance_spec (ks : List Nat) (hne : 0 < ks.length) (hpos : ∀ k ∈ ks, 1 ≤ k)
    (its : Key) (hin : inProduct ks its) :
    MidCarry ks (advance (ks.map List.range) its) 0 ∧
      weightedValue ks (advance (ks.map List.range) its) = weightedValue ks its + 1 := by
  obtain ⟨hlen, hval⟩ := (inProduct_index ks its).1 hin
  have hK : its.length - 1 < ks.length := by omega
  have hmid : MidCarry ks (its.set (its.length - 1) (its.getD (its.length - 1) 0 + 1))
      (its.length - 1) := by
    refine ⟨by simp [hlen], ?_, ?_⟩
    · intro j hj hne1
      rw [getD_set_other _ _ j _ (fun h => hne1 h.symm)]
      exact hval j hj
    · rw [getD_set_self _ _ _ (by omega)]
      have := hval _ hK
      omega
  obtain ⟨r1, r2⟩ := carry_spec ks (pos_index ks hpos) _ _ hK hmid
  unfold advance
  refine ⟨r1, ?_⟩
  rw [r2]
  have e := weightedValue_set ks its (its.length - 1) (its.getD (its.length - 1) 0 + 1) hlen hK
  have hd : (ks.drop (its.length - 1 + 1)).prod = 1 := by
    rw [List.drop_of_length_le (by omega)]
    rfl
  rw [hd] at e
  omega

theorem midCarry_zero_cases : ∀ (ks : List Nat) (r : Key), 0 < ks.length → MidCarry ks r 0 →
    inProduct ks r ∨ (r.getD 0 0 = ks.getD 0 0 ∧ ks.prod ≤ weightedValue ks r)
  | [], _, h, _ => by simp at h
  | _ :: _, [], _, h => by simp [MidCarry] at h
  | k :: ks, c :: cs, _, ⟨hlen, hval, htop⟩ => by
    simp only [List.getD_cons_zero] at htop
    by_cases hc : c = k
    · right
      subst hc
      refine ⟨rfl, ?_⟩
      rw [weightedValue_cons, List.prod_cons]
      omega
    · left
      rw [inProduct_index]
      refine ⟨hlen, ?_⟩
      intro j hj
      by_cases hj0 : j = 0
      · subst hj0
        simp only [List.getD_cons_zero]
        omega
      · exact hval j hj hj0

theorem advance_digits_lt (ks : List Nat) (hne : 0 < ks.length) (hpos : ∀ k ∈ ks, 1 ≤ k)
    (v : Nat) (hv : v + 1 < ks.prod) :
    advance (ks.map List.range) (digits ks v) = digits ks (v + 1) := by
  obtain ⟨hin, hw⟩ := digits_spec ks v hpos (by omega)
  obtain ⟨r1, r2⟩ := advance_spec ks hne hpos _ hin
  rw [hw] at r2
  rcases midCarry_zero_cases ks _ hne r1 with h | ⟨_, h⟩
  · have := digits_weightedValue ks _ h
    rw [r2] at this
    exact this.symm
  · omega

theorem advance_digits_end (ks : List Nat) (hne : 0 < ks.length) (hpos : ∀ k ∈ ks, 1 ≤ k)
    (v : Nat) (hv : v + 1 = ks.prod) :
    atEnd (ks.map List.range) (advance (ks.map List.range) (digits ks v)) 0 = true := by
  obtain ⟨hin, hw⟩ := digits_spec ks v hpos (by omega)
  obtain ⟨r1, r2⟩ := advance_spec ks hne hpos _ hin
  rw [hw] at r2
  rw [atEnd_range]
  rcases midCarry_zero_cases ks _ hne r1 with h | ⟨h, _⟩
  · have := weightedValue_lt ks _ h
    omega
  · exact h

theorem digits_not_atEnd (ks : List Nat) (hne : 0 < ks.length) (hpos : ∀ k ∈ ks, 1 ≤ k)
    (v : Nat) (hv : v < ks.prod) :
    atEnd (ks.map List.range) (digits ks v) 0 = false := by
  obtain ⟨hin, _⟩ := digits_spec ks v hpos hv
  have := ((inProduct_index ks _).1 hin).2 0 hne
  cases h : atEnd (ks.map List.range) (digits ks v) 0
  · rfl
  · rw [atEnd_range] at h
    omega

/-- Inserting the keys of the positions `v, v+1, ..., v+n-1` in turn. -/
theorem fillLoop_digits {V : Type} (ks : List Nat) (hne : 0 < ks.length)
    (hpos : ∀ k ∈ ks, 1 ≤ k) (data : V) :
    ∀ (n v : Nat) (m : RowMap V), v + n = ks.prod →
      fillLoop (ks.map List.range) data (n + 1)
          (if n = 0 then advance (ks.map List.range) (digits ks (v - 1)) else digits ks v) m
        = some ((List.range' v n).foldl (fun acc w => mapInsert (digits ks w) data acc) m) := by
  intro n
  induction n with
  | zero =>
    intro v m hv
    have hp := prod_pos_of_pos ks hpos
    simp only [if_true, fillLoop, List.range'_zero, List.foldl_nil]
    rw [advance_digits_end ks hne hpos (v - 1) (by omega)]
    rfl
  | succ n ih =>
    intro v m hv
    obtain ⟨hin, _⟩ := digits_spec ks v hpos (by omega)
    rw [if_neg (by omega)]
    rw [fillLoop, digits_not_atEnd ks hne hpos v (by omega)]
    simp only [Bool.false_eq_true, if_false, readKey_valid ks _ hin, List.range'_succ,
      List.foldl_cons]
    have := ih (v + 1) (mapInsert (digits ks v) data m) (by omega)
    rw [← this]
    by_cases hn : n = 0
    · simp [hn]
    · rw [if_neg hn, advance_digits_lt ks hne hpos v (by omega)]

/-! ## The constructed tables -/

theorem foldl_insert_range {V : Type} (ks : List Nat) (hpos : ∀ k ∈ ks, 1 ≤ k) (data : V) :
    ∀ n, n ≤ ks.prod →
      (List.range n).foldl (fun acc w => mapInsert (digits ks w) data acc) []
        = (List.range n).map (fun w => (digits ks w, data)) := by
  intro n
  induction n with
  | zero => intro _; rfl
  | succ n ih =>
    intro hn
    rw [List.range_succ, List.foldl_append, ih (by omega), List.map_append]
    simp only [List.foldl_cons, List.foldl_nil, List.map_cons, List.map_nil]
    apply mapInsert_append
    intro p hp
    obtain ⟨w, hw, rfl⟩ := List.mem_map.1 hp
    exact digits_lt ks w n hpos (List.mem_range.1 hw) (by omega)

theorem fillRows_eq {V : Type} (ks : List Nat) (hne : 0 < ks.length)
    (hpos : ∀ k ∈ ks, 1 ≤ k) (data : V) :
    fillRows ks data [] = some ((List.range ks.prod).map (fun w => (digits ks w, data))) := by
  have hp := prod_pos_of_pos ks hpos
  have h := fillLoop_digits ks hne hpos data ks.prod 0 [] (by omega)
  rw [if_neg (by omega), digits_zero, ← List.range_eq_range',
    foldl_insert_range ks hpos data _ (Nat.le_refl _)] at h
  exact h

theorem cpt_new_eq (n : Nat) (ps : List Nat) (hpos : ∀ k ∈ ps, 1 ≤ k) :
    ConditionalProbabilityTable.new n ps =
      some ⟨(List.range ps.prod).map (fun w =>
        (digits ps w, List.replicate (max n 2) ((1 : ℚ) / ((max n 2 : Nat) : ℚ)))), ps⟩ := by
  have hn : (if n < 2 then 2 else n) = max n 2 := by
    by_cases h : n < 2
    · rw [if_pos h]; omega
    · rw [if_neg h]; omega
  unfold ConditionalProbabilityTable.new ConditionalProbabilityTable.FillMap
  simp only [hn]
  cases ps with
  | nil => simp [mapInsert, digits]
  | cons k ks =>
    rw [if_neg (by simp), fillRows_eq (k :: ks) (by simp) hpos]
    rfl

theorem jpt_new_eq (vs : List Nat) (hne : 0 < vs.length) (hpos : ∀ k ∈ vs, 1 ≤ k) :
    JointProbabilityTable.new vs =
      some ⟨(List.range vs.prod).map (fun w => (digits vs w, (0 : ℚ))), vs⟩ := by
  unfold JointProbabilityTable.new JointProbabilityTable.FillMap
  rw [if_neg (by omega), fillRows_eq vs hne hpos]
  rfl

theorem keys_map_digits {V : Type} (ks : List Nat) (data : V) (n : Nat) :
    ((List.range n).map (fun w => (digits ks w, data))).map Prod.fst
      = (List.range n).map (digits ks) := by
  simp [List.map_map, Function.comp_def]

theorem mem_digits_iff (ks : List Nat) (hpos : ∀ k ∈ ks, 1 ≤ k) (key : Key) :
    key ∈ (List.range ks.prod).map (digits ks) ↔ inProduct ks key := by
  constructor
  · intro h
    obtain ⟨w, hw, rfl⟩ := List.mem_map.1 h
    exact (digits_spec ks w hpos (List.mem_range.1 hw)).1
  · intro h
    exact List.mem_map.2 ⟨weightedValue ks key, List.mem_range.2 (weightedValue_lt ks key h),
      digits_weightedValue ks key h⟩

theorem nodup_digits (ks : List Nat) (hpos : ∀ k ∈ ks, 1 ≤ k) :
    ((List.range ks.prod).map (digits ks)).Nodup := by
  apply List.Nodup.map_on _ (List.nodup_range _)
  intro x hx y hy hxy
  have ex := (digits_spec ks x hpos (List.mem_range.1 hx)).2
  have ey := (digits_spec ks y hpos (List.mem_range.1 hy)).2
  rw [← ex, ← ey, hxy]

/-! ## Claims on row generation -/

theorem returnKeyLoop_eq (index : Nat) : ∀ (m : RowMap ℚ) (counter : Nat), counter ≤ index →
    returnKeyLoop index m counter = ((m[index - counter]?).map Prod.fst).getD []
  | [], _, _ => by simp [returnKeyLoop]
  | (k, x) :: rest, counter, h => by
    unfold returnKeyLoop
    by_cases hc : counter = index
    · subst hc
      simp
    · rw [if_neg hc, returnKeyLoop_eq index rest (counter + 1) (by omega)]
      have : index - counter = (index - (counter + 1)) + 1 := by omega
      rw [this, List.getElem?_cons_succ]

theorem getElem?_range_map {α : Type} (f : Nat → α) (n i : Nat) (h : i < n) :
    ((List.range n).map f)[i]? = some (f i) := by
  rw [List.getElem?_map, List.getElem?_range h]
  rfl

/-- C1: for every node state count and every list of parent cardinalities that are all at
least 1 (the empty list included), the constructor returns a table whose row keys are
exactly the tuples `key` of the length of the list with `key[i] < k_i`, each present
once, so that `ReturnRowsNumber()` is the product of the cardinalities (1 for the empty
list, whose single key is the empty tuple, and for which the one-argument constructor
builds the same table); for `[2,3]` the keys are the six listed. -/
theorem C1_rows_are_the_cartesian_product (n : Nat) (ps : List Nat)
    (hpos : ∀ k ∈ ps, 1 ≤ k) :
    ∃ t, ConditionalProbabilityTable.new n ps = some t ∧
      (∀ key : Key, key ∈ t.conditionalMap.map Prod.fst ↔
        (key.length = ps.length ∧ ∀ i, i < ps.length → key.getD i 0 < ps.getD i 0)) ∧
      (t.conditionalMap.map Prod.fst).Nodup ∧
      t.ReturnRowsNumber = ps.prod ∧
      (ps = [] → t.conditionalMap.map Prod.fst = [[]] ∧
        ConditionalProbabilityTable.newRoot n = some t) ∧
      (ps = [2, 3] →
        t.conditionalMap.map Prod.fst = [[0, 0], [0, 1], [0, 2], [1, 0], [1, 1], [1, 2]]) := by
  refine ⟨_, cpt_new_eq n ps hpos, ?_, ?_, ?_, ?_, ?_⟩
  · intro key
    rw [keys_map_digits, mem_digits_iff ps hpos, inProduct_index]
  · rw [keys_map_digits]
    exact nodup_digits ps hpos
  · simp [ConditionalProbabilityTable.ReturnRowsNumber]
  · intro h
    subst h
    refine ⟨by rw [keys_map_digits]; decide, ?_⟩
    rw [← cpt_new_eq n [] hpos]
    rfl
  · intro h
    subst h
    rw [keys_map_digits]
    decide

/-- Instance of C1 at two states and parents `[2,3]`. -/
theorem C1_rows_are_the_cartesian_product_witness :
    (∀ k ∈ [2, 3], 1 ≤ k) ∧
    ∃ t, ConditionalProbabilityTable.new 2 [2, 3] = some t ∧
      (∀ key : Key, key ∈ t.conditionalMap.map Prod.fst ↔
        (key.length = [2, 3].length ∧
          ∀ i, i < [2, 3].length → key.getD i 0 < [2, 3].getD i 0)) ∧
      (t.conditionalMap.map Prod.fst).Nodup ∧
      t.ReturnRowsNumber = [2, 3].prod ∧
      ([2, 3] = [] → t.conditionalMap.map Prod.fst = [[]] ∧
        ConditionalProbabilityTable.newRoot 2 = some t) ∧
      ([2, 3] = [2, 3] →
        t.conditionalMap.map Prod.fst = [[0, 0], [0, 1], [0, 2], [1, 0], [1, 1], [1, 2]]) :=
  ⟨by decide, C1_rows_are_the_cartesian_product 2 [2, 3] (by decide)⟩

/-- C2: for a table built from parent cardinalities that are all at least 1 (one parent
or more; the statement also holds without parents) and every index `i` below the product
of the cardinalities, `ReturnParentsState(i)` and the key of `ReturnRow(i)` are the same
tuple of the Cartesian product, and the sum over `j` of `key[j]` times the product of the
later cardinalities is `i`: the rows are stored in mixed-radix order with the last parent
as least significant digit. -/
theorem C2_rows_are_in_odometer_order (n : Nat) (ps : List Nat)
    (hpos : ∀ k ∈ ps, 1 ≤ k) :
    ∃ t, ConditionalProbabilityTable.new n ps = some t ∧
      ∀ i, i < ps.prod →
        ∃ (key : Key) (row : List ℚ),
          t.ReturnParentsState i = some key ∧ t.ReturnRow i = some (key, row) ∧
          key.length = ps.length ∧ (∀ j, j < ps.length → key.getD j 0 < ps.getD j 0) ∧
          mixedRadixValue ps key = i := by
  refine ⟨_, cpt_new_eq n ps hpos, ?_⟩
  intro i hi
  obtain ⟨hin, hw⟩ := digits_spec ps i hpos hi
  obtain ⟨hl, hv⟩ := (inProduct_index ps _).1 hin
  refine ⟨digits ps i, List.replicate (max n 2) ((1 : ℚ) / ((max n 2 : Nat) : ℚ)),
    ?_, ?_, hl, hv, ?_⟩
  · simp only [ConditionalProbabilityTable.ReturnParentsState, List.length_map,
      List.length_range]
    rw [if_neg (by omega), getElem?_range_map _ _ _ hi]
    rfl
  · simp only [ConditionalProbabilityTable.ReturnRow, List.length_map, List.length_range]
    rw [if_neg (by omega), getElem?_range_map _ _ _ hi]
  · rw [mixedRadixValue_eq, hw]

/-- Instance of C2 at parents `[2,3]`. -/
theorem C2_rows_are_in_odometer_order_witness :
    (∀ k ∈ [2, 3], 1 ≤ k) ∧
    ∃ t, ConditionalProbabilityTable.new 2 [2, 3] = some t ∧
      ∀ i, i < [2, 3].prod →
        ∃ (key : Key) (row : List ℚ),
          t.ReturnParentsState i = some key ∧ t.ReturnRow i = some (key, row) ∧
          key.length = [2, 3].length ∧
          (∀ j, j < [2, 3].length → key.getD j 0 < [2, 3].getD j 0) ∧
          mixedRadixValue [2, 3] key = i :=
  ⟨by decide, C2_rows_are_in_odometer_order 2 [2, 3] (by decide)⟩

/-- C3: for every requested node state count `n` and every list of parent cardinalities
that are all at least 1, every row of the constructed table has `max(n,2)` entries, each
equal to `1/max(n,2)`, and `ReturnColumnsNumber()` is `max(n,2)`. -/
theorem C3_rows_are_uniform (n : Nat) (ps : List Nat) (hpos : ∀ k ∈ ps, 1 ≤ k) :
    ∃ t, ConditionalProbabilityTable.new n ps = some t ∧
      (∀ r ∈ t.conditionalMap,
        r.2.length = max n 2 ∧ ∀ x ∈ r.2, x = (1 : ℚ) / ((max n 2 : Nat) : ℚ)) ∧
      t.ReturnColumnsNumber = max n 2 := by
  refine ⟨_, cpt_new_eq n ps hpos, ?_, ?_⟩
  · intro r hr
    obtain ⟨w, _, rfl⟩ := List.mem_map.1 hr
    refine ⟨by simp, ?_⟩
    intro x hx
    exact List.eq_of_mem_replicate hx
  · have hp := prod_pos_of_pos ps hpos
    obtain ⟨p, hp1⟩ : ∃ p, ps.prod = p + 1 := ⟨ps.prod - 1, by omega⟩
    simp only [ConditionalProbabilityTable.ReturnColumnsNumber, hp1, List.range_succ_eq_map,
      List.map_cons, List.length_cons, List.length_replicate]
    simp

/-- Instance of C3 at a requested state count of 1 and parents `[2,3]`. -/
theorem C3_rows_are_uniform_witness :
    (∀ k ∈ [2, 3], 1 ≤ k) ∧
    ∃ t, ConditionalProbabilityTable.new 1 [2, 3] = some t ∧
      (∀ r ∈ t.conditionalMap,
        r.2.length = max 1 2 ∧ ∀ x ∈ r.2, x = (1 : ℚ) / ((max 1 2 : Nat) : ℚ)) ∧
      t.ReturnColumnsNumber = max 1 2 :=
  ⟨by decide, C3_rows_are_uniform 1 [2, 3] (by decide)⟩

/-- C4: the constructor of `JointProbabilityTable` applied to the empty list of state
counts returns a table without any row: `FillMap` returns before inserting the row keyed
by the empty sequence. -/
theorem C4_empty_joint_table_has_no_row :
    JointProbabilityTable.new [] = some ⟨[], []⟩ ∧
      (JointProbabilityTable.new []).map JointProbabilityTable.ReturnRowsNumber = some 0 ∧
      (JointProbabilityTable.new []).map (fun t => t.ReturnKey 0) = some [] := by
  refine ⟨rfl, rfl, rfl⟩

/-- C5: for every non-empty list of variable cardinalities that are all at least 1, the
constructor returns a table with product-many rows, whose keys are exactly the tuples of
the Cartesian product, each present once, whose masses are all 0, and where
`ReturnKey(i)` is the tuple of mixed-radix value `i` for `i` below the row count and the
empty sequence for every other `i`. -/
theorem C5_joint_table_rows (vs : List Nat) (hm : 1 ≤ vs.length) (hpos : ∀ k ∈ vs, 1 ≤ k) :
    ∃ t, JointProbabilityTable.new vs = some t ∧
      t.ReturnRowsNumber = vs.prod ∧
      (∀ key : Key, key ∈ t.mJointMap.map Prod.fst ↔
        (key.length = vs.length ∧ ∀ i, i < vs.length → key.getD i 0 < vs.getD i 0)) ∧
      (t.mJointMap.map Prod.fst).Nodup ∧
      (∀ r ∈ t.mJointMap, r.2 = 0) ∧
      (∀ i, i < t.ReturnRowsNumber →
        (t.mJointMap[i]?).map Prod.fst = some (t.ReturnKey i) ∧
        (t.ReturnKey i).length = vs.length ∧
        (∀ j, j < vs.length → (t.ReturnKey i).getD j 0 < vs.getD j 0) ∧
        mixedRadixValue vs (t.ReturnKey i) = i) ∧
      (∀ i, t.ReturnRowsNumber ≤ i → t.ReturnKey i = []) := by
  refine ⟨_, jpt_new_eq vs hm hpos, ?_, ?_, ?_, ?_, ?_, ?_⟩
  · simp [JointProbabilityTable.ReturnRowsNumber]
  · intro key
    rw [keys_map_digits, mem_digits_iff vs hpos, inProduct_index]
  · rw [keys_map_digits]
    exact nodup_digits vs hpos
  · intro r hr
    obtain ⟨w, _, rfl⟩ := List.mem_map.1 hr
    rfl
  · intro i hi
    simp only [JointProbabilityTable.ReturnRowsNumber, List.length_map, List.length_range] at hi
    have hk : JointProbabilityTable.ReturnKey
        ⟨(List.range vs.prod).map (fun w => (digits vs w, (0 : ℚ))), vs⟩ i = digits vs i := by
      simp only [JointProbabilityTable.ReturnKey]
      rw [returnKeyLoop_eq i _ 0 (Nat.zero_le _), Nat.sub_zero, getElem?_range_map _ _ _ hi]
      rfl
    obtain ⟨hin, hw⟩ := digits_spec vs i hpos hi
    obtain ⟨hl, hv⟩ := (inProduct_index vs _).1 hin
    rw [hk]
    refine ⟨?_, hl, hv, ?_⟩
    · rw [getElem?_range_map _ _ _ hi]
      rfl
    · rw [mixedRadixValue_eq, hw]
  · intro i hi
    simp only [JointProbabilityTable.ReturnRowsNumber, List.length_map, List.length_range] at hi
    simp only [JointProbabilityTable.ReturnKey]
    rw [returnKeyLoop_eq i _ 0 (Nat.zero_le _), Nat.sub_zero,
      List.getElem?_eq_none (by simpa using hi)]
    rfl

/-- Instance of C5 at variables `[2,3]`. -/
theorem C5_joint_table_rows_witness :
    1 ≤ [2, 3].length ∧ (∀ k ∈ [2, 3], 1 ≤ k) ∧
    ∃ t, JointProbabilityTable.new [2, 3] = some t ∧
      t.ReturnRowsNumber = [2, 3].prod ∧
      (∀ key : Key, key ∈ t.mJointMap.map Prod.fst ↔
        (key.length = [2, 3].length ∧
          ∀ i, i < [2, 3].length → key.getD i 0 < [2, 3].getD i 0)) ∧
      (t.mJointMap.map Prod.fst).Nodup ∧
      (∀ r ∈ t.mJointMap, r.2 = 0) ∧
      (∀ i, i < t.ReturnRowsNumber →
        (t.mJointMap[i]?).map Prod.fst = some (t.ReturnKey i) ∧
        (t.ReturnKey i).length = [2, 3].length ∧
        (∀ j, j < [2, 3].length → (t.ReturnKey i).getD j 0 < [2, 3].getD j 0) ∧
        mixedRadixValue [2, 3] (t.ReturnKey i) = i) ∧
      (∀ i, t.ReturnRowsNumber ≤ i → t.ReturnKey i = []) :=
  ⟨by decide, by decide, C5_joint_table_rows [2, 3] (by decide) (by decide)⟩

/-! ## Normalisation of a row of rationals -/

theorem foldl_add_eq_sum (row : List ℚ) (a : ℚ) :
    row.foldl (fun acc x => acc + x) a = a + row.sum := by
  induction row generalizing a with
  | nil => simp
  | cons x xs ih => simp [ih, add_assoc]

theorem normalizeRow_of_ne (row : List ℚ) (h : row.sum ≠ 0) :
    normalizeRow row = row.map (fun x => x / row.sum) := by
  simp [normalizeRow, foldl_add_eq_sum, h]

theorem normalizeRow_length (row : List ℚ) : (normalizeRow row).length = row.length := by
  simp [normalizeRow]

/-! ## Claims on lookup -/

theorem mapFind_eq_none_iff {V : Type} (k : Key) (m : RowMap V) :
    mapFind k m = none ↔ k ∉ m.map Prod.fst := by
  induction m with
  | nil => simp [mapFind]
  | cons p rest ih =>
    obtain ⟨k1, v1⟩ := p
    by_cases h : k1 = k
    · simp [mapFind, h]
    · have h1 : ¬ k = k1 := fun e => h e.symm
      simp [mapFind, h, h1, ih]

theorem mapFind_isSome_iff {V : Type} (k : Key) (m : RowMap V) :
    (∃ v, mapFind k m = some v) ↔ k ∈ m.map Prod.fst := by
  rw [← not_iff_not, ← mapFind_eq_none_iff]
  cases mapFind k m <;> simp

/-- C9: `GetProbability(state, parentKey)` returns the `state`-th entry of the row keyed
by `parentKey` when `parentKey` is a row and `state` is below the length of that row, and
it raises the out-of-range signal exactly when `parentKey` is not a row or `state` is at
or beyond the length of the row. -/
theorem C9_get_probability_result (t : ConditionalProbabilityTable) (state : Nat)
    (parentKey : Key) :
    (parentKey ∈ t.conditionalMap.map Prod.fst ↔
      ∃ row, mapFind parentKey t.conditionalMap = some row) ∧
    (∀ row, mapFind parentKey t.conditionalMap = some row → ∀ h : state < row.length,
      (t.GetProbability state parentKey).1 = some (row.get ⟨state, h⟩)) ∧
    ((t.GetProbability state parentKey).1 = none ↔
      (parentKey ∉ t.conditionalMap.map Prod.fst ∨
        ∃ row, mapFind parentKey t.conditionalMap = some row ∧ row.length ≤ state)) := by
  refine ⟨(mapFind_isSome_iff _ _).symm, ?_, ?_⟩
  · intro row hrow h
    simp [ConditionalProbabilityTable.GetProbability, mapSubscript, hrow,
      List.getElem?_eq_getElem h]
  · rw [← mapFind_eq_none_iff]
    cases hf : mapFind parentKey t.conditionalMap with
    | none => simp [ConditionalProbabilityTable.GetProbability, mapSubscript, hf]
    | some row => simp [ConditionalProbabilityTable.GetProbability, mapSubscript, hf]

/-- C10: on the table built for two states and one binary parent, the lookup
`GetProbability(0, [5])` of a key that is not a row raises the out-of-range signal and
leaves the table with a third row, keyed `[5]` and holding an empty vector;
`GetProbabilities([5])` creates the same row; and the lookup of the empty key puts the
new row first, after which `ReturnColumnsNumber()` is 0. -/
theorem C10_failed_lookup_creates_a_row :
    ∃ t, ConditionalProbabilityTable.new 2 [2] = some t ∧
      t.conditionalMap = [([0], [1 / 2, 1 / 2]), ([1], [1 / 2, 1 / 2])] ∧
      [5] ∉ t.conditionalMap.map Prod.fst ∧
      (t.GetProbability 0 [5]).1 = none ∧
      (t.GetProbability 0 [5]).2.conditionalMap
        = [([0], [1 / 2, 1 / 2]), ([1], [1 / 2, 1 / 2]), ([5], [])] ∧
      t.ReturnRowsNumber = 2 ∧ (t.GetProbability 0 [5]).2.ReturnRowsNumber = 3 ∧
      (t.GetProbabilities [5]).2.conditionalMap
        = [([0], [1 / 2, 1 / 2]), ([1], [1 / 2, 1 / 2]), ([5], [])] ∧
      t.ReturnColumnsNumber = 2 ∧ (t.GetProbability 0 []).2.ReturnColumnsNumber = 0 := by
  have hm : (List.range [2].prod).map (fun w =>
      (digits [2] w, List.replicate (max 2 2) ((1 : ℚ) / ((max 2 2 : Nat) : ℚ))))
      = [([0], [1 / 2, 1 / 2]), ([1], [1 / 2, 1 / 2])] := by
    simp [List.range_succ, digits, List.replicate]
  have h := cpt_new_eq 2 [2] (by decide)
  rw [hm] at h
  refine ⟨_, h, rfl, by decide, ?_, ?_, rfl, ?_, ?_, rfl, ?_⟩
  · simp [ConditionalProbabilityTable.GetProbability, mapSubscript, mapFind]
  · simp [ConditionalProbabilityTable.GetProbability, mapSubscript, mapFind, mapInsert, keyLt]
  · simp [ConditionalProbabilityTable.GetProbability, mapSubscript, mapFind, mapInsert, keyLt,
      ConditionalProbabilityTable.ReturnRowsNumber]
  · simp [ConditionalProbabilityTable.GetProbabilities, mapSubscript, mapFind, mapInsert, keyLt]
  · simp [ConditionalProbabilityTable.GetProbability, mapSubscript, mapFind, mapInsert, keyLt,
      ConditionalProbabilityTable.ReturnColumnsNumber]

/-! ## Claims on row edits -/

theorem mapModify_keys {V : Type} (k : Key) (f : V → V) (m : RowMap V) :
    (mapModify k f m).map Prod.fst = m.map Prod.fst := by
  induction m with
  | nil => rfl
  | cons p rest ih =>
    obtain ⟨k1, v1⟩ := p
    by_cases h : k1 = k
    · simp [mapModify, h]
    · simp [mapModify, h, ih]

theorem mapFind_mapModify_self {V : Type} (k : Key) (f : V → V) (m : RowMap V) (v : V)
    (h : mapFind k m = some v) : mapFind k (mapModify k f m) = some (f v) := by
  induction m with
  | nil => simp [mapFind] at h
  | cons p rest ih =>
    obtain ⟨k1, v1⟩ := p
    by_cases hk : k1 = k
    · simp only [mapFind, if_pos hk, Option.some.injEq] at h
      simp [mapModify, mapFind, hk, h]
    · simp only [mapFind, if_neg hk] at h
      simp [mapModify, mapFind, hk, ih h]

theorem mapFind_mapModify_other {V : Type} (k k2 : Key) (f : V → V) (m : RowMap V)
    (h : k2 ≠ k) : mapFind k2 (mapModify k f m) = mapFind k2 m := by
  induction m with
  | nil => rfl
  | cons p rest ih =>
    obtain ⟨k1, v1⟩ := p
    by_cases hk : k1 = k
    · have hk2 : ¬ k1 = k2 := fun e => h (e.symm.trans hk)
      simp only [mapModify, if_pos hk, mapFind, if_neg hk2]
    · simp only [mapModify, if_neg hk, mapFind, ih]

theorem mapSubscript_of_some {V : Type} (k : Key) (d : V) (m : RowMap V) (v : V)
    (h : mapFind k m = some v) : mapSubscript k d m = (v, m) := by
  simp [mapSubscript, h]

theorem cpt_new_two_one :
    ConditionalProbabilityTable.new 2 [2] =
      some ⟨[([0], [1 / 2, 1 / 2]), ([1], [1 / 2, 1 / 2])], [2]⟩ := by
  have hm : (List.range [2].prod).map (fun w =>
      (digits [2] w, List.replicate (max 2 2) ((1 : ℚ) / ((max 2 2 : Nat) : ℚ))))
      = [([0], [1 / 2, 1 / 2]), ([1], [1 / 2, 1 / 2])] := by
    simp [List.range_succ, digits, List.replicate]
  have h := cpt_new_eq 2 [2] (by decide)
  rw [hm] at h
  exact h

/-- C11: `SetProbabilities(parentKey, vector)` returns true exactly when `parentKey` is
already a row key; when it returns true the row of `parentKey` is `vector`, the row of
every other key is what it was and the keys are the same; when it returns false the
table is unchanged, so that no row has been created. -/
theorem C11_set_probabilities (t : ConditionalProbabilityTable) (parentKey : Key)
    (vector : List ℚ) :
    ((t.SetProbabilities parentKey vector).1 = true ↔
      parentKey ∈ t.conditionalMap.map Prod.fst) ∧
    ((t.SetProbabilities parentKey vector).1 = true →
      mapFind parentKey (t.SetProbabilities parentKey vector).2.conditionalMap = some vector ∧
      (∀ k, k ≠ parentKey →
        mapFind k (t.SetProbabilities parentKey vector).2.conditionalMap
          = mapFind k t.conditionalMap) ∧
      (t.SetProbabilities parentKey vector).2.conditionalMap.map Prod.fst
        = t.conditionalMap.map Prod.fst ∧
      (t.SetProbabilities parentKey vector).2.mTotalParentsStates = t.mTotalParentsStates) ∧
    ((t.SetProbabilities parentKey vector).1 = false →
      (t.SetProbabilities parentKey vector).2 = t) := by
  cases hf : mapFind parentKey t.conditionalMap with
  | none =>
    have hk : parentKey ∉ t.conditionalMap.map Prod.fst := (mapFind_eq_none_iff _ _).1 hf
    have hres : t.SetProbabilities parentKey vector = (false, t) := by
      simp [ConditionalProbabilityTable.SetProbabilities, hf]
    rw [hres]
    exact ⟨⟨fun h => absurd h (by simp), fun h => absurd h hk⟩,
      fun h => absurd h (by simp), fun _ => rfl⟩
  | some row =>
    have hk : parentKey ∈ t.conditionalMap.map Prod.fst :=
      (mapFind_isSome_iff _ _).1 ⟨row, hf⟩
    have hres : t.SetProbabilities parentKey vector =
        (true, ⟨mapModify parentKey (fun _ => vector) t.conditionalMap,
          t.mTotalParentsStates⟩) := by
      simp [ConditionalProbabilityTable.SetProbabilities, hf, mapSubscript]
    rw [hres]
    refine ⟨⟨fun _ => hk, fun _ => rfl⟩, fun _ => ⟨?_, ?_, ?_, rfl⟩, fun h => absurd h (by simp)⟩
    · exact mapFind_mapModify_self _ _ _ _ hf
    · intro k hne
      exact mapFind_mapModify_other _ _ _ _ hne
    · exact mapModify_keys _ _ _

/-- C13: for every table, every row key `parentKey` of it, every `state` below the length
of that row and every `delta`, `AddToProbability(state, parentKey, delta)` returns true;
afterwards the row of `parentKey` has the same length, holds the old value plus `delta`
at `state` and the old value at every other position, the row of every other key is what
it was, and the keys are the same. -/
theorem C13_add_to_probability (t : ConditionalProbabilityTable) (parentKey : Key)
    (row : List ℚ) (state : Nat) (delta : ℚ)
    (hrow : mapFind parentKey t.conditionalMap = some row) (hstate : state < row.length) :
    ∃ t1, t.AddToProbability state parentKey delta = AddOutcome.returned true t1 ∧
      t1.conditionalMap.map Prod.fst = t.conditionalMap.map Prod.fst ∧
      (∃ row1, mapFind parentKey t1.conditionalMap = some row1 ∧
        row1.length = row.length ∧
        row1[state]? = some (row.getD state 0 + delta) ∧
        ∀ j, j ≠ state → row1[j]? = row[j]?) ∧
      (∀ k, k ≠ parentKey → mapFind k t1.conditionalMap = mapFind k t.conditionalMap) ∧
      t1.mTotalParentsStates = t.mTotalParentsStates := by
  refine ⟨⟨mapModify parentKey (fun r => r.set state (r.getD state 0 + delta)) t.conditionalMap,
    t.mTotalParentsStates⟩, ?_, mapModify_keys _ _ _,
    ⟨_, mapFind_mapModify_self _ _ _ _ hrow, ?_, ?_, ?_⟩,
    fun k hne => mapFind_mapModify_other _ _ _ _ hne, rfl⟩
  · simp only [ConditionalProbabilityTable.AddToProbability, hrow]
    rw [if_neg (by omega), if_pos hstate]
  · simp
  · simp [List.getElem?_set, hstate]
  · intro j hj
    simp [List.getElem?_set, Ne.symm hj]

/-- Instance of C13 on a table with one row, at state 1. -/
theorem C13_add_to_probability_witness :
    mapFind [0] (ConditionalProbabilityTable.mk [([0], [1 / 2, 1 / 2])] [1]).conditionalMap
        = some [1 / 2, 1 / 2] ∧
    1 < ([1 / 2, 1 / 2] : List ℚ).length ∧
    ∃ t1, (ConditionalProbabilityTable.mk [([0], [1 / 2, 1 / 2])] [1]).AddToProbability 1 [0] 3
        = AddOutcome.returned true t1 ∧
      t1.conditionalMap.map Prod.fst
        = (ConditionalProbabilityTable.mk [([0], [1 / 2, 1 / 2])] [1]).conditionalMap.map Prod.fst ∧
      (∃ row1, mapFind [0] t1.conditionalMap = some row1 ∧
        row1.length = ([1 / 2, 1 / 2] : List ℚ).length ∧
        row1[1]? = some (([1 / 2, 1 / 2] : List ℚ).getD 1 0 + 3) ∧
        ∀ j, j ≠ 1 → row1[j]? = ([1 / 2, 1 / 2] : List ℚ)[j]?) ∧
      (∀ k, k ≠ [0] → mapFind k t1.conditionalMap
        = mapFind k (ConditionalProbabilityTable.mk [([0], [1 / 2, 1 / 2])] [1]).conditionalMap) ∧
      t1.mTotalParentsStates
        = (ConditionalProbabilityTable.mk [([0], [1 / 2, 1 / 2])] [1]).mTotalParentsStates :=
  ⟨by simp [mapFind], by simp,
    C13_add_to_probability ⟨[([0], [1 / 2, 1 / 2])], [1]⟩ [0] [1 / 2, 1 / 2] 1 3
      (by simp [mapFind]) (by simp)⟩

/-- C14: on the table built for two states and one binary parent, whose rows have length
2, `AddToProbability(2, [0], 1)` passes the range test `variableState > size` and goes
on to write position 2 of a row of two entries, out of its bounds, instead of returning
false; only from `state = 3` on does the call return false and leave the table as it
was. -/
theorem C14_add_at_row_length_is_out_of_bounds :
    ∃ t, ConditionalProbabilityTable.new 2 [2] = some t ∧
      mapFind [0] t.conditionalMap = some [1 / 2, 1 / 2] ∧
      t.AddToProbability 2 [0] 1 = AddOutcome.out_of_bounds ∧
      t.AddToProbability 3 [0] 1 = AddOutcome.returned false t := by
  refine ⟨_, cpt_new_two_one, ?_, ?_, ?_⟩
  · simp [mapFind]
  · simp [ConditionalProbabilityTable.AddToProbability, mapFind]
  · simp [ConditionalProbabilityTable.AddToProbability, mapFind]

/-- C15: on the table built for two states and one binary parent, which has two rows,
`ReturnRow(2)` and `ReturnParentsState(2)` pass the range test `index > size` and
dereference the iterator `end()`, past the last row, instead of returning empty vectors;
only from `index = 3` on are the empty vectors returned. -/
theorem C15_row_at_row_count_reads_past_the_end :
    ∃ t, ConditionalProbabilityTable.new 2 [2] = some t ∧
      t.ReturnRowsNumber = 2 ∧
      t.ReturnRow 2 = none ∧ t.ReturnParentsState 2 = none ∧
      t.ReturnRow 3 = some ([], []) ∧ t.ReturnParentsState 3 = some [] := by
  refine ⟨_, cpt_new_two_one, rfl, ?_, ?_, ?_, ?_⟩
  · simp [ConditionalProbabilityTable.ReturnRow]
  · simp [ConditionalProbabilityTable.ReturnParentsState]
  · simp [ConditionalProbabilityTable.ReturnRow]
  · simp [ConditionalProbabilityTable.ReturnParentsState]

/-! ## Keys inserted by the fill loop -/

theorem readKey_some : ∀ (ks : List Nat) (its : List Nat) (key : Key),
    its.length = ks.length → readKey (ks.map List.range) its = some key →
      key = its ∧ inProduct ks key
  | [], [], key, _, h => by
    simp only [List.map_nil, readKey, Option.some.injEq] at h
    subst h
    exact ⟨rfl, inProduct_nil⟩
  | [], _ :: _, _, hl, _ => by simp at hl
  | _ :: _, [], _, hl, _ => by simp at hl
  | k :: ks, c :: cs, key, hl, h => by
    simp only [List.map_cons, readKey] at h
    cases hc : (List.range k)[c]? with
    | none => simp [hc] at h
    | some x =>
      cases hr : readKey (ks.map List.range) cs with
      | none => simp [hc, hr] at h
      | some xs =>
        simp only [hc, hr, Option.some.injEq] at h
        obtain ⟨e1, e2⟩ := readKey_some ks cs xs (by simpa using hl) hr
        have hx : c < k ∧ x = c := by
          have hlt : c < (List.range k).length := by
            by_contra hge
            rw [List.getElem?_eq_none (by omega)] at hc
            exact Option.noConfusion hc
          rw [List.getElem?_eq_getElem hlt, List.getElem_range] at hc
          exact ⟨by simpa using hlt, (Option.some.inj hc).symm⟩
        subst h
        rw [hx.2, e1]
        refine ⟨rfl, ?_⟩
        rw [inProduct_cons]
        exact ⟨hx.1, e1 ▸ e2⟩

theorem carry_length (vc : List (List Nat)) : ∀ (i : Nat) (its : List Nat),
    (carry vc i its).length = its.length
  | 0, _ => rfl
  | i + 1, its => by
    unfold carry
    by_cases h : atEnd vc its (i + 1) = true
    · rw [if_pos h]
      simp only [carry_length vc i, List.length_set]
    · rw [if_neg h]

theorem advance_length (vc : List (List Nat)) (its : List Nat) :
    (advance vc its).length = its.length := by
  unfold advance
  simp only [carry_length, List.length_set]

theorem mapInsert_mem {V : Type} (k : Key) (v : V) (m : RowMap V) (r : Key × V)
    (h : r ∈ mapInsert k v m) : r ∈ m ∨ r = (k, v) := by
  induction m with
  | nil =>
    simp only [mapInsert, List.mem_singleton] at h
    exact Or.inr h
  | cons p rest ih =>
    obtain ⟨k1, v1⟩ := p
    unfold mapInsert at h
    by_cases h1 : keyLt k k1 = true
    · rw [if_pos h1] at h
      rcases List.mem_cons.1 h with h | h
      · exact Or.inr h
      · exact Or.inl h
    · rw [if_neg h1] at h
      by_cases h2 : k1 = k
      · rw [if_pos h2] at h
        exact Or.inl h
      · rw [if_neg h2] at h
        rcases List.mem_cons.1 h with h | h
        · exact Or.inl (h ▸ List.mem_cons_self _ _)
        · rcases ih h with h | h
          · exact Or.inl (List.mem_cons_of_mem _ h)
          · exact Or.inr h

theorem mapInsert_subset {V : Type} (k : Key) (v : V) (m : RowMap V) (r : Key × V)
    (h : r ∈ m) : r ∈ mapInsert k v m := by
  induction m with
  | nil => simp at h
  | cons p rest ih =>
    obtain ⟨k1, v1⟩ := p
    unfold mapInsert
    by_cases h1 : keyLt k k1 = true
    · rw [if_pos h1]
      exact List.mem_cons_of_mem _ h
    · rw [if_neg h1]
      by_cases h2 : k1 = k
      · rw [if_pos h2]
        exact h
      · rw [if_neg h2]
        rcases List.mem_cons.1 h with h | h
        · exact h ▸ List.mem_cons_self _ _
        · exact List.mem_cons_of_mem _ (ih h)

theorem mapInsert_ne_nil {V : Type} (k : Key) (v : V) (m : RowMap V) :
    mapInsert k v m ≠ [] := by
  cases m with
  | nil => simp [mapInsert]
  | cons p rest =>
    obtain ⟨k1, v1⟩ := p
    unfold mapInsert
    by_cases h1 : keyLt k k1 = true
    · rw [if_pos h1]; simp
    · rw [if_neg h1]
      by_cases h2 : k1 = k
      · rw [if_pos h2]; simp
      · rw [if_neg h2]; simp

theorem fillLoop_mem {V : Type} (ks : List Nat) (data : V) :
    ∀ (fuel : Nat) (its : List Nat) (m m1 : RowMap V), its.length = ks.length →
      fillLoop (ks.map List.range) data fuel its m = some m1 →
      (∀ r ∈ m1, r ∈ m ∨ (inProduct ks r.1 ∧ r.2 = data)) ∧ (∀ r ∈ m, r ∈ m1)
  | 0, _, _, _, _, h => by simp [fillLoop] at h
  | fuel + 1, its, m, m1, hl, h => by
    unfold fillLoop at h
    by_cases hend : atEnd (ks.map List.range) its 0 = true
    · rw [if_pos hend] at h
      have := Option.some.inj h
      subst this
      exact ⟨fun r hr => Or.inl hr, fun r hr => hr⟩
    · rw [if_neg hend] at h
      cases hk : readKey (ks.map List.range) its with
      | none => simp [hk] at h
      | some key =>
        simp only [hk] at h
        obtain ⟨_, hin⟩ := readKey_some ks its key hl hk
        obtain ⟨h1, h2⟩ := fillLoop_mem ks data fuel _ _ m1
          ((advance_length _ its).trans hl) h
        constructor
        · intro r hr
          rcases h1 r hr with h3 | h3
          · rcases mapInsert_mem _ _ _ _ h3 with h4 | h4
            · exact Or.inl h4
            · subst h4
              exact Or.inr ⟨hin, rfl⟩
          · exact Or.inr h3
        · intro r hr
          exact h2 r (mapInsert_subset _ _ _ _ hr)

theorem fillRows_mem {V : Type} (ks : List Nat) (data : V) (m m1 : RowMap V)
    (h : fillRows ks data m = some m1) :
    (∀ r ∈ m1, r ∈ m ∨ (inProduct ks r.1 ∧ r.2 = data)) ∧ (∀ r ∈ m, r ∈ m1) :=
  fillLoop_mem ks data _ _ m m1 (by simp) h

theorem fillLoop_nil_atEnd {V : Type} (ks : List Nat) (data : V) (fuel : Nat)
    (its : List Nat) (hl : its.length = ks.length)
    (h : fillLoop (ks.map List.range) data (fuel + 1) its [] = some []) :
    atEnd (ks.map List.range) its 0 = true := by
  unfold fillLoop at h
  by_contra hend
  rw [if_neg hend] at h
  cases hk : readKey (ks.map List.range) its with
  | none => simp [hk] at h
  | some key =>
    simp only [hk] at h
    obtain ⟨_, h2⟩ := fillLoop_mem ks data _ _ _ _ ((advance_length _ _).trans hl) h
    have hne := mapInsert_ne_nil key data ([] : RowMap V)
    cases hm : mapInsert key data ([] : RowMap V) with
    | nil => exact absurd hm hne
    | cons p rest =>
      have := h2 p (by rw [hm]; exact List.mem_cons_self _ _)
      simp at this

theorem fillRows_nil_head {V : Type} (k : Nat) (ks : List Nat) (data : V)
    (h : fillRows (k :: ks) data [] = some []) : k = 0 := by
  unfold fillRows at h
  have := fillLoop_nil_atEnd (k :: ks) data _ _ (by simp) h
  rw [atEnd_range] at this
  simpa using this.symm

theorem fillRows_head_zero {V : Type} (ks : List Nat) (data : V) (m : RowMap V) :
    fillRows (0 :: ks) data m = some m := by
  unfold fillRows
  simp only [fillLoop]
  rw [if_pos]
  rw [atEnd_range]
  simp

/-! ## Claims on `FindParentState` -/

theorem cpt_new_mem (n : Nat) (ps : List Nat) (t : ConditionalProbabilityTable)
    (h : ConditionalProbabilityTable.new n ps = some t) :
    t.mTotalParentsStates = ps ∧
      ∀ r ∈ t.conditionalMap, inProduct ps r.1 ∧
        r.2 = List.replicate (max n 2) ((1 : ℚ) / ((max n 2 : Nat) : ℚ)) := by
  have hn : (if n < 2 then 2 else n) = max n 2 := by
    by_cases h : n < 2
    · rw [if_pos h]; omega
    · rw [if_neg h]; omega
  unfold ConditionalProbabilityTable.new ConditionalProbabilityTable.FillMap at h
  simp only [hn] at h
  cases ps with
  | nil =>
    simp only [List.length_nil, if_true, Option.map_some', Option.some.injEq] at h
    subst h
    refine ⟨rfl, ?_⟩
    intro r hr
    simp only [mapInsert, List.mem_singleton] at hr
    subst hr
    exact ⟨inProduct_nil, rfl⟩
  | cons k ks =>
    rw [if_neg (by simp)] at h
    cases hf : fillRows (k :: ks)
        (List.replicate (max n 2) ((1 : ℚ) / ((max n 2 : Nat) : ℚ))) [] with
    | none =>
      rw [hf] at h
      exact Option.noConfusion h
    | some m =>
      rw [hf] at h
      simp only [Option.map_some', Option.some.injEq] at h
      subst h
      refine ⟨rfl, ?_⟩
      intro r hr
      rcases (fillRows_mem _ _ _ _ hf).1 r hr with h1 | h1
      · simp at h1
      · exact h1

theorem findParentStateLoop_short (parentIndex parentState : Nat) :
    ∀ (m : RowMap (List ℚ)) (row : Nat) (acc : List Nat),
      (∀ r ∈ m, r.1.length ≤ parentIndex) →
      findParentStateLoop parentIndex parentState m row acc = acc
  | [], _, _, _ => rfl
  | (key, v) :: rest, row, acc, h => by
    have hk : key.length ≤ parentIndex := h (key, v) (List.mem_cons_self _ _)
    unfold findParentStateLoop
    by_cases h0 : key.length = 0
    · rw [if_pos h0]
    · rw [if_neg h0, if_pos (by omega)]

theorem findParentStateLoop_spec (parentIndex parentState : Nat) :
    ∀ (m : RowMap (List ℚ)) (row : Nat) (acc : List Nat),
      (∀ r ∈ m, parentIndex < r.1.length) →
      ∃ found, findParentStateLoop parentIndex parentState m row acc = acc ++ found ∧
        found.Pairwise (fun a b => a < b) ∧ (∀ x ∈ found, row ≤ x) ∧
        ∀ x, x ∈ found ↔
          ∃ i e, x = row + i ∧ m[i]? = some e ∧ e.1.getD parentIndex 0 = parentState
  | [], _, acc, _ => ⟨[], by simp [findParentStateLoop]⟩
  | (key, v) :: rest, row, acc, h => by
    have hk : parentIndex < key.length := h (key, v) (List.mem_cons_self _ _)
    obtain ⟨found, e1, e2, e3, e4⟩ := findParentStateLoop_spec parentIndex parentState rest
      (row + 1) (if key.getD parentIndex 0 = parentState then acc ++ [row] else acc)
      (fun r hr => h r (List.mem_cons_of_mem _ hr))
    unfold findParentStateLoop
    rw [if_neg (by omega), if_neg (by omega), e1]
    have hshift : ∀ x, (∃ i e, x = row + i ∧ ((key, v) :: rest)[i]? = some e ∧
          e.1.getD parentIndex 0 = parentState) ↔
        ((x = row ∧ key.getD parentIndex 0 = parentState) ∨ x ∈ found) := by
      intro x
      rw [e4]
      constructor
      · rintro ⟨i, e, hx, he, hp⟩
        cases i with
        | zero =>
          simp only [List.getElem?_cons_zero, Option.some.injEq] at he
          subst he
          exact Or.inl ⟨hx, hp⟩
        | succ j =>
          simp only [List.getElem?_cons_succ] at he
          exact Or.inr ⟨j, e, by omega, he, hp⟩
      · rintro (⟨hx, hp⟩ | ⟨j, e, hx, he, hp⟩)
        · exact ⟨0, (key, v), hx, by simp, hp⟩
        · exact ⟨j + 1, e, by omega, by simpa using he, hp⟩
    by_cases hmatch : key.getD parentIndex 0 = parentState
    · refine ⟨row :: found, ?_, ?_, ?_, ?_⟩
      · rw [if_pos hmatch]
        simp
      · exact List.pairwise_cons.2 ⟨fun x hx => by have := e3 x hx; omega, e2⟩
      · intro x hx
        rcases List.mem_cons.1 hx with hx | hx
        · omega
        · have := e3 x hx; omega
      · intro x
        rw [hshift, List.mem_cons]
        simp only [hmatch, and_true]
    · refine ⟨found, ?_, e2, ?_, ?_⟩
      · rw [if_neg hmatch]
      · intro x hx
        have := e3 x hx; omega
      · intro x
        rw [hshift]
        simp only [hmatch, and_false, false_or]

/-- C16: for every table built by the constructor from one parent or more, every
`parentIndex` below the number of parents and every `parentState`,
`FindParentState(parentIndex, parentState)` returns a strictly increasing list whose
members are exactly the row positions `r`, as used by `ReturnRow`, whose key has
`parentState` at position `parentIndex`; the table is left as it was. -/
theorem C16_find_parent_state (n : Nat) (ps : List Nat) (t : ConditionalProbabilityTable)
    (hbuilt : ConditionalProbabilityTable.new n ps = some t)
    (parentIndex parentState : Nat) (hidx : parentIndex < ps.length) :
    (t.FindParentState parentIndex parentState).1.Pairwise (fun a b => a < b) ∧
    (∀ r, r ∈ (t.FindParentState parentIndex parentState).1 ↔
      (r < t.ReturnRowsNumber ∧ ∃ key row, t.ReturnRow r = some (key, row) ∧
        key[parentIndex]? = some parentState)) ∧
    (t.FindParentState parentIndex parentState).2 = t := by
  obtain ⟨_, hkeys⟩ := cpt_new_mem n ps t hbuilt
  have hlen : ∀ r ∈ t.conditionalMap, parentIndex < r.1.length := by
    intro r hr
    rw [inProduct_length ps r.1 (hkeys r hr).1]
    exact hidx
  obtain ⟨found, e1, e2, _, e4⟩ :=
    findParentStateLoop_spec parentIndex parentState t.conditionalMap 0 [] hlen
  have hres : t.FindParentState parentIndex parentState = (found, t) := by
    simp only [ConditionalProbabilityTable.FindParentState, e1, List.nil_append]
  rw [hres]
  refine ⟨e2, ?_, rfl⟩
  intro r
  rw [e4]
  constructor
  · rintro ⟨i, e, hx, he, hp⟩
    have hi : i < t.conditionalMap.length := by
      by_contra hge
      rw [List.getElem?_eq_none (by omega)] at he
      exact Option.noConfusion he
    have hmem : e ∈ t.conditionalMap := List.getElem?_mem he
    have hr : r = i := by omega
    subst hr
    refine ⟨hi, e.1, e.2, ?_, ?_⟩
    · simp only [ConditionalProbabilityTable.ReturnRow]
      rw [if_neg (by omega), he]
    · rw [← hp, List.getD_eq_getElem?_getD, List.getElem?_eq_getElem (hlen e hmem)]
      rfl
  · rintro ⟨hr, key, row, hrow, hp⟩
    simp only [ConditionalProbabilityTable.ReturnRow, ConditionalProbabilityTable.ReturnRowsNumber]
      at hrow hr
    rw [if_neg (by omega)] at hrow
    refine ⟨r, (key, row), by omega, hrow, ?_⟩
    simp [List.getD_eq_getElem?_getD, hp]

/-- Instance of C16 at parents `[2,3]`, second parent, state 2. -/
theorem C16_find_parent_state_witness :
    ∃ t, ConditionalProbabilityTable.new 2 [2, 3] = some t ∧ 1 < [2, 3].length ∧
      (t.FindParentState 1 2).1.Pairwise (fun a b => a < b) ∧
      (∀ r, r ∈ (t.FindParentState 1 2).1 ↔
        (r < t.ReturnRowsNumber ∧ ∃ key row, t.ReturnRow r = some (key, row) ∧
          key[1]? = some 2)) ∧
      (t.FindParentState 1 2).2 = t :=
  ⟨_, cpt_new_eq 2 [2, 3] (by decide), by decide,
    C16_find_parent_state 2 [2, 3] _ (cpt_new_eq 2 [2, 3] (by decide)) 1 2 (by decide)⟩

/-- C17: for every table built by the constructor, `FindParentState` returns the empty
list, for every `parentState`, when the table has no parents and when `parentIndex` is
at or beyond the number of parents; the table is left as it was. -/
theorem C17_find_parent_state_out_of_range (n : Nat) (ps : List Nat)
    (t : ConditionalProbabilityTable)
    (hbuilt : ConditionalProbabilityTable.new n ps = some t)
    (parentIndex parentState : Nat) (hbad : ps.length = 0 ∨ ps.length ≤ parentIndex) :
    t.FindParentState parentIndex parentState = ([], t) := by
  obtain ⟨_, hkeys⟩ := cpt_new_mem n ps t hbuilt
  have hlen : ∀ r ∈ t.conditionalMap, r.1.length ≤ parentIndex := by
    intro r hr
    rw [inProduct_length ps r.1 (hkeys r hr).1]
    omega
  simp only [ConditionalProbabilityTable.FindParentState,
    findParentStateLoop_short parentIndex parentState _ 0 [] hlen]

/-- Instance of C17 at parents `[2,3]` and parent index 2. -/
theorem C17_find_parent_state_out_of_range_witness :
    ∃ t, ConditionalProbabilityTable.new 2 [2, 3] = some t ∧
      ([2, 3].length = 0 ∨ [2, 3].length ≤ 2) ∧
      t.FindParentState 2 0 = ([], t) :=
  ⟨_, cpt_new_eq 2 [2, 3] (by decide), by decide,
    C17_find_parent_state_out_of_range 2 [2, 3] _ (cpt_new_eq 2 [2, 3] (by decide)) 2 0
      (by decide)⟩

/-! ## Frame of the editing calls -/

theorem mapModify_mem {V : Type} (k : Key) (f : V → V) (m : RowMap V) (r : Key × V)
    (h : r ∈ mapModify k f m) : r ∈ m ∨ ∃ v0, (r.1, v0) ∈ m ∧ r.2 = f v0 := by
  induction m with
  | nil => simp [mapModify] at h
  | cons p rest ih =>
    obtain ⟨k1, v1⟩ := p
    unfold mapModify at h
    by_cases hk : k1 = k
    · rw [if_pos hk] at h
      rcases List.mem_cons.1 h with h | h
      · subst h
        exact Or.inr ⟨v1, List.mem_cons_self _ _, rfl⟩
      · exact Or.inl (List.mem_cons_of_mem _ h)
    · rw [if_neg hk] at h
      rcases List.mem_cons.1 h with h | h
      · subst h
        exact Or.inl (List.mem_cons_self _ _)
      · rcases ih h with h | ⟨v0, h1, h2⟩
        · exact Or.inl (List.mem_cons_of_mem _ h)
        · exact Or.inr ⟨v0, List.mem_cons_of_mem _ h1, h2⟩

theorem setProbabilities_frame (len : Nat) (t : ConditionalProbabilityTable) (k : Key)
    (v : List ℚ) :
    (t.SetProbabilities k v).2.conditionalMap.map Prod.fst = t.conditionalMap.map Prod.fst ∧
    (t.SetProbabilities k v).2.mTotalParentsStates = t.mTotalParentsStates ∧
    (v.length = len → (∀ r ∈ t.conditionalMap, r.2.length = len) →
      ∀ r ∈ (t.SetProbabilities k v).2.conditionalMap, r.2.length = len) := by
  cases hf : mapFind k t.conditionalMap with
  | none =>
    have hres : t.SetProbabilities k v = (false, t) := by
      simp [ConditionalProbabilityTable.SetProbabilities, hf]
    rw [hres]
    exact ⟨rfl, rfl, fun _ h => h⟩
  | some row =>
    have hres : t.SetProbabilities k v =
        (true, ⟨mapModify k (fun _ => v) t.conditionalMap, t.mTotalParentsStates⟩) := by
      simp [ConditionalProbabilityTable.SetProbabilities, hf, mapSubscript]
    rw [hres]
    refine ⟨mapModify_keys _ _ _, rfl, ?_⟩
    intro hv hall r hr
    rcases mapModify_mem _ _ _ _ hr with h | ⟨v0, _, h2⟩
    · exact hall r h
    · rw [h2]
      exact hv

theorem addToProbability_frame (len : Nat) (t t1 : ConditionalProbabilityTable)
    (s : Nat) (k : Key) (d : ℚ) (b : Bool)
    (h : t.AddToProbability s k d = AddOutcome.returned b t1) :
    t1.conditionalMap.map Prod.fst = t.conditionalMap.map Prod.fst ∧
    t1.mTotalParentsStates = t.mTotalParentsStates ∧
    ((∀ r ∈ t.conditionalMap, r.2.length = len) →
      ∀ r ∈ t1.conditionalMap, r.2.length = len) := by
  unfold ConditionalProbabilityTable.AddToProbability at h
  cases hf : mapFind k t.conditionalMap with
  | none =>
    rw [hf] at h
    exact AddOutcome.noConfusion h
  | some row =>
    rw [hf] at h
    simp only at h
    by_cases h1 : s > row.length
    · rw [if_pos h1] at h
      injection h with _ h2
      subst h2
      exact ⟨rfl, rfl, fun hall => hall⟩
    · rw [if_neg h1] at h
      by_cases h2 : s < row.length
      · rw [if_pos h2] at h
        injection h with _ h3
        subst h3
        refine ⟨mapModify_keys _ _ _, rfl, ?_⟩
        intro hall r hr
        rcases mapModify_mem _ _ _ _ hr with h4 | ⟨v0, h4, h5⟩
        · exact hall r h4
        · rw [h5, List.length_set]
          exact hall _ h4
      · rw [if_neg h2] at h
        exact AddOutcome.noConfusion h

theorem normalize_frame (len : Nat) (t : ConditionalProbabilityTable) :
    t.NormalizeProbabilities.conditionalMap.map Prod.fst = t.conditionalMap.map Prod.fst ∧
    t.NormalizeProbabilities.mTotalParentsStates = t.mTotalParentsStates ∧
    ((∀ r ∈ t.conditionalMap, r.2.length = len) →
      ∀ r ∈ t.NormalizeProbabilities.conditionalMap, r.2.length = len) := by
  refine ⟨?_, rfl, ?_⟩
  · simp [ConditionalProbabilityTable.NormalizeProbabilities, List.map_map, Function.comp_def]
  · intro hall r hr
    simp only [ConditionalProbabilityTable.NormalizeProbabilities] at hr
    obtain ⟨p, hp, rfl⟩ := List.mem_map.1 hr
    simp only [normalizeRow_length]
    exact hall p hp

theorem reset_frame (len : Nat) (t : ConditionalProbabilityTable) (x : ℚ) :
    (t.ResetProbabilities x).conditionalMap.map Prod.fst = t.conditionalMap.map Prod.fst ∧
    (t.ResetProbabilities x).mTotalParentsStates = t.mTotalParentsStates ∧
    ((∀ r ∈ t.conditionalMap, r.2.length = len) →
      ∀ r ∈ (t.ResetProbabilities x).conditionalMap, r.2.length = len) := by
  refine ⟨?_, rfl, ?_⟩
  · simp [ConditionalProbabilityTable.ResetProbabilities, List.map_map, Function.comp_def]
  · intro hall r hr
    simp only [ConditionalProbabilityTable.ResetProbabilities] at hr
    obtain ⟨p, hp, rfl⟩ := List.mem_map.1 hr
    simp only [List.length_map]
    exact hall p hp

/-- Frame of one editing call other than `AddVariable`. -/
theorem applyEdit_frame (len : Nat) (t t1 : ConditionalProbabilityTable) (e : TableEdit)
    (hno : noAddVariable [e]) (hset : setLengthsAre len [e]) (h : applyEdit t e = some t1) :
    t1.conditionalMap.map Prod.fst = t.conditionalMap.map Prod.fst ∧
    t1.mTotalParentsStates = t.mTotalParentsStates ∧
    ((∀ r ∈ t.conditionalMap, r.2.length = len) →
      ∀ r ∈ t1.conditionalMap, r.2.length = len) := by
  cases e with
  | setProbabilities k v =>
    simp only [applyEdit, Option.some.injEq] at h
    subst h
    obtain ⟨a, b, c⟩ := setProbabilities_frame len t k v
    exact ⟨a, b, c hset.1⟩
  | addToProbability s k d =>
    simp only [applyEdit] at h
    cases ho : t.AddToProbability s k d with
    | returned b t2 =>
      rw [ho] at h
      simp only [Option.some.injEq] at h
      subst h
      exact addToProbability_frame len t _ s k d b ho
    | out_of_range =>
      rw [ho] at h
      simp only [Option.some.injEq] at h
      subst h
      exact ⟨rfl, rfl, fun hall => hall⟩
    | out_of_bounds =>
      rw [ho] at h
      exact Option.noConfusion h
  | normalizeProbabilities =>
    simp only [applyEdit, Option.some.injEq] at h
    subst h
    exact normalize_frame len t
  | resetProbabilities x =>
    simp only [applyEdit, Option.some.injEq] at h
    subst h
    exact reset_frame len t x
  | addVariable s => exact absurd hno (by simp [noAddVariable])

theorem noAddVariable_cons (e : TableEdit) (es : List TableEdit)
    (h : noAddVariable (e :: es)) : noAddVariable [e] ∧ noAddVariable es := by
  cases e <;> simp_all [noAddVariable]

theorem setLengthsAre_cons (len : Nat) (e : TableEdit) (es : List TableEdit)
    (h : setLengthsAre len (e :: es)) : setLengthsAre len [e] ∧ setLengthsAre len es := by
  cases e <;> simp_all [setLengthsAre]

theorem applyEdits_frame (len : Nat) : ∀ (edits : List TableEdit)
    (t t1 : ConditionalProbabilityTable), noAddVariable edits → setLengthsAre len edits →
    applyEdits t edits = some t1 →
    t1.conditionalMap.map Prod.fst = t.conditionalMap.map Prod.fst ∧
    t1.mTotalParentsStates = t.mTotalParentsStates ∧
    ((∀ r ∈ t.conditionalMap, r.2.length = len) →
      ∀ r ∈ t1.conditionalMap, r.2.length = len)
  | [], t, t1, _, _, h => by
    simp only [applyEdits, Option.some.injEq] at h
    subst h
    exact ⟨rfl, rfl, fun hall => hall⟩
  | e :: es, t, t1, hno, hset, h => by
    obtain ⟨hno1, hno2⟩ := noAddVariable_cons e es hno
    obtain ⟨hset1, hset2⟩ := setLengthsAre_cons len e es hset
    simp only [applyEdits] at h
    cases he : applyEdit t e with
    | none =>
      rw [he] at h
      exact Option.noConfusion h
    | some t2 =>
      rw [he] at h
      obtain ⟨a1, b1, c1⟩ := applyEdit_frame len t t2 e hno1 hset1 he
      obtain ⟨a2, b2, c2⟩ := applyEdits_frame len es t2 t1 hno2 hset2 h
      exact ⟨a2.trans a1, b2.trans b1, fun hall => c2 (c1 hall)⟩

/-! ## `AddVariable` and the row-length invariant -/

theorem clamp_eq_max (s : Nat) : (if s < 2 then 2 else s) = max s 2 := by
  by_cases h : s < 2
  · rw [if_pos h]; omega
  · rw [if_neg h]; omega

theorem returnColumns_of_rows (len : Nat) (t : ConditionalProbabilityTable)
    (hne : t.conditionalMap ≠ []) (hall : ∀ r ∈ t.conditionalMap, r.2.length = len) :
    t.ReturnColumnsNumber = len := by
  unfold ConditionalProbabilityTable.ReturnColumnsNumber
  cases hm : t.conditionalMap with
  | nil => exact absurd hm hne
  | cons p rest =>
    obtain ⟨k, row⟩ := p
    simp only [List.length_cons, Nat.succ_ne_zero, if_false]
    exact hall (k, row) (by rw [hm]; exact List.mem_cons_self _ _)

theorem addVariable_eq_new (n : Nat) (t : ConditionalProbabilityTable) (s : Nat)
    (hcols : t.ReturnColumnsNumber = max n 2) :
    t.AddVariable s = ConditionalProbabilityTable.new n (t.mTotalParentsStates ++ [max s 2]) := by
  have hc : ConditionalProbabilityTable.ReturnColumnsNumber
      ⟨t.conditionalMap, t.mTotalParentsStates ++ [max s 2]⟩ = max n 2 := hcols
  unfold ConditionalProbabilityTable.AddVariable ConditionalProbabilityTable.new
    ConditionalProbabilityTable.FillMap
  simp only [clamp_eq_max, hc]
  rw [if_neg (by simp), if_neg (by simp)]
  cases fillRows (t.mTotalParentsStates ++ [max s 2])
      (List.replicate (max n 2) ((1 : ℚ) / ((max n 2 : Nat) : ℚ))) [] <;> rfl

theorem addVariable_mem (t t1 : ConditionalProbabilityTable) (s : Nat)
    (h : t.AddVariable s = some t1) :
    t1.mTotalParentsStates = t.mTotalParentsStates ++ [max s 2] ∧
    fillRows (t.mTotalParentsStates ++ [max s 2])
      (List.replicate t.ReturnColumnsNumber ((1 : ℚ) / (t.ReturnColumnsNumber : ℚ))) []
        = some t1.conditionalMap := by
  have hc : ConditionalProbabilityTable.ReturnColumnsNumber
      ⟨t.conditionalMap, t.mTotalParentsStates ++ [max s 2]⟩ = t.ReturnColumnsNumber := rfl
  unfold ConditionalProbabilityTable.AddVariable ConditionalProbabilityTable.FillMap at h
  simp only [clamp_eq_max, hc] at h
  rw [if_neg (by simp)] at h
  cases hf : fillRows (t.mTotalParentsStates ++ [max s 2])
      (List.replicate t.ReturnColumnsNumber ((1 : ℚ) / (t.ReturnColumnsNumber : ℚ))) [] with
  | none =>
    rw [hf] at h
    exact Option.noConfusion h
  | some m =>
    rw [hf] at h
    simp only [Option.map_some', Option.some.injEq] at h
    subst h
    exact ⟨rfl, rfl⟩

theorem addVariable_inv (len : Nat) (t t1 : ConditionalProbabilityTable) (s : Nat)
    (hinv : RowLengthInv len t) (h : t.AddVariable s = some t1) : RowLengthInv len t1 := by
  obtain ⟨hd, hf⟩ := addVariable_mem t t1 s h
  obtain ⟨hall, hempty⟩ := hinv
  by_cases hm : t.conditionalMap = []
  · have hh := hempty hm
    cases hps : t.mTotalParentsStates with
    | nil => rw [hps] at hh; simp at hh
    | cons k ks =>
      rw [hps] at hh hf hd
      simp only [List.head?_cons, Option.some.injEq] at hh
      subst hh
      rw [List.cons_append, fillRows_head_zero] at hf
      have hnil : t1.conditionalMap = [] := (Option.some.inj hf).symm
      refine ⟨fun r hr => by rw [hnil] at hr; simp at hr, fun _ => ?_⟩
      rw [hd]
      rfl
  · have hcols := returnColumns_of_rows len t hm hall
    rw [hcols] at hf
    refine ⟨?_, ?_⟩
    · intro r hr
      rcases (fillRows_mem _ _ _ _ hf).1 r hr with h1 | h1
      · simp at h1
      · rw [h1.2, List.length_replicate]
    · intro hnil
      rw [hnil] at hf
      rw [hd]
      cases hps : t.mTotalParentsStates ++ [max s 2] with
      | nil => simp at hps
      | cons k ks =>
        rw [hps] at hf
        rw [fillRows_nil_head k ks _ hf]
        rfl

theorem new_inv (n : Nat) (ps : List Nat) (t : ConditionalProbabilityTable)
    (h : ConditionalProbabilityTable.new n ps = some t) : RowLengthInv (max n 2) t := by
  obtain ⟨hd, hrows⟩ := cpt_new_mem n ps t h
  refine ⟨fun r hr => by rw [(hrows r hr).2, List.length_replicate], ?_⟩
  intro hnil
  unfold ConditionalProbabilityTable.new ConditionalProbabilityTable.FillMap at h
  simp only [clamp_eq_max] at h
  cases ps with
  | nil =>
    simp only [List.length_nil, if_true, Option.map_some', Option.some.injEq] at h
    subst h
    simp [mapInsert] at hnil
  | cons k ks =>
    rw [if_neg (by simp)] at h
    cases hf : fillRows (k :: ks)
        (List.replicate (max n 2) ((1 : ℚ) / ((max n 2 : Nat) : ℚ))) [] with
    | none =>
      rw [hf] at h
      exact Option.noConfusion h
    | some m =>
      rw [hf] at h
      simp only [Option.map_some', Option.some.injEq] at h
      subst h
      simp only at hnil
      subst hnil
      rw [fillRows_nil_head k ks _ hf]
      rfl

theorem applyEdit_inv (len : Nat) (t t1 : ConditionalProbabilityTable) (e : TableEdit)
    (hset : setLengthsAre len [e]) (hinv : RowLengthInv len t)
    (h : applyEdit t e = some t1) : RowLengthInv len t1 := by
  have hframe : noAddVariable [e] → RowLengthInv len t1 := by
    intro hno
    obtain ⟨a, b, c⟩ := applyEdit_frame len t t1 e hno hset h
    refine ⟨c hinv.1, ?_⟩
    intro hnil
    rw [b]
    apply hinv.2
    rw [hnil] at a
    simpa using a.symm
  cases e with
  | setProbabilities k v => exact hframe (by simp [noAddVariable])
  | addToProbability s k d => exact hframe (by simp [noAddVariable])
  | normalizeProbabilities => exact hframe (by simp [noAddVariable])
  | resetProbabilities x => exact hframe (by simp [noAddVariable])
  | addVariable s => exact addVariable_inv len t t1 s hinv h

theorem applyEdits_inv (len : Nat) : ∀ (edits : List TableEdit)
    (t t1 : ConditionalProbabilityTable), setLengthsAre len edits → RowLengthInv len t →
    applyEdits t edits = some t1 → RowLengthInv len t1
  | [], t, t1, _, hinv, h => by
    simp only [applyEdits, Option.some.injEq] at h
    subst h
    exact hinv
  | e :: es, t, t1, hset, hinv, h => by
    obtain ⟨hset1, hset2⟩ := setLengthsAre_cons len e es hset
    simp only [applyEdits] at h
    cases he : applyEdit t e with
    | none =>
      rw [he] at h
      exact Option.noConfusion h
    | some t2 =>
      rw [he] at h
      exact applyEdits_inv len es t2 t1 hset2 (applyEdit_inv len t t2 e hset1 hinv he) h

/-! ## Claims on the invariant and on rebuilds -/

/-- C12, as stated, fails: on the table built for two states and one binary parent, the
call `SetProbabilities([0], [1])` succeeds and leaves the row of `[0]` with one entry,
while the state count fixed at construction is 2. -/
theorem C12_set_probabilities_changes_row_length :
    ∃ t0 t, ConditionalProbabilityTable.new 2 [2] = some t0 ∧
      applyEdits t0 [TableEdit.setProbabilities [0] [1]] = some t ∧
      (t0.SetProbabilities [0] [1]).1 = true ∧
      mapFind [0] t.conditionalMap = some [1] ∧
      ¬ (∀ r ∈ t.conditionalMap, r.2.length = max 2 2) := by
  refine ⟨_, _, cpt_new_two_one, rfl, ?_, ?_, ?_⟩
  · simp [ConditionalProbabilityTable.SetProbabilities, mapFind]
  · simp [ConditionalProbabilityTable.SetProbabilities, mapFind, mapSubscript, mapModify]
  · intro h
    have := h ([0], [1]) (by
      simp [ConditionalProbabilityTable.SetProbabilities, mapFind, mapSubscript, mapModify])
    simp at this

/-- C12, amended: in every table reached from a constructor with requested state count
`n` by a sequence of `SetProbabilities` calls whose vectors have length `max(n,2)` and of
`AddToProbability`, `NormalizeProbabilities`, `ResetProbabilities` and `AddVariable`
calls, every row has length `max(n,2)`. -/
theorem C12_row_length_invariant (n : Nat) (ps : List Nat)
    (t0 t : ConditionalProbabilityTable) (edits : List TableEdit)
    (hbuilt : ConditionalProbabilityTable.new n ps = some t0)
    (hset : setLengthsAre (max n 2) edits) (hedit : applyEdits t0 edits = some t) :
    ∀ r ∈ t.conditionalMap, r.2.length = max n 2 :=
  (applyEdits_inv (max n 2) edits t0 t hset (new_inv n ps t0 hbuilt) hedit).1

/-- Instance of the amended C12: parents `[2]`, then a row set to `[1, 0]`, then a
reset to 0. -/
theorem C12_row_length_invariant_witness :
    ∃ t0 t, ConditionalProbabilityTable.new 2 [2] = some t0 ∧
      setLengthsAre (max 2 2)
        [TableEdit.setProbabilities [0] [1, 0], TableEdit.resetProbabilities 0] ∧
      applyEdits t0 [TableEdit.setProbabilities [0] [1, 0], TableEdit.resetProbabilities 0]
        = some t ∧
      ∀ r ∈ t.conditionalMap, r.2.length = max 2 2 :=
  ⟨_, _, cpt_new_two_one, by simp [setLengthsAre], rfl,
    C12_row_length_invariant 2 [2] _ _
      [TableEdit.setProbabilities [0] [1, 0], TableEdit.resetProbabilities 0]
      cpt_new_two_one (by simp [setLengthsAre]) rfl⟩

/-- C18: for a table constructed with state count `n` and parent cardinalities `P` that
are all at least 1, then edited by `SetProbabilities` calls with vectors of length
`max(n,2)` and by `AddToProbability`, `NormalizeProbabilities` and `ResetProbabilities`
calls, `AddVariable(s)` yields exactly the table that the constructor builds for `n` and
`P` followed by `max(s,2)`: the row count is multiplied by `max(s,2)`, the column count
is unchanged and every row is uniform again. -/
theorem C18_add_variable_rebuilds (n : Nat) (P : List Nat)
    (t0 t : ConditionalProbabilityTable) (edits : List TableEdit) (s : Nat)
    (hpos : ∀ k ∈ P, 1 ≤ k)
    (hbuilt : ConditionalProbabilityTable.new n P = some t0)
    (hno : noAddVariable edits) (hset : setLengthsAre (max n 2) edits)
    (hedit : applyEdits t0 edits = some t) :
    t.AddVariable s = ConditionalProbabilityTable.new n (P ++ [max s 2]) ∧
    ∃ t1, t.AddVariable s = some t1 ∧
      t1.mTotalParentsStates = P ++ [max s 2] ∧
      t1.ReturnRowsNumber = t.ReturnRowsNumber * max s 2 ∧
      t1.ReturnColumnsNumber = t.ReturnColumnsNumber ∧
      ∀ r ∈ t1.conditionalMap,
        r.2 = List.replicate (max n 2) ((1 : ℚ) / ((max n 2 : Nat) : ℚ)) := by
  obtain ⟨hd0, hrows0⟩ := cpt_new_mem n P t0 hbuilt
  have h0 := cpt_new_eq n P hpos
  rw [hbuilt] at h0
  have hlen0 : t0.conditionalMap.length = P.prod := by
    rw [Option.some.inj h0]
    simp
  obtain ⟨a, b, c⟩ := applyEdits_frame (max n 2) edits t0 t hno hset hedit
  have hall : ∀ r ∈ t.conditionalMap, r.2.length = max n 2 :=
    c (fun r hr => by rw [(hrows0 r hr).2, List.length_replicate])
  have hlen : t.conditionalMap.length = P.prod := by
    have := congrArg List.length a
    simp only [List.length_map] at this
    rw [this, hlen0]
  have hne : t.conditionalMap ≠ [] := by
    intro hnil
    have hp := prod_pos_of_pos P hpos
    rw [hnil] at hlen
    simp at hlen
    omega
  have hcols := returnColumns_of_rows (max n 2) t hne hall
  have hpos1 : ∀ k ∈ P ++ [max s 2], 1 ≤ k := by
    intro k hk
    rcases List.mem_append.1 hk with h | h
    · exact hpos k h
    · simp only [List.mem_singleton] at h
      omega
  have hnew := cpt_new_eq n (P ++ [max s 2]) hpos1
  have hadd : t.AddVariable s = ConditionalProbabilityTable.new n (P ++ [max s 2]) := by
    rw [addVariable_eq_new n t s hcols, b, hd0]
  refine ⟨hadd, _, hadd.trans hnew, rfl, ?_, ?_, ?_⟩
  · simp [ConditionalProbabilityTable.ReturnRowsNumber, hlen]
  · rw [hcols]
    apply returnColumns_of_rows
    · intro hnil
      have hp := prod_pos_of_pos _ hpos1
      have := congrArg List.length hnil
      simp only [List.length_map, List.length_range, List.length_nil] at this
      omega
    · intro r hr
      obtain ⟨w, _, rfl⟩ := List.mem_map.1 hr
      simp
  · intro r hr
    obtain ⟨w, _, rfl⟩ := List.mem_map.1 hr
    rfl

/-- Instance of C18: parents `[2]`, then a row set to `[1, 0]`, then a reset to 0, then
`AddVariable(3)`. -/
theorem C18_add_variable_rebuilds_witness :
    ∃ t0 t, (∀ k ∈ [2], 1 ≤ k) ∧
      ConditionalProbabilityTable.new 2 [2] = some t0 ∧
      noAddVariable [TableEdit.setProbabilities [0] [1, 0], TableEdit.resetProbabilities 0] ∧
      setLengthsAre (max 2 2)
        [TableEdit.setProbabilities [0] [1, 0], TableEdit.resetProbabilities 0] ∧
      applyEdits t0 [TableEdit.setProbabilities [0] [1, 0], TableEdit.resetProbabilities 0]
        = some t ∧
      t.AddVariable 3 = ConditionalProbabilityTable.new 2 ([2] ++ [max 3 2]) ∧
      ∃ t1, t.AddVariable 3 = some t1 ∧
        t1.mTotalParentsStates = [2] ++ [max 3 2] ∧
        t1.ReturnRowsNumber = t.ReturnRowsNumber * max 3 2 ∧
        t1.ReturnColumnsNumber = t.ReturnColumnsNumber ∧
        ∀ r ∈ t1.conditionalMap,
          r.2 = List.replicate (max 2 2) ((1 : ℚ) / ((max 2 2 : Nat) : ℚ)) :=
  ⟨_, _, by decide, cpt_new_two_one, by simp [noAddVariable], by simp [setLengthsAre], rfl,
    C18_add_variable_rebuilds 2 [2] _ _
      [TableEdit.setProbabilities [0] [1, 0], TableEdit.resetProbabilities 0] 3
      (by decide) cpt_new_two_one (by simp [noAddVariable]) (by simp [setLengthsAre]) rfl⟩

theorem jpt_addVariable_eq_new (t : JointProbabilityTable) (s : Nat) :
    t.AddVariable s = JointProbabilityTable.new (t.mVariablesTotStatesVector ++ [max s 2]) := by
  unfold JointProbabilityTable.AddVariable JointProbabilityTable.new
    JointProbabilityTable.FillMap
  simp only [clamp_eq_max]
  rw [if_neg (by simp), if_neg (by simp)]
  cases fillRows (t.mVariablesTotStatesVector ++ [max s 2]) (0 : ℚ) [] <;> rfl

/-- C19: for every joint table whose dimension list `D` (possibly empty) has entries that
are all at least 1, and whatever masses it holds, `AddVariable(s)` yields exactly the
table the constructor builds for `D` followed by `max(s,2)`: its keys are exactly the
tuples of the Cartesian product of the extended dimensions, each present once, and every
mass is 0. -/
theorem C19_joint_add_variable_rebuilds (t : JointProbabilityTable) (s : Nat)
    (hpos : ∀ k ∈ t.mVariablesTotStatesVector, 1 ≤ k) :
    t.AddVariable s = JointProbabilityTable.new (t.mVariablesTotStatesVector ++ [max s 2]) ∧
    ∃ t1, t.AddVariable s = some t1 ∧
      t1.mVariablesTotStatesVector = t.mVariablesTotStatesVector ++ [max s 2] ∧
      (∀ key : Key, key ∈ t1.mJointMap.map Prod.fst ↔
        (key.length = (t.mVariablesTotStatesVector ++ [max s 2]).length ∧
          ∀ i, i < (t.mVariablesTotStatesVector ++ [max s 2]).length →
            key.getD i 0 < (t.mVariablesTotStatesVector ++ [max s 2]).getD i 0)) ∧
      (t1.mJointMap.map Prod.fst).Nodup ∧
      t1.ReturnRowsNumber = t.mVariablesTotStatesVector.prod * max s 2 ∧
      ∀ r ∈ t1.mJointMap, r.2 = 0 := by
  have hpos1 : ∀ k ∈ t.mVariablesTotStatesVector ++ [max s 2], 1 ≤ k := by
    intro k hk
    rcases List.mem_append.1 hk with h | h
    · exact hpos k h
    · simp only [List.mem_singleton] at h
      omega
  have hadd := jpt_addVariable_eq_new t s
  have hnew := jpt_new_eq (t.mVariablesTotStatesVector ++ [max s 2]) (by simp) hpos1
  refine ⟨hadd, _, hadd.trans hnew, rfl, ?_, ?_, ?_, ?_⟩
  · intro key
    rw [keys_map_digits, mem_digits_iff _ hpos1, inProduct_index]
  · rw [keys_map_digits]
    exact nodup_digits _ hpos1
  · simp [JointProbabilityTable.ReturnRowsNumber]
  · intro r hr
    obtain ⟨w, _, rfl⟩ := List.mem_map.1 hr
    rfl

/-- Instance of C19 on a table over one binary variable with masses 1 and 3. -/
theorem C19_joint_add_variable_rebuilds_witness :
    (∀ k ∈ (JointProbabilityTable.mk [([0], 1), ([1], 3)] [2]).mVariablesTotStatesVector,
      1 ≤ k) ∧
    (JointProbabilityTable.mk [([0], 1), ([1], 3)] [2]).AddVariable 0
      = JointProbabilityTable.new ([2] ++ [max 0 2]) ∧
    ∃ t1, (JointProbabilityTable.mk [([0], 1), ([1], 3)] [2]).AddVariable 0 = some t1 ∧
      t1.mVariablesTotStatesVector = [2] ++ [max 0 2] ∧
      (∀ key : Key, key ∈ t1.mJointMap.map Prod.fst ↔
        (key.length = ([2] ++ [max 0 2]).length ∧
          ∀ i, i < ([2] ++ [max 0 2]).length →
            key.getD i 0 < ([2] ++ [max 0 2]).getD i 0)) ∧
      (t1.mJointMap.map Prod.fst).Nodup ∧
      t1.ReturnRowsNumber = [2].prod * max 0 2 ∧
      ∀ r ∈ t1.mJointMap, r.2 = 0 :=
  ⟨by decide, C19_joint_add_variable_rebuilds ⟨[([0], 1), ([1], 3)], [2]⟩ 0 (by decide)⟩

/-! ## Entries of the keys of a product -/

theorem inProduct_entry (vs : List Nat) (key : Key) (i : Nat) (h : inProduct vs key)
    (hi : i < vs.length) : ∃ c, key[i]? = some c ∧ c < vs.getD i 0 := by
  obtain ⟨hl, hv⟩ := (inProduct_index vs key).1 h
  have hk : i < key.length := by omega
  refine ⟨key[i], List.getElem?_eq_getElem hk, ?_⟩
  have := hv i hi
  simpa [List.getD_eq_getElem?_getD, List.getElem?_eq_getElem hk] using this

/-! ## Claims on row-wise normalisation -/

/-- C26: `NormalizeProbabilities()` keeps the row keys and the length of every row; the
row it leaves at a position is computed from the row that was at that position alone, so
that two tables with the same row at a position have the same row there afterwards; and
in a row of nonzero sum `S` every entry `x` becomes `x / S`. -/
theorem C26_normalize_acts_row_by_row (t : ConditionalProbabilityTable) :
    t.NormalizeProbabilities.conditionalMap.map Prod.fst = t.conditionalMap.map Prod.fst ∧
    t.NormalizeProbabilities.conditionalMap.map (fun r => r.2.length)
      = t.conditionalMap.map (fun r => r.2.length) ∧
    (∀ i : Nat, t.NormalizeProbabilities.conditionalMap[i]?
      = (t.conditionalMap[i]?).map (fun r : Key × List ℚ => (r.1, normalizeRow r.2))) ∧
    (∀ row : List ℚ, row.sum ≠ 0 → normalizeRow row = row.map (fun x => x / row.sum)) ∧
    (∀ (t2 : ConditionalProbabilityTable) (i : Nat),
      t2.conditionalMap[i]? = t.conditionalMap[i]? →
      t2.NormalizeProbabilities.conditionalMap[i]?
        = t.NormalizeProbabilities.conditionalMap[i]?) := by
  refine ⟨?_, ?_, ?_, normalizeRow_of_ne, ?_⟩
  · simp [ConditionalProbabilityTable.NormalizeProbabilities, List.map_map, Function.comp_def]
  · simp [ConditionalProbabilityTable.NormalizeProbabilities, List.map_map, Function.comp_def,
      normalizeRow_length]
  · intro i
    simp [ConditionalProbabilityTable.NormalizeProbabilities, List.getElem?_map]
  · intro t2 i h
    simp [ConditionalProbabilityTable.NormalizeProbabilities, List.getElem?_map, h]

/-! ## Claims on the joint lookup and on `Clear` -/

theorem mapFind_mapInsert_other {V : Type} (k k2 : Key) (v : V) (m : RowMap V)
    (h : k2 ≠ k) : mapFind k2 (mapInsert k v m) = mapFind k2 m := by
  have hk : ¬ k = k2 := fun e => h e.symm
  induction m with
  | nil => simp only [mapInsert, mapFind, if_neg hk]
  | cons p rest ih =>
    obtain ⟨k1, v1⟩ := p
    unfold mapInsert
    by_cases h1 : keyLt k k1 = true
    · rw [if_pos h1]
      simp only [mapFind, if_neg hk]
    · rw [if_neg h1]
      by_cases h2 : k1 = k
      · rw [if_pos h2]
      · rw [if_neg h2]
        simp only [mapFind, ih]

theorem mapFind_mapInsert_self {V : Type} (k : Key) (v : V) (m : RowMap V)
    (h : mapFind k m = none) : mapFind k (mapInsert k v m) = some v := by
  induction m with
  | nil => simp [mapInsert, mapFind]
  | cons p rest ih =>
    obtain ⟨k1, v1⟩ := p
    have h2 : ¬ k1 = k := by
      intro e
      simp [mapFind, e] at h
    have h3 : mapFind k rest = none := by
      simpa [mapFind, h2] using h
    unfold mapInsert
    by_cases h1 : keyLt k k1 = true
    · rw [if_pos h1]
      simp [mapFind]
    · rw [if_neg h1, if_neg h2]
      simp only [mapFind, if_neg h2, ih h3]

theorem length_mapInsert {V : Type} (k : Key) (v : V) (m : RowMap V)
    (h : mapFind k m = none) : (mapInsert k v m).length = m.length + 1 := by
  induction m with
  | nil => rfl
  | cons p rest ih =>
    obtain ⟨k1, v1⟩ := p
    have h2 : ¬ k1 = k := by
      intro e
      simp [mapFind, e] at h
    have h3 : mapFind k rest = none := by
      simpa [mapFind, h2] using h
    unfold mapInsert
    by_cases h1 : keyLt k k1 = true
    · rw [if_pos h1]
      rfl
    · rw [if_neg h1, if_neg h2]
      simp only [List.length_cons, ih h3]

/-- C28: `GetProbability(key)` of a joint table returns the stored mass, and leaves the
table as it was, when `key` is a row; when `key` is not a row it returns 0 and leaves a
table in which `key` is a row of mass 0, `ReturnRowsNumber()` is one more and every other
key has the row it had; `SetProbability(key, p)` on such a missing key returns false and
leaves the table as it was. -/
theorem C28_joint_get_probability (t : JointProbabilityTable) (key : Key) :
    (∀ mass, mapFind key t.mJointMap = some mass → t.GetProbability key = (mass, t)) ∧
    (key ∉ t.mJointMap.map Prod.fst →
      (t.GetProbability key).1 = 0 ∧
      mapFind key (t.GetProbability key).2.mJointMap = some 0 ∧
      (t.GetProbability key).2.ReturnRowsNumber = t.ReturnRowsNumber + 1 ∧
      (∀ k, k ≠ key →
        mapFind k (t.GetProbability key).2.mJointMap = mapFind k t.mJointMap) ∧
      (t.GetProbability key).2.mVariablesTotStatesVector = t.mVariablesTotStatesVector ∧
      ∀ p, t.SetProbability key p = (false, t)) := by
  constructor
  · intro mass h
    simp [JointProbabilityTable.GetProbability, mapSubscript, h]
  · intro hk
    have hf : mapFind key t.mJointMap = none := (mapFind_eq_none_iff _ _).2 hk
    have hres : t.GetProbability key
        = (0, ⟨mapInsert key 0 t.mJointMap, t.mVariablesTotStatesVector⟩) := by
      simp [JointProbabilityTable.GetProbability, mapSubscript, hf]
    rw [hres]
    refine ⟨rfl, mapFind_mapInsert_self _ _ _ hf, ?_, ?_, rfl, ?_⟩
    · simp only [JointProbabilityTable.ReturnRowsNumber, length_mapInsert _ _ _ hf]
    · intro k hne
      exact mapFind_mapInsert_other _ _ _ _ hne
    · intro p
      simp [JointProbabilityTable.SetProbability, hf]

/-- C29: after `Clear()` the table has no row and `ReturnColumnsNumber()` is 0; a
following `AddVariable(s)` builds exactly the `max(s,2)` rows keyed `[0]` to
`[max(s,2)-1]`, each with an empty probability vector, so that `ReturnColumnsNumber()`
is still 0. -/
theorem C29_clear_then_add_variable (t : ConditionalProbabilityTable) (s : Nat) :
    t.Clear.ReturnRowsNumber = 0 ∧ t.Clear.ReturnColumnsNumber = 0 ∧
    ∃ t1, t.Clear.AddVariable s = some t1 ∧
      t1.conditionalMap = (List.range (max s 2)).map (fun w => ([w], [])) ∧
      t1.mTotalParentsStates = [max s 2] ∧
      t1.ReturnRowsNumber = max s 2 ∧ t1.ReturnColumnsNumber = 0 := by
  refine ⟨rfl, rfl, ?_⟩
  have hpos : ∀ k ∈ [max s 2], 1 ≤ k := by
    intro k hk
    simp only [List.mem_singleton] at hk
    omega
  have hfill := fillRows_eq [max s 2] (by simp) hpos ([] : List ℚ)
  have hdig : (fun w => (digits [max s 2] w, ([] : List ℚ))) = fun w => ([w], []) := by
    funext w
    simp [digits]
  rw [hdig] at hfill
  simp only [List.prod_cons, List.prod_nil, Nat.mul_one] at hfill
  have hadd : t.Clear.AddVariable s
      = some ⟨(List.range (max s 2)).map (fun w => ([w], [])), [max s 2]⟩ := by
    unfold ConditionalProbabilityTable.AddVariable ConditionalProbabilityTable.FillMap
    simp only [clamp_eq_max, ConditionalProbabilityTable.Clear, List.nil_append]
    rw [if_neg (by simp)]
    have hc : ConditionalProbabilityTable.ReturnColumnsNumber ⟨[], [max s 2]⟩ = 0 := rfl
    rw [hc]
    simp only [List.replicate_zero]
    rw [hfill]
    rfl
  refine ⟨_, hadd, rfl, rfl, ?_, ?_⟩
  · simp [ConditionalProbabilityTable.ReturnRowsNumber]
  · have h2 : max s 2 = (max s 2 - 1) + 1 := by omega
    simp only [ConditionalProbabilityTable.ReturnColumnsNumber]
    rw [h2, List.range_succ_eq_map]
    simp

/-! ## Counting the rows of a parent state -/

theorem digits_cons_block (ks : List Nat) (k0 k w : Nat) (hw : w < ks.prod) :
    digits (k0 :: ks) (k * ks.prod + w) = k :: digits ks w := by
  have hp : 0 < ks.prod := by omega
  simp only [digits]
  have e1 : (k * ks.prod + w) / ks.prod = k := by
    rw [Nat.add_comm, Nat.add_mul_div_right _ _ hp, Nat.div_eq_of_lt hw, Nat.zero_add]
  have e2 : (k * ks.prod + w) % ks.prod = w := by
    rw [Nat.add_comm, Nat.add_mul_mod_self_right, Nat.mod_eq_of_lt hw]
  rw [e1, e2]

theorem countP_block (ks : List Nat) (k0 p v : Nat) : ∀ k : Nat,
    List.countP (fun w => decide ((digits (k0 :: ks) w).getD p 0 = v))
        (List.range (k * ks.prod))
      = ((List.range k).map (fun c =>
          List.countP (fun w => decide ((c :: digits ks w).getD p 0 = v))
            (List.range ks.prod))).sum
  | 0 => by simp
  | k + 1 => by
    rw [Nat.succ_mul, List.range_add, List.countP_append, countP_block ks k0 p v k,
      List.range_succ, List.map_append, List.sum_append, List.countP_map]
    simp only [List.map_cons, List.map_nil, List.sum_cons, List.sum_nil, Nat.add_zero]
    congr 1
    apply List.countP_congr
    intro w hw
    simp only [Function.comp_apply, decide_eq_true_eq]
    rw [digits_cons_block ks k0 k w (List.mem_range.1 hw)]

theorem sum_map_const_nat (c n : Nat) : ((List.range n).map (fun _ => c)).sum = n * c := by
  induction n with
  | zero => simp
  | succ n ih =>
    rw [List.range_succ, List.map_append, List.sum_append, ih]
    simp [Nat.succ_mul]

theorem sum_indicator_nat (v x : Nat) : ∀ k : Nat,
    ((List.range k).map (fun c => if c = v then x else 0)).sum = if v < k then x else 0
  | 0 => by simp
  | k + 1 => by
    rw [List.range_succ, List.map_append, List.sum_append, sum_indicator_nat v x k]
    simp only [List.map_cons, List.map_nil, List.sum_cons, List.sum_nil, Nat.add_zero]
    by_cases h1 : v < k
    · have h2 : ¬ k = v := by omega
      have h3 : v < k + 1 := by omega
      simp [h1, h2, h3]
    · by_cases h2 : k = v
      · have h3 : v < k + 1 := by omega
        simp [h1, h2, h3]
      · have h3 : ¬ v < k + 1 := by omega
        simp [h1, h2, h3]

theorem countP_digits : ∀ (ks : List Nat) (p v : Nat), (∀ k ∈ ks, 1 ≤ k) → p < ks.length →
    v < ks.getD p 0 →
    List.countP (fun w => decide ((digits ks w).getD p 0 = v)) (List.range ks.prod)
      = ks.prod / ks.getD p 0
  | [], _, _, _, hp, _ => by simp at hp
  | k0 :: ks, 0, v, hpos, _, hv => by
    have hk0 : 1 ≤ k0 := hpos k0 (List.mem_cons_self _ _)
    simp only [List.getD_cons_zero] at hv
    rw [List.prod_cons, countP_block ks k0 0 v k0]
    simp only [List.getD_cons_zero]
    have hfun : (fun c => List.countP (fun _ : Nat => decide (c = v)) (List.range ks.prod))
        = fun c => if c = v then ks.prod else 0 := by
      funext c
      by_cases hc : c = v
      · simp [hc]
      · simp [hc]
    rw [hfun, sum_indicator_nat, if_pos hv, Nat.mul_div_cancel_left _ (by omega)]
  | k0 :: ks, p + 1, v, hpos, hp, hv => by
    have hpos1 : ∀ k ∈ ks, 1 ≤ k := fun x hx => hpos x (List.mem_cons_of_mem _ hx)
    have hp1 : p < ks.length := by simpa using hp
    simp only [List.getD_cons_succ] at hv ⊢
    have ih := countP_digits ks p v hpos1 hp1 hv
    rw [List.prod_cons, countP_block ks k0 (p + 1) v k0]
    simp only [List.getD_cons_succ]
    simp only [ih]
    rw [sum_map_const_nat]
    have hmem : ks.getD p 0 ∈ ks := by
      have : ks.getD p 0 = ks[p] := by
        simp [List.getD_eq_getElem?_getD, List.getElem?_eq_getElem hp1]
      rw [this]
      exact List.getElem_mem hp1
    exact (Nat.mul_div_assoc k0 (List.dvd_prod hmem)).symm

theorem findParentState_built (n : Nat) (ps : List Nat) (hpos : ∀ k ∈ ps, 1 ≤ k)
    (p v : Nat) (hp : p < ps.length) :
    ∃ found, ConditionalProbabilityTable.FindParentState
        ⟨(List.range ps.prod).map (fun w =>
          (digits ps w, List.replicate (max n 2) ((1 : ℚ) / ((max n 2 : Nat) : ℚ)))), ps⟩ p v
        = (found, ⟨(List.range ps.prod).map (fun w =>
          (digits ps w, List.replicate (max n 2) ((1 : ℚ) / ((max n 2 : Nat) : ℚ)))), ps⟩) ∧
      found.Pairwise (fun a b => a < b) ∧
      ∀ r, r ∈ found ↔ (r < ps.prod ∧ (digits ps r).getD p 0 = v) := by
  have hlen : ∀ r ∈ (List.range ps.prod).map (fun w =>
      (digits ps w, List.replicate (max n 2) ((1 : ℚ) / ((max n 2 : Nat) : ℚ)))),
      p < r.1.length := by
    intro r hr
    obtain ⟨w, hw, rfl⟩ := List.mem_map.1 hr
    rw [inProduct_length ps _ (digits_spec ps w hpos (List.mem_range.1 hw)).1]
    exact hp
  obtain ⟨found, e1, e2, _, e4⟩ := findParentStateLoop_spec p v _ 0 [] hlen
  refine ⟨found, ?_, e2, ?_⟩
  · simp only [ConditionalProbabilityTable.FindParentState, e1, List.nil_append]
  · intro r
    rw [e4]
    constructor
    · rintro ⟨i, e, hx, he, hq⟩
      have hi : i < ps.prod := by
        by_contra hge
        rw [List.getElem?_eq_none (by simpa using Nat.le_of_not_lt hge)] at he
        exact Option.noConfusion he
      rw [getElem?_range_map _ _ _ hi] at he
      have he1 := Option.some.inj he
      subst he1
      have hr : r = i := by omega
      subst hr
      exact ⟨hi, hq⟩
    · rintro ⟨hr, hq⟩
      exact ⟨r, _, by omega, getElem?_range_map _ _ _ hr, hq⟩

/-- C27: for a table freshly built from one or more parent cardinalities, all at least
1, and every parent index `p` below their number: for every state `v` below `k_p` the
list `FindParentState(p, v)` has exactly (product of all cardinalities) / `k_p` members;
the lists of two different states have no position in common; every member is a row
position, and every row position is in the list of some state below `k_p`. -/
theorem C27_find_parent_state_partitions_rows (n : Nat) (ps : List Nat)
    (hpos : ∀ k ∈ ps, 1 ≤ k) (p : Nat) (hp : p < ps.length) :
    ∃ t, ConditionalProbabilityTable.new n ps = some t ∧
      (∀ v, v < ps.getD p 0 → (t.FindParentState p v).1.length = ps.prod / ps.getD p 0) ∧
      (∀ v1 v2 r, v1 ≠ v2 → r ∈ (t.FindParentState p v1).1 →
        r ∉ (t.FindParentState p v2).1) ∧
      (∀ v r, r ∈ (t.FindParentState p v).1 → r < t.ReturnRowsNumber) ∧
      (∀ r, r < t.ReturnRowsNumber →
        ∃ v, v < ps.getD p 0 ∧ r ∈ (t.FindParentState p v).1) := by
  refine ⟨_, cpt_new_eq n ps hpos, ?_, ?_, ?_, ?_⟩
  · intro v hv
    obtain ⟨found, e1, e2, e3⟩ := findParentState_built n ps hpos p v hp
    rw [e1]
    simp only
    rw [← countP_digits ps p v hpos hp hv, List.countP_eq_length_filter]
    apply List.Perm.length_eq
    rw [List.perm_ext_iff_of_nodup (e2.imp (fun h => Nat.ne_of_lt h))
      ((List.nodup_range _).filter _)]
    intro r
    rw [e3, List.mem_filter, List.mem_range]
    simp
  · intro v1 v2 r hne h1 h2
    obtain ⟨f1, a1, _, c1⟩ := findParentState_built n ps hpos p v1 hp
    obtain ⟨f2, a2, _, c2⟩ := findParentState_built n ps hpos p v2 hp
    rw [a1] at h1
    rw [a2] at h2
    exact hne (((c1 r).1 h1).2.symm.trans ((c2 r).1 h2).2)
  · intro v r h
    obtain ⟨f1, a1, _, c1⟩ := findParentState_built n ps hpos p v hp
    rw [a1] at h
    simpa [ConditionalProbabilityTable.ReturnRowsNumber] using ((c1 r).1 h).1
  · intro r hr
    have hr1 : r < ps.prod := by
      simpa [ConditionalProbabilityTable.ReturnRowsNumber] using hr
    obtain ⟨hin, _⟩ := digits_spec ps r hpos hr1
    refine ⟨(digits ps r).getD p 0, ((inProduct_index ps _).1 hin).2 p hp, ?_⟩
    obtain ⟨f1, a1, _, c1⟩ := findParentState_built n ps hpos p ((digits ps r).getD p 0) hp
    rw [a1]
    exact (c1 r).2 ⟨hr1, rfl⟩

/-- Instance of C27 at parents `[2,3]` and the second parent. -/
theorem C27_find_parent_state_partitions_rows_witness :
    (∀ k ∈ [2, 3], 1 ≤ k) ∧ 1 < [2, 3].length ∧
    ∃ t, ConditionalProbabilityTable.new 2 [2, 3] = some t ∧
      (∀ v, v < [2, 3].getD 1 0 →
        (t.FindParentState 1 v).1.length = [2, 3].prod / [2, 3].getD 1 0) ∧
      (∀ v1 v2 r, v1 ≠ v2 → r ∈ (t.FindParentState 1 v1).1 →
        r ∉ (t.FindParentState 1 v2).1) ∧
      (∀ v r, r ∈ (t.FindParentState 1 v).1 → r < t.ReturnRowsNumber) ∧
      (∀ r, r < t.ReturnRowsNumber →
        ∃ v, v < [2, 3].getD 1 0 ∧ r ∈ (t.FindParentState 1 v).1) :=
  ⟨by decide, by decide,
    C27_find_parent_state_partitions_rows 2 [2, 3] (by decide) 1 (by decide)⟩

/-! ## The ancestral pass of the sampler -/

theorem evidenceOf_set (nodes : List Bayesnode) (id : Nat) (node : Bayesnode)
    (t : ConditionalProbabilityTable) (h : nodes[id]? = some node) (i : Nat) :
    evidenceOf (nodes.set id { node with conditionalTable := t }) i = evidenceOf nodes i := by
  unfold evidenceOf
  rw [List.getElem?_set]
  by_cases hi : id = i
  · subst hi
    have hlt : id < nodes.length := by
      by_contra hge
      rw [List.getElem?_eq_none (by omega)] at h
      exact Option.noConfusion h
    rw [if_pos rfl, if_pos hlt, h]
    rfl
  · rw [if_neg hi]

theorem getElem?_of_lt (nodes : List Bayesnode) (id : Nat) (h : id < nodes.length) :
    ∃ node, nodes[id]? = some node :=
  ⟨nodes[id], List.getElem?_eq_getElem h⟩

theorem returnSampleLoop_spec (inEdges : Nat → List Nat) (rnd : RandomSource) :
    ∀ (topo : List Nat) (sm : Nat → Bool × Nat) (nodes : List Bayesnode) (c : Nat),
      (∀ id ∈ topo, id < nodes.length) →
      ∃ sm1 nodes1 c1, returnSampleLoop inEdges rnd topo sm nodes c = some (sm1, nodes1, c1) ∧
        nodes1.length = nodes.length ∧
        (∀ i, evidenceOf nodes1 i = evidenceOf nodes i) ∧
        ∀ i v, evidenceOf nodes i = some (some v) → (sm i = (true, v) ∨ i ∈ topo) →
          sm1 i = (true, v)
  | [], sm, nodes, c, _ => by
    refine ⟨sm, nodes, c, rfl, rfl, fun _ => rfl, ?_⟩
    intro i v _ h
    rcases h with h | h
    · exact h
    · simp at h
  | id :: topo, sm, nodes, c, hvalid => by
    have hid : id < nodes.length := hvalid id (List.mem_cons_self _ _)
    have htopo : ∀ j ∈ topo, j < nodes.length :=
      fun j hj => hvalid j (List.mem_cons_of_mem _ hj)
    obtain ⟨node, hnode⟩ := getElem?_of_lt nodes id hid
    have hev : evidenceOf nodes id = some node.evidence := by
      simp [evidenceOf, hnode]
    unfold returnSampleLoop
    simp only [hnode]
    cases hcase : node.evidence with
    | some ev =>
      simp only
      obtain ⟨sm1, nodes1, c1, e1, e2, e3, e4⟩ := returnSampleLoop_spec inEdges rnd topo
        (fun j => if j = id then (true, ev) else sm j) nodes c htopo
      refine ⟨sm1, nodes1, c1, e1, e2, e3, ?_⟩
      intro i v hiv h
      apply e4 i v hiv
      by_cases hi : i = id
      · subst hi
        rw [hev, hcase] at hiv
        have hv : ev = v := Option.some.inj (Option.some.inj hiv)
        left
        simp [hv]
      · rcases h with h | h
        · left
          simp [hi, h]
        · right
          rcases List.mem_cons.1 h with h | h
          · exact absurd h hi
          · exact h
    | none =>
      simp only
      have hlen : (nodes.set id { node with conditionalTable :=
          (node.conditionalTable.ReturnSample (keyFromMap sm (inEdges id))
            (rnd.discrete c)).2 }).length = nodes.length := by simp
      obtain ⟨sm1, nodes1, c1, e1, e2, e3, e4⟩ := returnSampleLoop_spec inEdges rnd topo
        (fun j => if j = id then (true,
          (node.conditionalTable.ReturnSample (keyFromMap sm (inEdges id))
            (rnd.discrete c)).1) else sm j)
        (nodes.set id { node with conditionalTable :=
          (node.conditionalTable.ReturnSample (keyFromMap sm (inEdges id))
            (rnd.discrete c)).2 }) (c + 1) (fun j hj => by rw [hlen]; exact htopo j hj)
      rw [hcase] at e1
      refine ⟨sm1, nodes1, c1, e1, e2.trans hlen, ?_, ?_⟩
      · intro i
        rw [e3 i, evidenceOf_set nodes id node _ hnode i]
      · intro i v hiv h
        apply e4 i v
        · rw [evidenceOf_set nodes id node _ hnode i]
          exact hiv
        · have hi : i ≠ id := by
            intro hi
            subst hi
            rw [hev, hcase] at hiv
            exact Option.noConfusion (Option.some.inj hiv)
          rcases h with h | h
          · left
            simp [hi, h]
          · right
            rcases List.mem_cons.1 h with h | h
            · exact absurd h hi
            · exact h

theorem returnSample_spec (net : Bayesnet) (rnd : RandomSource) (calls : Nat)
    (hwf : net.WellFormed) :
    ∃ seed nodes1 c1,
      GibbsSampler.ReturnSample net rnd calls
        = some (seed, ⟨nodes1, net.inEdges, net.topologicalList⟩, c1) ∧
      seed.length = net.nodesVector.length ∧
      nodes1.length = net.nodesVector.length ∧
      (∀ i, evidenceOf nodes1 i = evidenceOf net.nodesVector i) ∧
      ∀ i v, evidenceOf net.nodesVector i = some (some v) → i ∈ net.topologicalList →
        seed[i]? = some v := by
  obtain ⟨sm1, nodes1, c1, e1, e2, e3, e4⟩ := returnSampleLoop_spec net.inEdges rnd
    net.topologicalList (fun _ => (false, 0)) net.nodesVector calls hwf.1
  refine ⟨(List.range net.nodesVector.length).map (fun i => (sm1 i).2), nodes1, c1,
    ?_, by simp, e2, e3, ?_⟩
  · simp only [GibbsSampler.ReturnSample, Bayesnet.ReturnTopologicalList,
      Bayesnet.ReturnNumberOfNodes, e1]
  · intro i v hiv hi
    have hlt : i < net.nodesVector.length := hwf.1 i hi
    rw [getElem?_range_map _ _ _ hlt, e4 i v hiv (Or.inr hi)]

/-! ## The chain of the sampler -/

theorem notEvidence_pred (nodes : List Bayesnode) (i : Nat) :
    isNotEvidence nodes i = true ↔ evidenceOf nodes i = some none := by
  unfold evidenceOf isNotEvidence
  cases h : nodes[i]? with
  | none => simp
  | some node =>
    cases he : node.evidence with
    | none => simp [he]
    | some v => simp [he]

theorem mem_notEvidence (net : Bayesnet) (s : Nat) :
    s ∈ net.ReturnNotEvidenceNodes ↔ evidenceOf net.nodesVector s = some none := by
  unfold Bayesnet.ReturnNotEvidenceNodes
  rw [List.mem_filter, notEvidence_pred, List.mem_range]
  constructor
  · exact fun h => h.2
  · intro h
    refine ⟨?_, h⟩
    by_contra hge
    unfold evidenceOf at h
    rw [List.getElem?_eq_none (by omega)] at h
    exact Option.noConfusion h

theorem lt_of_mem_notEvidence (net : Bayesnet) (s : Nat)
    (h : s ∈ net.ReturnNotEvidenceNodes) : s < net.nodesVector.length := by
  unfold Bayesnet.ReturnNotEvidenceNodes at h
  exact List.mem_range.1 (List.mem_filter.1 h).1

theorem notEvidence_congr (net net1 : Bayesnet)
    (hlen : net1.nodesVector.length = net.nodesVector.length)
    (hev : ∀ i, evidenceOf net1.nodesVector i = evidenceOf net.nodesVector i) :
    net1.ReturnNotEvidenceNodes = net.ReturnNotEvidenceNodes := by
  unfold Bayesnet.ReturnNotEvidenceNodes
  rw [hlen]
  apply List.filter_congr
  intro i _
  rw [Bool.eq_iff_iff, notEvidence_pred, notEvidence_pred, hev i]

theorem keyFromSample_some (sample : List Nat) : ∀ (l : List Nat),
    (∀ p ∈ l, p < sample.length) → ∃ key, keyFromSample sample l = some key
  | [], _ => ⟨[], rfl⟩
  | i :: l, h => by
    obtain ⟨key, hk⟩ := keyFromSample_some sample l (fun p hp => h p (List.mem_cons_of_mem _ hp))
    have hi : i < sample.length := h i (List.mem_cons_self _ _)
    refine ⟨sample[i] :: key, ?_⟩
    simp only [keyFromSample, List.getElem?_eq_getElem hi, hk]

theorem keyFromSample_congr (s1 s2 : List Nat) : ∀ (l : List Nat),
    (∀ p ∈ l, s1[p]? = s2[p]?) → keyFromSample s1 l = keyFromSample s2 l
  | [], _ => rfl
  | i :: l, h => by
    have ih := keyFromSample_congr s1 s2 l (fun p hp => h p (List.mem_cons_of_mem _ hp))
    simp only [keyFromSample, h i (List.mem_cons_self _ _), ih]

theorem chainStep_spec (inEdges : Nat → List Nat) (rnd : RandomSource) (sites : List Nat)
    (sample : List Nat) (nodes : List Bayesnode) (calls : Nat)
    (hrnd : rnd.Valid) (hne : sites ≠ [])
    (hsites : ∀ s ∈ sites, s < nodes.length)
    (hin : ∀ j, ∀ i ∈ inEdges j, i < nodes.length)
    (hlen : sample.length = nodes.length) :
    ∃ sample1 nodes1,
      chainStep inEdges rnd sites sample nodes calls = some (sample1, nodes1, calls + 2) ∧
      SingleSite sites sample sample1 ∧ nodes1.length = nodes.length := by
  have hpos : 0 < sites.length := List.length_pos.2 hne
  have hint := (hrnd calls 0 (sites.length - 1) (Nat.zero_le _)).2
  have hlt : rnd.integer calls 0 (sites.length - 1) < sites.length := by omega
  have hs : sites[rnd.integer calls 0 (sites.length - 1)] ∈ sites := List.getElem_mem hlt
  have hsn := hsites _ hs
  obtain ⟨key, hkey⟩ := keyFromSample_some sample
    (inEdges sites[rnd.integer calls 0 (sites.length - 1)])
    (fun p hp => by rw [hlen]; exact hin _ p hp)
  obtain ⟨node, hnode⟩ := getElem?_of_lt nodes _ hsn
  refine ⟨sample.set sites[rnd.integer calls 0 (sites.length - 1)]
      (node.conditionalTable.ReturnSample key (rnd.discrete (calls + 1))).1,
    nodes.set sites[rnd.integer calls 0 (sites.length - 1)]
      { node with conditionalTable :=
        (node.conditionalTable.ReturnSample key (rnd.discrete (calls + 1))).2 }, ?_, ?_, ?_⟩
  · unfold chainStep GibbsSampler.ReturnInteger
    simp only [List.getElem?_eq_getElem hlt, hkey, hnode]
    rw [if_pos (by rw [hlen]; exact hsn)]
  · exact ⟨_, _, hs, by rw [hlen]; exact hsn, rfl⟩
  · simp

theorem singleSite_length (sites : List Nat) (a b : List Nat) (h : SingleSite sites a b) :
    b.length = a.length := by
  obtain ⟨s, x, _, _, rfl⟩ := h
  simp

theorem chainLoop_spec (inEdges : Nat → List Nat) (rnd : RandomSource) (sites : List Nat)
    (hrnd : rnd.Valid) (hne : sites ≠ []) :
    ∀ (steps : Nat) (sample : List Nat) (nodes : List Bayesnode) (calls : Nat),
      (∀ s ∈ sites, s < nodes.length) → (∀ j, ∀ i ∈ inEdges j, i < nodes.length) →
      sample.length = nodes.length →
      ∃ pushed nodes2 calls2,
        chainLoop inEdges rnd sites steps sample nodes calls = some (pushed, nodes2, calls2) ∧
        pushed.length = steps ∧ List.Chain (SingleSite sites) sample pushed
  | 0, sample, nodes, calls, _, _, _ => ⟨[], nodes, calls, rfl, rfl, List.Chain.nil⟩
  | steps + 1, sample, nodes, calls, hsites, hin, hlen => by
    obtain ⟨sample1, nodes1, e1, e2, e3⟩ :=
      chainStep_spec inEdges rnd sites sample nodes calls hrnd hne hsites hin hlen
    obtain ⟨pushed, nodes2, calls2, f1, f2, f3⟩ :=
      chainLoop_spec inEdges rnd sites hrnd hne steps sample1 nodes1 (calls + 2)
        (fun s hs => by rw [e3]; exact hsites s hs)
        (fun j i hi => by rw [e3]; exact hin j i hi)
        ((singleSite_length sites sample sample1 e2).trans (hlen.trans e3.symm))
    refine ⟨sample1 :: pushed, nodes2, calls2, ?_, by simp [f2], List.Chain.cons e2 f3⟩
    unfold chainLoop
    simp only [e1, f1]

theorem accumulate_spec (net : Bayesnet) (rnd : RandomSource) (calls cycles : Nat)
    (hwf : net.WellFormed) (hrnd : rnd.Valid) :
    ∃ seed net1 c1 pushed net2 c2,
      GibbsSampler.ReturnSample net rnd calls = some (seed, net1, c1) ∧
      GibbsSampler.AccumulateSamples net rnd calls cycles = some (seed :: pushed, net2, c2) ∧
      seed.length = net.nodesVector.length ∧
      (∀ i v, evidenceOf net.nodesVector i = some (some v) → i ∈ net.topologicalList →
        seed[i]? = some v) ∧
      (net.nodesVector.length = 0 → pushed = []) ∧
      (net.nodesVector.length ≠ 0 → pushed.length = cyclesMinusOne cycles) ∧
      (net.ReturnNotEvidenceNodes = [] → ∀ x ∈ pushed, x = seed) ∧
      (net.ReturnNotEvidenceNodes ≠ [] →
        List.Chain (SingleSite net.ReturnNotEvidenceNodes) seed pushed) := by
  obtain ⟨seed, nodes1, c1, e1, e2, e3, e4, e5⟩ := returnSample_spec net rnd calls hwf
  have hL : Bayesnet.ReturnNotEvidenceNodes ⟨nodes1, net.inEdges, net.topologicalList⟩
      = net.ReturnNotEvidenceNodes :=
    notEvidence_congr net ⟨nodes1, net.inEdges, net.topologicalList⟩ e3 e4
  by_cases hn : net.nodesVector.length = 0
  · have hLnil : net.ReturnNotEvidenceNodes = [] := by
      unfold Bayesnet.ReturnNotEvidenceNodes
      rw [hn]
      rfl
    refine ⟨seed, ⟨nodes1, net.inEdges, net.topologicalList⟩, c1, [],
      ⟨nodes1, net.inEdges, net.topologicalList⟩, c1, e1, ?_, e2, e5, fun _ => rfl,
      fun h => absurd hn h, fun _ x hx => by simp at hx, fun h => absurd hLnil h⟩
    unfold GibbsSampler.AccumulateSamples
    rw [e1]
    dsimp only [Bayesnet.ReturnNumberOfNodes]
    rw [if_pos (e3.trans hn)]
  · by_cases hLnil : net.ReturnNotEvidenceNodes = []
    · refine ⟨seed, ⟨nodes1, net.inEdges, net.topologicalList⟩, c1,
        List.replicate (cyclesMinusOne cycles) seed,
        ⟨nodes1, net.inEdges, net.topologicalList⟩, c1, e1, ?_, e2, e5,
        fun h => absurd h hn, fun _ => List.length_replicate _ _,
        fun _ x hx => List.eq_of_mem_replicate hx, fun h => absurd hLnil h⟩
      unfold GibbsSampler.AccumulateSamples
      rw [e1]
      dsimp only [Bayesnet.ReturnNumberOfNodes]
      rw [if_neg (by rw [e3]; exact hn), if_pos (by rw [hL, hLnil]; rfl)]
    · obtain ⟨pushed, nodes2, calls2, f1, f2, f3⟩ :=
        chainLoop_spec net.inEdges rnd net.ReturnNotEvidenceNodes hrnd hLnil
          (cyclesMinusOne cycles) seed nodes1 c1
          (fun s hs => by rw [e3]; exact lt_of_mem_notEvidence net s hs)
          (fun j i hi => by rw [e3]; exact hwf.2 j i hi)
          (e2.trans e3.symm)
      refine ⟨seed, ⟨nodes1, net.inEdges, net.topologicalList⟩, c1, pushed,
        ⟨nodes2, net.inEdges, net.topologicalList⟩, calls2, e1, ?_,
        e2, e5, fun h => absurd h hn, fun _ => f2, fun h => absurd h hLnil, fun _ => f3⟩
      unfold GibbsSampler.AccumulateSamples
      rw [e1]
      dsimp only [Bayesnet.ReturnNumberOfNodes]
      rw [if_neg (by rw [e3]; exact hn), if_neg (by rw [hL]; simpa using hLnil), hL, f1]

/-! ## Claims on the sampler: evidence -/

theorem chain_forall {α : Type} (R : α → α → Prop) (P : α → Prop)
    (hstep : ∀ x y, R x y → P x → P y) :
    ∀ (l : List α) (a : α), List.Chain R a l → P a → ∀ x ∈ l, P x
  | [], _, _, _ => fun x hx => by simp at hx
  | b :: l, a, h, ha => by
    rw [List.chain_cons] at h
    intro x hx
    rcases List.mem_cons.1 hx with hx | hx
    · rw [hx]
      exact hstep a b h.1 ha
    · exact chain_forall R P hstep l b h.2 (hstep a b h.1 ha) x hx

theorem chainEdges_lt (j i : Nat) (h : i ∈ chainEdges j) : i < 2 := by
  unfold chainEdges at h
  by_cases hj : j = 1
  · rw [if_pos hj] at h
    simp only [List.mem_singleton] at h
    omega
  · rw [if_neg hj] at h
    simp at h

theorem emptyNet_wf : emptyNet.WellFormed :=
  ⟨fun i hi => by simp [emptyNet] at hi, fun j i hi => by simp [emptyNet] at hi⟩

theorem chainNet_wf : chainNet.WellFormed :=
  ⟨by decide, fun j i hi => chainEdges_lt j i hi⟩

theorem evidenceNet_wf : evidenceNet.WellFormed :=
  ⟨by decide, fun j i hi => chainEdges_lt j i hi⟩

theorem allEvidenceNet_wf : allEvidenceNet.WellFormed :=
  ⟨by decide, fun j i hi => chainEdges_lt j i hi⟩

theorem leastSource_valid : leastSource.Valid :=
  fun _ a _ hab => ⟨Nat.le_refl a, hab⟩

theorem cyclesMinusOne_eq (cycles : Nat) (h1 : 1 ≤ cycles) (h2 : cycles < 4294967296) :
    cyclesMinusOne cycles = cycles - 1 := by
  unfold cyclesMinusOne
  omega

/-- C22: for every network whose topological list contains every node, every node `i`
flagged as evidence with value `v`, every content of the tables and every outcome of the
random source, the vector returned by `ReturnSample` has `v` at index `i`, and so has
every sample of the sequence returned by `AccumulateSamples`; when all nodes are evidence
every sample of that sequence equals the first one. -/
theorem C22_evidence_fidelity (net : Bayesnet) (rnd : RandomSource) (calls cycles : Nat)
    (hwf : net.WellFormed) (hrnd : rnd.Valid)
    (htopo : ∀ j, j < net.nodesVector.length → j ∈ net.topologicalList)
    (i v : Nat) (hev : evidenceOf net.nodesVector i = some (some v)) :
    ∃ seed net1 c1 samples net2 c2,
      GibbsSampler.ReturnSample net rnd calls = some (seed, net1, c1) ∧
      seed[i]? = some v ∧
      GibbsSampler.AccumulateSamples net rnd calls cycles = some (samples, net2, c2) ∧
      (∀ smp ∈ samples, smp[i]? = some v) ∧
      ((∀ j, j < net.nodesVector.length → ∃ w, evidenceOf net.nodesVector j = some (some w)) →
        ∀ smp ∈ samples, smp = seed) := by
  obtain ⟨seed, net1, c1, pushed, net2, c2, e1, e2, _, e4, _, _, e7, e8⟩ :=
    accumulate_spec net rnd calls cycles hwf hrnd
  have hi : i < net.nodesVector.length := by
    by_contra hge
    unfold evidenceOf at hev
    rw [List.getElem?_eq_none (by omega)] at hev
    exact Option.noConfusion hev
  have hseed : seed[i]? = some v := e4 i v hev (htopo i hi)
  refine ⟨seed, net1, c1, seed :: pushed, net2, c2, e1, hseed, e2, ?_, ?_⟩
  · intro smp hsmp
    rcases List.mem_cons.1 hsmp with h | h
    · rw [h]
      exact hseed
    · by_cases hL : net.ReturnNotEvidenceNodes = []
      · rw [e7 hL smp h]
        exact hseed
      · refine chain_forall (SingleSite net.ReturnNotEvidenceNodes)
          (fun a => a[i]? = some v) ?_ pushed seed (e8 hL) hseed smp h
        rintro a b ⟨s, x, hs, _, rfl⟩ ha
        have hsi : s ≠ i := by
          intro hsi
          subst hsi
          rw [(mem_notEvidence net s).1 hs] at hev
          exact Option.noConfusion (Option.some.inj hev)
        rw [List.getElem?_set_ne hsi]
        exact ha
  · intro hall smp hsmp
    have hL : net.ReturnNotEvidenceNodes = [] := by
      rw [List.eq_nil_iff_forall_not_mem]
      intro s hs
      obtain ⟨w, hw⟩ := hall s (lt_of_mem_notEvidence net s hs)
      rw [(mem_notEvidence net s).1 hs] at hw
      exact Option.noConfusion (Option.some.inj hw)
    rcases List.mem_cons.1 hsmp with h | h
    · exact h
    · exact e7 hL smp h

/-- Instance of C22 on the chain whose node 0 is evidence of value 1. -/
theorem C22_evidence_fidelity_witness :
    evidenceNet.WellFormed ∧ leastSource.Valid ∧
    (∀ j, j < evidenceNet.nodesVector.length → j ∈ evidenceNet.topologicalList) ∧
    evidenceOf evidenceNet.nodesVector 0 = some (some 1) ∧
    ∃ seed net1 c1 samples net2 c2,
      GibbsSampler.ReturnSample evidenceNet leastSource 0 = some (seed, net1, c1) ∧
      seed[0]? = some 1 ∧
      GibbsSampler.AccumulateSamples evidenceNet leastSource 0 3 = some (samples, net2, c2) ∧
      (∀ smp ∈ samples, smp[0]? = some 1) ∧
      ((∀ j, j < evidenceNet.nodesVector.length →
          ∃ w, evidenceOf evidenceNet.nodesVector j = some (some w)) →
        ∀ smp ∈ samples, smp = seed) :=
  ⟨evidenceNet_wf, leastSource_valid, by decide, rfl,
    C22_evidence_fidelity evidenceNet leastSource 0 3 evidenceNet_wf leastSource_valid
      (by decide) 0 1 rfl⟩

/-! ## Claims on the sampler: count, single site, parents -/

/-- C23, as stated, fails: on the network without nodes `AccumulateSamples(net, 5)`
returns from its test for empty networks with the seeding sample alone, one sample and
not five; and with `cycles = 0` the bound `cycles-1` of the loops wraps around to
`2^32 - 1`, so that on a network of two evidence nodes the call returns `2^32` samples
and not none. -/
theorem C23_sample_count_is_not_always_cycles :
    (∃ net1 c1,
      GibbsSampler.AccumulateSamples emptyNet leastSource 0 5 = some ([[]], net1, c1)) ∧
    (∃ samples net1 c1,
      GibbsSampler.AccumulateSamples allEvidenceNet leastSource 0 0
        = some (samples, net1, c1) ∧ samples.length = 4294967296) ∧
    ¬ (∀ (net : Bayesnet) (rnd : RandomSource) (calls cycles : Nat), cycles < 4294967296 →
      ∃ samples net1 c1,
        GibbsSampler.AccumulateSamples net rnd calls cycles = some (samples, net1, c1) ∧
        samples.length = cycles) := by
  have h1 : ∃ net1 c1,
      GibbsSampler.AccumulateSamples emptyNet leastSource 0 5 = some ([[]], net1, c1) :=
    ⟨_, _, rfl⟩
  refine ⟨h1, ?_, ?_⟩
  · obtain ⟨seed, net1, c1, pushed, net2, c2, _, e2, _, _, _, e6, _, _⟩ :=
      accumulate_spec allEvidenceNet leastSource 0 0 allEvidenceNet_wf leastSource_valid
    refine ⟨seed :: pushed, net2, c2, e2, ?_⟩
    have hp := e6 (by decide)
    have hc : cyclesMinusOne 0 = 4294967295 := rfl
    rw [List.length_cons, hp, hc]
  · intro h
    obtain ⟨net1, c1, e1⟩ := h1
    obtain ⟨samples, net2, c2, e2, e3⟩ := h emptyNet leastSource 0 5 (by decide)
    rw [e1] at e2
    have := (Prod.mk.inj (Option.some.inj e2)).1
    rw [← this] at e3
    simp at e3

/-- C23, amended: for every network with at least one node and every `cycles` from 1 to
`2^32 - 1`, `AccumulateSamples(net, cycles)` returns exactly `cycles` samples: the
seeding sample that `ReturnSample` gives, followed by `cycles-1` samples, which are
copies of it when there is no latent node and the successive steps of the chain
otherwise; for a network without nodes it returns the seeding sample alone. -/
theorem C23_sample_count (net : Bayesnet) (rnd : RandomSource) (calls cycles : Nat)
    (hwf : net.WellFormed) (hrnd : rnd.Valid) :
    ∃ seed net1 c1 pushed net2 c2,
      GibbsSampler.ReturnSample net rnd calls = some (seed, net1, c1) ∧
      GibbsSampler.AccumulateSamples net rnd calls cycles = some (seed :: pushed, net2, c2) ∧
      (net.nodesVector.length = 0 → pushed = []) ∧
      (0 < net.nodesVector.length → 1 ≤ cycles → cycles < 4294967296 →
        pushed.length = cycles - 1 ∧ (seed :: pushed).length = cycles) ∧
      (net.ReturnNotEvidenceNodes = [] → ∀ x ∈ pushed, x = seed) ∧
      (net.ReturnNotEvidenceNodes ≠ [] →
        List.Chain (SingleSite net.ReturnNotEvidenceNodes) seed pushed) := by
  obtain ⟨seed, net1, c1, pushed, net2, c2, e1, e2, _, _, e5, e6, e7, e8⟩ :=
    accumulate_spec net rnd calls cycles hwf hrnd
  refine ⟨seed, net1, c1, pushed, net2, c2, e1, e2, e5, ?_, e7, e8⟩
  intro hn h1 h2
  have hp := e6 (by omega)
  rw [cyclesMinusOne_eq cycles h1 h2] at hp
  refine ⟨hp, ?_⟩
  rw [List.length_cons, hp]
  omega

/-- Instance of the amended C23 on the chain of two latent nodes, with three cycles. -/
theorem C23_sample_count_witness :
    chainNet.WellFormed ∧ leastSource.Valid ∧
    ∃ seed net1 c1 pushed net2 c2,
      GibbsSampler.ReturnSample chainNet leastSource 0 = some (seed, net1, c1) ∧
      GibbsSampler.AccumulateSamples chainNet leastSource 0 3
        = some (seed :: pushed, net2, c2) ∧
      (chainNet.nodesVector.length = 0 → pushed = []) ∧
      (0 < chainNet.nodesVector.length → 1 ≤ 3 → 3 < 4294967296 →
        pushed.length = 3 - 1 ∧ (seed :: pushed).length = 3) ∧
      (chainNet.ReturnNotEvidenceNodes = [] → ∀ x ∈ pushed, x = seed) ∧
      (chainNet.ReturnNotEvidenceNodes ≠ [] →
        List.Chain (SingleSite chainNet.ReturnNotEvidenceNodes) seed pushed) :=
  ⟨chainNet_wf, leastSource_valid,
    C23_sample_count chainNet leastSource 0 3 chainNet_wf leastSource_valid⟩

/-- C24: on a network with at least one node that is not evidence, in the sequence
returned by `AccumulateSamples` every sample after the first has the length of its
predecessor and agrees with it at every position but one, which is the index of a node
that is not evidence. -/
theorem C24_single_site_update (net : Bayesnet) (rnd : RandomSource) (calls cycles : Nat)
    (hwf : net.WellFormed) (hrnd : rnd.Valid)
    (hlatent : ∃ s, evidenceOf net.nodesVector s = some none) :
    ∃ samples net2 c2,
      GibbsSampler.AccumulateSamples net rnd calls cycles = some (samples, net2, c2) ∧
      List.Chain' (fun a b => b.length = a.length ∧
        ∃ s, evidenceOf net.nodesVector s = some none ∧ s < net.nodesVector.length ∧
          ∀ j, j ≠ s → b[j]? = a[j]?) samples := by
  obtain ⟨seed, net1, c1, pushed, net2, c2, _, e2, _, _, _, _, _, e8⟩ :=
    accumulate_spec net rnd calls cycles hwf hrnd
  obtain ⟨s0, hs0⟩ := hlatent
  have hL : net.ReturnNotEvidenceNodes ≠ [] := by
    intro hnil
    have := (mem_notEvidence net s0).2 hs0
    rw [hnil] at this
    simp at this
  refine ⟨seed :: pushed, net2, c2, e2, ?_⟩
  refine List.Chain.imp ?_ (e8 hL)
  rintro a b ⟨s, x, hs, _, rfl⟩
  refine ⟨by simp, s, (mem_notEvidence net s).1 hs, lt_of_mem_notEvidence net s hs, ?_⟩
  intro j hj
  exact List.getElem?_set_ne (Ne.symm hj)

/-- Instance of C24 on the chain whose node 0 is evidence, with three cycles. -/
theorem C24_single_site_update_witness :
    evidenceNet.WellFormed ∧ leastSource.Valid ∧
    (∃ s, evidenceOf evidenceNet.nodesVector s = some none) ∧
    ∃ samples net2 c2,
      GibbsSampler.AccumulateSamples evidenceNet leastSource 0 3 = some (samples, net2, c2) ∧
      List.Chain' (fun a b => b.length = a.length ∧
        ∃ s, evidenceOf evidenceNet.nodesVector s = some none ∧
          s < evidenceNet.nodesVector.length ∧ ∀ j, j ≠ s → b[j]? = a[j]?) samples :=
  ⟨evidenceNet_wf, leastSource_valid, ⟨1, rfl⟩,
    C24_single_site_update evidenceNet leastSource 0 3 evidenceNet_wf leastSource_valid
      ⟨1, rfl⟩⟩

theorem keyFromSample_eq (sample : List Nat) : ∀ (l : List Nat),
    (∀ p ∈ l, p < sample.length) →
    keyFromSample sample l = some (l.map (fun p => sample.getD p 0))
  | [], _ => rfl
  | i :: l, h => by
    have ih := keyFromSample_eq sample l (fun p hp => h p (List.mem_cons_of_mem _ hp))
    have hi : i < sample.length := h i (List.mem_cons_self _ _)
    simp only [keyFromSample, ih, List.getElem?_eq_getElem hi, List.map_cons,
      List.getD_eq_getElem?_getD, Option.getD_some]

theorem mapSubscript_fst {V : Type} (k : Key) (d : V) (m : RowMap V) :
    (mapSubscript k d m).1 = (mapFind k m).getD d := by
  unfold mapSubscript
  cases mapFind k m <;> rfl

/-- C25: in one step of the chain the value drawn for the selected node `s` is what the
generator of the call returns on the row of the table of `s` keyed by the current states
of the in-edge nodes of `s`, in in-edge order; two chain states of the same length that
agree on the states of those nodes get the same new value at `s`, with the same random
source, whatever the states of `s` and of the other nodes are. -/
theorem C25_step_depends_on_parents_only (inEdges : Nat → List Nat) (rnd : RandomSource)
    (sites : List Nat) (nodes : List Bayesnode) (calls : Nat) (sample1 sample2 : List Nat)
    (s : Nat) (node : Bayesnode)
    (hsel : sites[GibbsSampler.ReturnInteger rnd calls 0 (sites.length - 1)]? = some s)
    (hnode : nodes[s]? = some node)
    (hpar : ∀ p ∈ inEdges s, p < sample1.length)
    (hs : s < sample1.length) (hlen : sample2.length = sample1.length)
    (hagree : ∀ p ∈ inEdges s, sample1[p]? = sample2[p]?) :
    ∃ x nodes1,
      x = rnd.discrete (calls + 1)
        ((mapFind ((inEdges s).map (fun p => sample1.getD p 0))
          node.conditionalTable.conditionalMap).getD []) ∧
      chainStep inEdges rnd sites sample1 nodes calls
        = some (sample1.set s x, nodes1, calls + 2) ∧
      chainStep inEdges rnd sites sample2 nodes calls
        = some (sample2.set s x, nodes1, calls + 2) := by
  have hk1 := keyFromSample_eq sample1 (inEdges s) hpar
  have hk2 : keyFromSample sample2 (inEdges s)
      = some ((inEdges s).map (fun p => sample1.getD p 0)) := by
    rw [← keyFromSample_congr sample1 sample2 (inEdges s) hagree]
    exact hk1
  have hx : (node.conditionalTable.ReturnSample ((inEdges s).map (fun p => sample1.getD p 0))
      (rnd.discrete (calls + 1))).1
      = rnd.discrete (calls + 1)
        ((mapFind ((inEdges s).map (fun p => sample1.getD p 0))
          node.conditionalTable.conditionalMap).getD []) := by
    simp only [ConditionalProbabilityTable.ReturnSample, mapSubscript_fst]
  refine ⟨_, nodes.set s { node with conditionalTable :=
    (node.conditionalTable.ReturnSample ((inEdges s).map (fun p => sample1.getD p 0))
      (rnd.discrete (calls + 1))).2 }, rfl, ?_, ?_⟩
  · unfold chainStep
    simp only [hsel, hk1, hnode]
    rw [if_pos hs, hx]
  · unfold chainStep
    simp only [hsel, hk2, hnode]
    rw [if_pos (by rw [hlen]; exact hs), hx]

/-- Instance of C25 on the chain `0 → 1`: node 1 is selected, and the two chain states
`[0, 0]` and `[0, 1]` agree on its parent. -/
theorem C25_step_depends_on_parents_only_witness :
    [1][GibbsSampler.ReturnInteger leastSource 0 0 ([1].length - 1)]? = some 1 ∧
    chainNet.nodesVector[1]? = some ⟨none, uniformChild⟩ ∧
    (∀ p ∈ chainEdges 1, p < [0, 0].length) ∧
    1 < [0, 0].length ∧ [0, 1].length = [0, 0].length ∧
    (∀ p ∈ chainEdges 1, [0, 0][p]? = [0, 1][p]?) ∧
    ∃ x nodes1,
      x = leastSource.discrete (0 + 1)
        ((mapFind ((chainEdges 1).map (fun p => [0, 0].getD p 0))
          (Bayesnode.mk none uniformChild).conditionalTable.conditionalMap).getD []) ∧
      chainStep chainEdges leastSource [1] [0, 0] chainNet.nodesVector 0
        = some ([0, 0].set 1 x, nodes1, 0 + 2) ∧
      chainStep chainEdges leastSource [1] [0, 1] chainNet.nodesVector 0
        = some ([0, 1].set 1 x, nodes1, 0 + 2) :=
  ⟨rfl, rfl, by simp [chainEdges], by decide, rfl, by simp [chainEdges],
    C25_step_depends_on_parents_only chainEdges leastSource [1] chainNet.nodesVector 0
      [0, 0] [0, 1] 1 ⟨none, uniformChild⟩ rfl rfl (by simp [chainEdges]) (by decide) rfl
      (by simp [chainEdges])⟩

/-! ## Binary64: the binary exponent and the rounding -/

theorem bitLength_spec : ∀ (fuel n : Nat), n ≤ fuel →
    n < 2 ^ bitLength fuel n ∧ (0 < n → 2 ^ bitLength fuel n ≤ 2 * n)
  | 0, n, h => by
    have : n = 0 := by omega
    subst this
    simp [bitLength]
  | fuel + 1, n, h => by
    unfold bitLength
    by_cases hn : n = 0
    · subst hn; simp
    · rw [if_neg hn]
      have ih := bitLength_spec fuel (n / 2) (by omega)
      obtain ⟨h1, h2⟩ := ih
      rw [pow_succ]
      constructor
      · omega
      · intro _
        by_cases h0 : n / 2 = 0
        · have hb : bitLength fuel (n / 2) = 0 := by
            rw [h0]
            cases fuel <;> simp [bitLength]
          rw [hb]
          omega
        · have := h2 (by omega)
          omega

theorem scale_eq (a b : Nat) (e : Int) (hb : 0 < b) :
    ((a * 2 ^ (-e).toNat : Nat) : ℚ) / ((b * 2 ^ e.toNat : Nat) : ℚ)
      = ((a : ℚ) / (b : ℚ)) / (2 : ℚ) ^ e := by
  have hb1 : (b : ℚ) ≠ 0 := by positivity
  obtain ⟨n, rfl | rfl⟩ := Int.eq_nat_or_neg e
  · rcases Nat.eq_zero_or_pos n with h | h
    · subst h; simp
    · have : (-(n : Int)).toNat = 0 := by omega
      simp only [this, Int.toNat_ofNat, pow_zero, mul_one, zpow_natCast]
      push_cast
      field_simp
  · simp only [neg_neg, Int.toNat_ofNat, zpow_neg, zpow_natCast]
    have : (-(n : Int)).toNat = 0 := by omega
    simp only [this, pow_zero, mul_one]
    push_cast
    field_simp

theorem scale_le (a b : Nat) (e : Int) (hb : 0 < b) :
    b * 2 ^ e.toNat ≤ a * 2 ^ (-e).toNat ↔ (2 : ℚ) ^ e ≤ (a : ℚ) / (b : ℚ) := by
  have hb1 : (0 : ℚ) < b := by positivity
  have hp : (0 : ℚ) < (2 : ℚ) ^ e := by positivity
  have hD : (0 : ℚ) < ((b * 2 ^ e.toNat : Nat) : ℚ) := by positivity
  have h := scale_eq a b e hb
  rw [le_div_iff₀ hb1]
  have h2 : ((a : ℚ) / (b : ℚ)) / (2 : ℚ) ^ e = (a : ℚ) / ((2 : ℚ) ^ e * b) := by
    rw [div_div, mul_comm]
  rw [h2] at h
  constructor
  · intro hle
    have hle1 : (1 : ℚ) ≤ ((a * 2 ^ (-e).toNat : Nat) : ℚ) / ((b * 2 ^ e.toNat : Nat) : ℚ) := by
      rw [le_div_iff₀ hD, one_mul]
      exact_mod_cast hle
    rw [h, le_div_iff₀ (by positivity), one_mul] at hle1
    exact hle1
  · intro hle
    have hle1 : (1 : ℚ) ≤ (a : ℚ) / ((2 : ℚ) ^ e * b) := by
      rw [le_div_iff₀ (by positivity), one_mul]
      exact hle
    rw [← h, le_div_iff₀ hD, one_mul] at hle1
    exact_mod_cast hle1

theorem binExp_spec (a b : Nat) (ha : 0 < a) (hb : 0 < b) :
    (2 : ℚ) ^ binExp a b ≤ (a : ℚ) / (b : ℚ) ∧ (a : ℚ) / (b : ℚ) < (2 : ℚ) ^ (binExp a b + 1) := by
  obtain ⟨a1, a2⟩ := bitLength_spec a a (Nat.le_refl a)
  obtain ⟨b1, b2⟩ := bitLength_spec b b (Nat.le_refl b)
  have a2 := a2 ha
  have b2 := b2 hb
  have hbq : (0 : ℚ) < b := by positivity
  have haq : (0 : ℚ) < a := by positivity
  have a1q : (a : ℚ) < (2 : ℚ) ^ (bitLength a a) := by exact_mod_cast a1
  have a2q : (2 : ℚ) ^ (bitLength a a) ≤ 2 * (a : ℚ) := by exact_mod_cast a2
  have b1q : (b : ℚ) < (2 : ℚ) ^ (bitLength b b) := by exact_mod_cast b1
  have b2q : (2 : ℚ) ^ (bitLength b b) ≤ 2 * (b : ℚ) := by exact_mod_cast b2
  have hd : (2 : ℚ) ^ ((bitLength a a : Int) - (bitLength b b : Int))
      = (2 : ℚ) ^ (bitLength a a) / (2 : ℚ) ^ (bitLength b b) := by
    rw [zpow_sub₀ (by norm_num), zpow_natCast, zpow_natCast]
  have hA : (0 : ℚ) < (2 : ℚ) ^ (bitLength a a) := by positivity
  have hB : (0 : ℚ) < (2 : ℚ) ^ (bitLength b b) := by positivity
  unfold binExp
  simp only
  by_cases hc : b * 2 ^ ((bitLength a a : Int) - (bitLength b b : Int)).toNat
      ≤ a * 2 ^ (-((bitLength a a : Int) - (bitLength b b : Int))).toNat
  · rw [if_pos hc]
    refine ⟨(scale_le a b _ hb).1 hc, ?_⟩
    rw [zpow_add₀ (by norm_num), hd, zpow_one, div_lt_iff₀ hbq, div_mul_eq_mul_div, div_mul_eq_mul_div,
      lt_div_iff₀ hB]
    nlinarith
  · rw [if_neg hc]
    have hlt : ¬ (2 : ℚ) ^ ((bitLength a a : Int) - (bitLength b b : Int)) ≤ (a : ℚ) / (b : ℚ) :=
      fun h => hc ((scale_le a b _ hb).2 h)
    rw [sub_add_cancel]
    refine ⟨?_, lt_of_not_le hlt⟩
    rw [zpow_sub₀ (by norm_num), hd, zpow_one, le_div_iff₀ hbq, div_mul_eq_mul_div, div_le_iff₀ (by norm_num),
      div_mul_eq_mul_div, div_le_iff₀ hB]
    nlinarith

theorem roundHalfEven_cases (n d : Nat) :
    roundHalfEven n d = n / d ∧ 2 * (n % d) ≤ d ∨
    roundHalfEven n d = n / d + 1 ∧ d ≤ 2 * (n % d) := by
  unfold roundHalfEven
  by_cases h1 : 2 * (n % d) < d
  · rw [if_pos h1]; left; exact ⟨rfl, by omega⟩
  · rw [if_neg h1]
    by_cases h2 : d < 2 * (n % d)
    · rw [if_pos h2]; right; exact ⟨rfl, by omega⟩
    · rw [if_neg h2]
      by_cases h3 : (n / d) % 2 = 0
      · rw [if_pos h3]; left; exact ⟨rfl, by omega⟩
      · rw [if_neg h3]; right; exact ⟨rfl, by omega⟩

theorem roundHalfEven_near (n d : Nat) (hd : 0 < d) :
    |((roundHalfEven n d : Nat) : ℚ) - (n : ℚ) / (d : ℚ)| ≤ 1 / 2 := by
  have hdq : (0 : ℚ) < d := by positivity
  have hdm : (d : ℚ) * ((n / d : Nat) : ℚ) + ((n % d : Nat) : ℚ) = (n : ℚ) := by
    exact_mod_cast Nat.div_add_mod n d
  have hq : (n : ℚ) / (d : ℚ) = ((n / d : Nat) : ℚ) + ((n % d : Nat) : ℚ) / (d : ℚ) := by
    rw [← hdm]
    field_simp
    ring
  have hr : ((n % d : Nat) : ℚ) / (d : ℚ) < 1 := by
    rw [div_lt_one hdq]
    exact_mod_cast Nat.mod_lt n hd
  have hr0 : (0 : ℚ) ≤ ((n % d : Nat) : ℚ) / (d : ℚ) := by positivity
  rw [abs_le, hq]
  rcases roundHalfEven_cases n d with ⟨h, hle⟩ | ⟨h, hle⟩
  · have hleq : ((n % d : Nat) : ℚ) / (d : ℚ) ≤ 1 / 2 := by
      rw [div_le_iff₀ hdq]
      have : 2 * ((n % d : Nat) : ℚ) ≤ d := by exact_mod_cast hle
      linarith
    rw [h]
    constructor <;> linarith
  · have hleq : 1 / 2 ≤ ((n % d : Nat) : ℚ) / (d : ℚ) := by
      rw [le_div_iff₀ hdq]
      have : (d : ℚ) ≤ 2 * ((n % d : Nat) : ℚ) := by exact_mod_cast hle
      linarith
    rw [h]
    push_cast
    constructor <;> linarith

theorem roundHalfEven_ge (n d L : Nat) (hd : 0 < d) (h : L * d ≤ n) : L ≤ roundHalfEven n d := by
  have hf : L ≤ n / d := (Nat.le_div_iff_mul_le hd).2 h
  rcases roundHalfEven_cases n d with ⟨h1, _⟩ | ⟨h1, _⟩ <;> omega

theorem roundHalfEven_le (n d U : Nat) (hd : 0 < d) (h : n ≤ U * d) : roundHalfEven n d ≤ U := by
  have hf : n / d ≤ U := by
    apply Nat.div_le_of_le_mul
    rw [Nat.mul_comm]
    exact h
  rcases roundHalfEven_cases n d with ⟨h1, _⟩ | ⟨h1, h2⟩
  · omega
  · rw [h1]
    by_contra hc
    have hU : U = n / d := by omega
    have h3 := Nat.div_add_mod n d
    rw [hU, Nat.mul_comm] at h
    omega

theorem roundHalfEven_dvd (n d : Nat) (hd : 0 < d) (h : d ∣ n) :
    ((roundHalfEven n d : Nat) : ℚ) = (n : ℚ) / (d : ℚ) := by
  have hdq : (d : ℚ) ≠ 0 := by positivity
  have hm : n % d = 0 := Nat.mod_eq_zero_of_dvd h
  have hR : roundHalfEven n d = n / d := by
    unfold roundHalfEven
    rw [hm, if_pos (by omega)]
  rw [hR, Nat.cast_div h hdq]

theorem two_zpow_lt (e f : Int) (h : e < f) : (2 : ℚ) ^ e < (2 : ℚ) ^ f :=
  zpow_lt_zpow_right₀ (by norm_num) h

theorem two_zpow_le (e f : Int) (h : e ≤ f) : (2 : ℚ) ^ e ≤ (2 : ℚ) ^ f :=
  zpow_le_zpow_right₀ (by norm_num) h

theorem pack_spec (s : Bool) (m : Nat) (e : Int) (hm : m ≤ 9007199254740992) (he : -1074 ≤ e)
    (hsub : m < 4503599627370496 → e = -1074) :
    ((m : ℚ) * (2 : ℚ) ^ e < (2 : ℚ) ^ (1024 : Int) →
      (Double.pack s m e).isFinite = true ∧ (Double.pack s m e).sign = s ∧
      ((Double.pack s m e).mant : ℚ) * (2 : ℚ) ^ (Double.pack s m e).ulpExp
        = (m : ℚ) * (2 : ℚ) ^ e) ∧
    ((2 : ℚ) ^ (1024 : Int) ≤ (m : ℚ) * (2 : ℚ) ^ e → Double.pack s m e = Double.inf s) := by
  have hpos : ∀ z : Int, (0 : ℚ) < (2 : ℚ) ^ z := fun z => by positivity
  by_cases h1 : m < 4503599627370496
  · have he1 := hsub h1
    subst he1
    have hmod : m % 4503599627370496 = m := Nat.mod_eq_of_lt h1
    have hsmall : (m : ℚ) * (2 : ℚ) ^ (-1074 : Int) < (2 : ℚ) ^ (1024 : Int) := by
      have h2 : (m : ℚ) < (2 : ℚ) ^ (52 : Int) := by
        have h3 : (m : ℚ) < 4503599627370496 := by exact_mod_cast h1
        have e52 : (2 : ℚ) ^ (52 : Int) = 4503599627370496 := by norm_num
        rw [e52]
        exact h3
      calc (m : ℚ) * (2 : ℚ) ^ (-1074 : Int)
          < (2 : ℚ) ^ (52 : Int) * (2 : ℚ) ^ (-1074 : Int) :=
            mul_lt_mul_of_pos_right h2 (hpos _)
        _ = (2 : ℚ) ^ (-1022 : Int) := by rw [← zpow_add₀ (by norm_num)]; norm_num
        _ < (2 : ℚ) ^ (1024 : Int) := two_zpow_lt _ _ (by norm_num)
    unfold Double.pack
    rw [if_pos h1]
    refine ⟨fun _ => ⟨rfl, rfl, ?_⟩, fun h => absurd hsmall (not_lt.2 h)⟩
    simp [Double.mant, Double.ulpExp, hmod]
  · have h1' : 4503599627370496 ≤ m := by omega
    obtain ⟨m1, e1, hm1, hm2, hval, hdef⟩ : ∃ (m1 : Nat) (e1 : Int),
        4503599627370496 ≤ m1 ∧ m1 < 9007199254740992 ∧
        (m1 : ℚ) * (2 : ℚ) ^ e1 = (m : ℚ) * (2 : ℚ) ^ e ∧
        m1 = (if m < 9007199254740992 then m else m / 2) ∧
        e1 = (if m < 9007199254740992 then e else e + 1) ∧ -1074 ≤ e1 := by
      by_cases h2 : m < 9007199254740992
      · exact ⟨m, e, h1', h2, rfl, by rw [if_pos h2], by rw [if_pos h2], he⟩
      · have hm' : m = 9007199254740992 := by omega
        subst hm'
        refine ⟨4503599627370496, e + 1, by norm_num, by norm_num, ?_, by norm_num, by norm_num,
          by omega⟩
        rw [zpow_add₀ (by norm_num)]
        norm_num
        ring
    obtain ⟨hdm, hde, he1⟩ := hdef
    have hm1q : (4503599627370496 : ℚ) ≤ (m1 : ℚ) := by exact_mod_cast hm1
    have hm2q : (m1 : ℚ) < 9007199254740992 := by exact_mod_cast hm2
    have e52 : (2 : ℚ) ^ (52 : Int) = 4503599627370496 := by norm_num
    have e53 : (2 : ℚ) ^ (53 : Int) = 9007199254740992 := by norm_num
    unfold Double.pack
    rw [if_neg h1]
    simp only [← hdm, ← hde]
    rw [← hval]
    by_cases h3 : e1 + 1075 < 2047
    · rw [if_pos h3]
      have hlt : (m1 : ℚ) * (2 : ℚ) ^ e1 < (2 : ℚ) ^ (1024 : Int) := by
        calc (m1 : ℚ) * (2 : ℚ) ^ e1 < (2 : ℚ) ^ (53 : Int) * (2 : ℚ) ^ e1 := by
              rw [e53]; exact mul_lt_mul_of_pos_right hm2q (hpos _)
          _ = (2 : ℚ) ^ (53 + e1) := by rw [zpow_add₀ (by norm_num)]
          _ ≤ (2 : ℚ) ^ (1024 : Int) := two_zpow_le _ _ (by omega)
      refine ⟨fun _ => ⟨?_, rfl, ?_⟩, fun h => absurd hlt (not_lt.2 h)⟩
      · simp only [Double.isFinite, decide_eq_true_eq]
        omega
      · have hx : (e1 + 1075).toNat % 2048 = (e1 + 1075).toNat := Nat.mod_eq_of_lt (by omega)
        have hx0 : (e1 + 1075).toNat ≠ 0 := by omega
        have hf : (m1 - 4503599627370496) % 4503599627370496 = m1 - 4503599627370496 :=
          Nat.mod_eq_of_lt (by omega)
        have hmant : 4503599627370496 + (m1 - 4503599627370496) = m1 := by omega
        have hexp : (((e1 + 1075).toNat : Nat) : Int) - 1075 = e1 := by omega
        simp only [Double.mant, Double.ulpExp, hx, hf, if_neg hx0, hmant, hexp]
    · rw [if_neg h3]
      have hge : (2 : ℚ) ^ (1024 : Int) ≤ (m1 : ℚ) * (2 : ℚ) ^ e1 := by
        calc (2 : ℚ) ^ (1024 : Int) ≤ (2 : ℚ) ^ (52 + e1) := two_zpow_le _ _ (by omega)
          _ = (2 : ℚ) ^ (52 : Int) * (2 : ℚ) ^ e1 := by rw [zpow_add₀ (by norm_num)]
          _ ≤ (m1 : ℚ) * (2 : ℚ) ^ e1 := by
              rw [e52]; exact mul_le_mul_of_nonneg_right hm1q (le_of_lt (hpos _))
      exact ⟨fun h => absurd h (not_lt.2 hge), fun _ => rfl⟩

theorem val_eq (x : Double) :
    x.val = (if x.sign then -1 else 1) * ((x.mant : ℚ) * (2 : ℚ) ^ x.ulpExp) := by
  unfold Double.val Double.smant
  cases x.sign <;> simp

theorem round_spec (s : Bool) (a b : Nat) (ha : 0 < a) (hb : 0 < b) :
    ∃ r : ℚ, 0 ≤ r ∧
      ((2 : ℚ) ^ (-1022 : Int) ≤ (a : ℚ) / (b : ℚ) →
        |r - (a : ℚ) / (b : ℚ)| ≤ (a : ℚ) / (b : ℚ) * (2 : ℚ) ^ (-53 : Int)) ∧
      ((a : ℚ) / (b : ℚ) < (2 : ℚ) ^ (-1022 : Int) →
        |r - (a : ℚ) / (b : ℚ)| ≤ (2 : ℚ) ^ (-1075 : Int) ∧
        (b ∣ a * 2 ^ 1074 → r = (a : ℚ) / (b : ℚ))) ∧
      (r < (2 : ℚ) ^ (1024 : Int) →
        (Double.round s a b).isFinite = true ∧ (Double.round s a b).sign = s ∧
        ((Double.round s a b).mant : ℚ) * (2 : ℚ) ^ (Double.round s a b).ulpExp = r) ∧
      ((2 : ℚ) ^ (1024 : Int) ≤ r → Double.round s a b = Double.inf s) := by
  have hpos : ∀ z : Int, (0 : ℚ) < (2 : ℚ) ^ z := fun z => by positivity
  obtain ⟨hE1, hE2⟩ := binExp_spec a b ha hb
  generalize hEdef : binExp a b = E at hE1 hE2
  have hround : Double.round s a b = Double.pack s
      (roundHalfEven (a * 2 ^ (-(max (E - 52) (-1074))).toNat) (b * 2 ^ (max (E - 52) (-1074)).toNat))
      (max (E - 52) (-1074)) := by
    unfold Double.round
    rw [hEdef]
  generalize hedef : max (E - 52) (-1074) = e at hround
  have he : -1074 ≤ e := by rw [← hedef]; exact le_max_right _ _
  have hee : E - 52 ≤ e := by rw [← hedef]; exact le_max_left _ _
  have hD : 0 < b * 2 ^ e.toNat := by positivity
  have hDq : (0 : ℚ) < ((b * 2 ^ e.toNat : Nat) : ℚ) := by exact_mod_cast hD
  have hND := scale_eq a b e hb
  generalize hNdef : a * 2 ^ (-e).toNat = N at hround hND
  generalize hDdef : b * 2 ^ e.toNat = D at hround hND hD hDq
  have hq : (a : ℚ) / (b : ℚ) = (N : ℚ) / (D : ℚ) * (2 : ℚ) ^ e := by
    rw [hND]
    field_simp
    ring
  have hnear := roundHalfEven_near N D hD
  generalize hMdef : roundHalfEven N D = M at hround hnear
  have herr : |(M : ℚ) * (2 : ℚ) ^ e - (a : ℚ) / (b : ℚ)| ≤ (2 : ℚ) ^ e / 2 := by
    rw [hq, ← sub_mul, abs_mul, abs_of_pos (hpos e)]
    have := mul_le_mul_of_nonneg_right hnear (le_of_lt (hpos e))
    linarith
  have hM53 : M ≤ 9007199254740992 := by
    rw [← hMdef]
    apply roundHalfEven_le N D _ hD
    have h1 : (N : ℚ) / (D : ℚ) < 9007199254740992 := by
      rw [hND, div_lt_iff₀ (hpos e)]
      calc (a : ℚ) / (b : ℚ) < (2 : ℚ) ^ (E + 1) := hE2
        _ ≤ (2 : ℚ) ^ (53 + e) := two_zpow_le _ _ (by omega)
        _ = 9007199254740992 * (2 : ℚ) ^ e := by rw [zpow_add₀ (by norm_num)]; norm_num
    rw [div_lt_iff₀ hDq] at h1
    have h2 : (N : ℚ) ≤ ((9007199254740992 * D : Nat) : ℚ) := by
      push_cast
      exact le_of_lt h1
    exact_mod_cast h2
  have hsub : M < 4503599627370496 → e = -1074 := by
    intro hM
    by_contra hne
    have he2 : e = E - 52 := by
      rw [← hedef] at hne ⊢
      rcases max_choice (E - 52) (-1074) with h | h
      · exact h
      · exact absurd h hne
    have h1 : (4503599627370496 : ℚ) ≤ (N : ℚ) / (D : ℚ) := by
      rw [hND, le_div_iff₀ (hpos e)]
      calc (4503599627370496 : ℚ) * (2 : ℚ) ^ e = (2 : ℚ) ^ (52 + e) := by
            rw [zpow_add₀ (by norm_num)]; norm_num
        _ = (2 : ℚ) ^ E := by rw [he2]; congr 1; omega
        _ ≤ (a : ℚ) / (b : ℚ) := hE1
    rw [le_div_iff₀ hDq] at h1
    have h2 : ((4503599627370496 * D : Nat) : ℚ) ≤ (N : ℚ) := by
      push_cast
      exact h1
    have h3 : 4503599627370496 * D ≤ N := by exact_mod_cast h2
    have := roundHalfEven_ge N D 4503599627370496 hD h3
    rw [hMdef] at this
    omega
  obtain ⟨hp1, hp2⟩ := pack_spec s M e hM53 he hsub
  rw [← hround] at hp1 hp2
  refine ⟨(M : ℚ) * (2 : ℚ) ^ e, by positivity, ?_, ?_, ?_, hp2⟩
  · intro hbig
    have hE : -1022 ≤ E := by
      have h1 : (2 : ℚ) ^ (-1022 : Int) < (2 : ℚ) ^ (E + 1) := lt_of_le_of_lt hbig hE2
      have h2 := (zpow_lt_zpow_iff_right₀ (by norm_num : (1 : ℚ) < 2)).1 h1
      omega
    have he2 : e = E - 52 := by
      rw [← hedef]
      exact max_eq_left (by omega)
    refine le_trans herr ?_
    calc (2 : ℚ) ^ e / 2 = (2 : ℚ) ^ E * (2 : ℚ) ^ (-53 : Int) := by
          rw [he2, ← zpow_add₀ (by norm_num), div_eq_iff (by norm_num)]
          have : (2 : ℚ) ^ (E - 52) = (2 : ℚ) ^ (E + -53) * (2 : ℚ) ^ (1 : Int) := by
            rw [← zpow_add₀ (by norm_num)]; congr 1; omega
          rw [this, zpow_one]
      _ ≤ (a : ℚ) / (b : ℚ) * (2 : ℚ) ^ (-53 : Int) :=
          mul_le_mul_of_nonneg_right hE1 (le_of_lt (hpos _))
  · intro hsmall
    have hE : E < -1022 := by
      have h1 : (2 : ℚ) ^ E < (2 : ℚ) ^ (-1022 : Int) := lt_of_le_of_lt hE1 hsmall
      exact (zpow_lt_zpow_iff_right₀ (by norm_num : (1 : ℚ) < 2)).1 h1
    have he2 : e = -1074 := by
      rw [← hedef]
      exact max_eq_right (by omega)
    constructor
    · refine le_trans herr ?_
      rw [he2, div_le_iff₀ (by norm_num)]
      have : (2 : ℚ) ^ (-1074 : Int) = (2 : ℚ) ^ (-1075 : Int) * (2 : ℚ) ^ (1 : Int) := by
        rw [← zpow_add₀ (by norm_num)]; norm_num
      rw [this, zpow_one]
    · intro hdvd
      have h1074 : (-(-1074 : Int)).toNat = 1074 := by decide
      have hN : N = a * 2 ^ 1074 := by
        rw [← hNdef, he2, h1074]
      have hDb : D = b := by
        rw [← hDdef, he2]
        simp
      have hdv : D ∣ N := by rw [hN, hDb]; exact hdvd
      have := roundHalfEven_dvd N D hD hdv
      rw [hMdef] at this
      rw [this, hq]
  · exact hp1

/-! ## Binary64: sums and quotients of non-negative values -/

theorem finite_not_special (x : Double) (hx : x.isFinite = true) :
    x.isNaN = false ∧ x.isInf = false := by
  simp only [Double.isFinite, decide_eq_true_eq] at hx
  have : ¬ x.expo.val = 2047 := by omega
  simp [Double.isNaN, Double.isInf, this]

theorem ulpExp_ge (x : Double) : -1074 ≤ x.ulpExp := by
  unfold Double.ulpExp
  split
  · exact le_refl _
  · omega

theorem zpow_toNat (d : Int) (hd : 0 ≤ d) : ((2 : ℚ) ^ d.toNat) = (2 : ℚ) ^ d := by
  obtain ⟨n, rfl⟩ := Int.eq_ofNat_of_zero_le hd
  simp

theorem zpow_split (e : Int) :
    (2 : ℚ) ^ e = (2 : ℚ) ^ e.toNat / (2 : ℚ) ^ (-e).toNat := by
  obtain ⟨n, rfl | rfl⟩ := Int.eq_nat_or_neg e
  · rcases Nat.eq_zero_or_pos n with h | h
    · subst h; simp
    · have : (-(n : Int)).toNat = 0 := by omega
      simp [this]
  · have : (-(n : Int)).toNat = 0 := by omega
    simp [this, zpow_neg]

theorem val_zero (s : Bool) : (Double.zero s).val = 0 := by
  simp [Double.val, Double.smant, Double.mant, Double.zero]

theorem isFinite_zero (s : Bool) : (Double.zero s).isFinite = true := by
  simp [Double.isFinite, Double.zero]

theorem val_nonneg_sign (x : Double) (h0 : 0 ≤ x.val) (hm : x.mant ≠ 0) : x.sign = false := by
  by_contra hs
  have hs1 : x.sign = true := by simpa using hs
  have hp : (0 : ℚ) < (x.mant : ℚ) * (2 : ℚ) ^ x.ulpExp := by
    have : 0 < x.mant := Nat.pos_of_ne_zero hm
    positivity
  rw [val_eq, hs1] at h0
  simp only [if_true] at h0
  linarith

theorem val_of_sign_false (x : Double) (hs : x.sign = false) :
    x.val = (x.mant : ℚ) * (2 : ℚ) ^ x.ulpExp := by
  rw [val_eq, hs]
  simp

theorem val_mant_zero (x : Double) (hm : x.mant = 0) : x.val = 0 := by
  rw [val_eq, hm]
  simp

theorem add_spec (x y : Double) (hx : x.isFinite = true) (hy : y.isFinite = true)
    (hx0 : 0 ≤ x.val) (hy0 : 0 ≤ y.val) :
    (Double.add x y = Double.inf false ∧
      (2 : ℚ) ^ (1024 : Int) ≤ (x.val + y.val) * (1 + (2 : ℚ) ^ (-53 : Int))) ∨
    ((Double.add x y).isFinite = true ∧ 0 ≤ (Double.add x y).val ∧
      |(Double.add x y).val - (x.val + y.val)| ≤ (x.val + y.val) * (2 : ℚ) ^ (-53 : Int)) := by
  have hpos : ∀ z : Int, (0 : ℚ) < (2 : ℚ) ^ z := fun z => by positivity
  obtain ⟨hx1, hx2⟩ := finite_not_special x hx
  obtain ⟨hy1, hy2⟩ := finite_not_special y hy
  have hux := ulpExp_ge x
  have huy := ulpExp_ge y
  have hadd : Double.add x y =
      (if x.smant * 2 ^ (x.ulpExp - min x.ulpExp y.ulpExp).toNat
          + y.smant * 2 ^ (y.ulpExp - min x.ulpExp y.ulpExp).toNat = 0
        then Double.zero (x.sign && y.sign)
        else Double.round
          (decide (x.smant * 2 ^ (x.ulpExp - min x.ulpExp y.ulpExp).toNat
            + y.smant * 2 ^ (y.ulpExp - min x.ulpExp y.ulpExp).toNat < 0))
          ((x.smant * 2 ^ (x.ulpExp - min x.ulpExp y.ulpExp).toNat
            + y.smant * 2 ^ (y.ulpExp - min x.ulpExp y.ulpExp).toNat).natAbs
            * 2 ^ (min x.ulpExp y.ulpExp).toNat)
          (2 ^ (-(min x.ulpExp y.ulpExp)).toNat)) := by
    unfold Double.add
    simp [hx1, hx2, hy1, hy2]
  generalize hedef : min x.ulpExp y.ulpExp = e at hadd
  have he1 : e ≤ x.ulpExp := by rw [← hedef]; exact min_le_left _ _
  have he2 : e ≤ y.ulpExp := by rw [← hedef]; exact min_le_right _ _
  have he3 : -1074 ≤ e := by rw [← hedef]; exact le_min hux huy
  generalize hkdef : x.smant * 2 ^ (x.ulpExp - e).toNat + y.smant * 2 ^ (y.ulpExp - e).toNat = k
    at hadd
  have hk : (k : ℚ) * (2 : ℚ) ^ e = x.val + y.val := by
    rw [← hkdef]
    push_cast
    rw [zpow_toNat _ (by omega), zpow_toNat _ (by omega), add_mul, mul_assoc, mul_assoc,
      ← zpow_add₀ (by norm_num), ← zpow_add₀ (by norm_num)]
    simp [Double.val]
  have ht0 : 0 ≤ x.val + y.val := by linarith
  rw [← hk] at ht0 ⊢
  by_cases hk0 : k = 0
  · right
    rw [hadd, if_pos hk0, hk0]
    simp [isFinite_zero, val_zero]
  · have hkpos : 0 < k := by
      have h1 : (0 : ℚ) ≤ (k : ℚ) := by
        by_contra hneg
        have : (k : ℚ) * (2 : ℚ) ^ e < 0 := mul_neg_of_neg_of_pos (by linarith) (hpos e)
        linarith
      have h2 : 0 ≤ k := by exact_mod_cast h1
      omega
    have hdec : decide (k < 0) = false := by simp; omega
    rw [if_neg hk0, hdec] at hadd
    have ha : 0 < k.natAbs * 2 ^ e.toNat := by
      have : 0 < k.natAbs := Int.natAbs_pos.2 hk0
      positivity
    have hb : 0 < 2 ^ (-e).toNat := by positivity
    obtain ⟨r, hr0, hA, hB, hfin, hinf⟩ := round_spec false _ _ ha hb
    rw [← hadd] at hfin hinf
    have hab : ((k.natAbs * 2 ^ e.toNat : Nat) : ℚ) / ((2 ^ (-e).toNat : Nat) : ℚ)
        = (k : ℚ) * (2 : ℚ) ^ e := by
      have hkabs : ((k.natAbs : Nat) : ℚ) = (k : ℚ) := by
        have h1 : ((k.natAbs : Nat) : Int) = k := Int.natAbs_of_nonneg (le_of_lt hkpos)
        have h2 : (((k.natAbs : Nat) : Int) : ℚ) = (k : ℚ) := by rw [h1]
        rw [← h2, Int.cast_natCast]
      push_cast
      rw [hkabs, zpow_split e, mul_div_assoc]
    rw [hab] at hA hB
    have herr : |r - (k : ℚ) * (2 : ℚ) ^ e| ≤ (k : ℚ) * (2 : ℚ) ^ e * (2 : ℚ) ^ (-53 : Int) := by
      by_cases hc : (2 : ℚ) ^ (-1022 : Int) ≤ (k : ℚ) * (2 : ℚ) ^ e
      · exact hA hc
      · have hdvd : 2 ^ (-e).toNat ∣ k.natAbs * 2 ^ e.toNat * 2 ^ 1074 :=
          Dvd.dvd.mul_left (pow_dvd_pow 2 (by omega)) _
        rw [(hB (lt_of_not_le hc)).2 hdvd]
        simp only [sub_self, abs_zero]
        have := hpos (-53)
        positivity
    by_cases hlt : r < (2 : ℚ) ^ (1024 : Int)
    · right
      obtain ⟨f1, f2, f3⟩ := hfin hlt
      rw [val_of_sign_false _ f2, f3]
      exact ⟨f1, hr0, herr⟩
    · left
      refine ⟨hinf (not_lt.1 hlt), ?_⟩
      have := (abs_le.1 herr).2
      have hge := not_lt.1 hlt
      linarith

theorem div_spec (x y : Double) (hx : x.isFinite = true) (hy : y.isFinite = true)
    (hx0 : 0 ≤ x.val) (hy0 : 0 < y.val) :
    (Double.div x y = Double.inf false ∧
      (2 : ℚ) ^ (1024 : Int) ≤ x.val / y.val * (1 + (2 : ℚ) ^ (-53 : Int))) ∨
    ((Double.div x y).isFinite = true ∧ 0 ≤ (Double.div x y).val ∧
      |(Double.div x y).val - x.val / y.val|
        ≤ x.val / y.val * (2 : ℚ) ^ (-53 : Int) + (2 : ℚ) ^ (-1075 : Int)) := by
  have hpos : ∀ z : Int, (0 : ℚ) < (2 : ℚ) ^ z := fun z => by positivity
  obtain ⟨hx1, hx2⟩ := finite_not_special x hx
  obtain ⟨hy1, hy2⟩ := finite_not_special y hy
  have hym : y.mant ≠ 0 := by
    intro h
    rw [val_mant_zero y h] at hy0
    exact lt_irrefl _ hy0
  have hys : y.sign = false := val_nonneg_sign y (le_of_lt hy0) hym
  by_cases hxm : x.mant = 0
  · right
    have hd : Double.div x y = Double.zero (xor x.sign y.sign) := by
      unfold Double.div
      simp [hx1, hx2, hy1, hy2, hym, hxm]
    rw [hd, val_mant_zero x hxm]
    simp [isFinite_zero, val_zero]
    have := hpos (-1075)
    linarith
  · have hxs : x.sign = false := val_nonneg_sign x hx0 hxm
    have hd : Double.div x y = Double.round false
        (x.mant * 2 ^ (x.ulpExp - y.ulpExp).toNat) (y.mant * 2 ^ (-(x.ulpExp - y.ulpExp)).toNat) := by
      unfold Double.div
      simp [hx1, hx2, hy1, hy2, hym, hxm, hxs, hys]
    have ha : 0 < x.mant * 2 ^ (x.ulpExp - y.ulpExp).toNat := by
      have : 0 < x.mant := Nat.pos_of_ne_zero hxm
      positivity
    have hb : 0 < y.mant * 2 ^ (-(x.ulpExp - y.ulpExp)).toNat := by
      have : 0 < y.mant := Nat.pos_of_ne_zero hym
      positivity
    have hymq : (0 : ℚ) < (y.mant : ℚ) := by
      have : 0 < y.mant := Nat.pos_of_ne_zero hym
      exact_mod_cast this
    obtain ⟨r, hr0, hA, hB, hfin, hinf⟩ := round_spec false _ _ ha hb
    rw [← hd] at hfin hinf
    have hab : ((x.mant * 2 ^ (x.ulpExp - y.ulpExp).toNat : Nat) : ℚ)
        / ((y.mant * 2 ^ (-(x.ulpExp - y.ulpExp)).toNat : Nat) : ℚ) = x.val / y.val := by
      rw [val_of_sign_false x hxs, val_of_sign_false y hys]
      push_cast
      have h1 : (2 : ℚ) ^ x.ulpExp = (2 : ℚ) ^ (x.ulpExp - y.ulpExp) * (2 : ℚ) ^ y.ulpExp := by
        rw [← zpow_add₀ (by norm_num)]; congr 1; omega
      rw [h1, zpow_split (x.ulpExp - y.ulpExp)]
      have h2 := hpos y.ulpExp
      have h3 : (0 : ℚ) < (2 : ℚ) ^ (-(x.ulpExp - y.ulpExp)).toNat := by positivity
      field_simp
      ring
    rw [hab] at hA hB
    have hq0 : 0 ≤ x.val / y.val := div_nonneg hx0 (le_of_lt hy0)
    have herr : |r - x.val / y.val|
        ≤ x.val / y.val * (2 : ℚ) ^ (-53 : Int) + (2 : ℚ) ^ (-1075 : Int) := by
      by_cases hc : (2 : ℚ) ^ (-1022 : Int) ≤ x.val / y.val
      · have := hA hc
        have := hpos (-1075)
        linarith
      · have := (hB (lt_of_not_le hc)).1
        have h53 := hpos (-53)
        have : 0 ≤ x.val / y.val * (2 : ℚ) ^ (-53 : Int) := by positivity
        linarith
    by_cases hlt : r < (2 : ℚ) ^ (1024 : Int)
    · right
      obtain ⟨f1, f2, f3⟩ := hfin hlt
      rw [val_of_sign_false _ f2, f3]
      exact ⟨f1, hr0, herr⟩
    · left
      refine ⟨hinf (not_lt.1 hlt), ?_⟩
      have hge := not_lt.1 hlt
      by_cases hc : (2 : ℚ) ^ (-1022 : Int) ≤ x.val / y.val
      · have := (abs_le.1 (hA hc)).2
        linarith
      · exfalso
        have h1 := (abs_le.1 (hB (lt_of_not_le hc)).1).2
        have h2 : (2 : ℚ) ^ (-1075 : Int) < (2 : ℚ) ^ (-1022 : Int) := two_zpow_lt _ _ (by norm_num)
        have h3 : (2 : ℚ) ^ (-1022 : Int) < (2 : ℚ) ^ (0 : Int) := two_zpow_lt _ _ (by norm_num)
        have h4 : (2 : ℚ) ^ (0 : Int) < (2 : ℚ) ^ (1024 : Int) := two_zpow_lt _ _ (by norm_num)
        have h5 : (2 : ℚ) ^ (0 : Int) = 1 := zpow_zero _
        have hc' := lt_of_not_le hc
        linarith

/-! ## Accumulated sums -/

theorem isFinite_inf (s : Bool) : (Double.inf s).isFinite = false := by
  cases s <;> decide

theorem add_inf_left (y : Double) (hy : y.isFinite = true) :
    Double.add (Double.inf false) y = Double.inf false := by
  obtain ⟨hy1, hy2⟩ := finite_not_special y hy
  have h1 : (Double.inf false).isNaN = false := by decide
  have h2 : (Double.inf false).isInf = true := by decide
  unfold Double.add
  rw [h1, hy1, h2, hy2]
  rfl

theorem foldl_add_inf : ∀ (xs : List Double), (∀ x ∈ xs, x.isFinite = true) →
    xs.foldl Double.add (Double.inf false) = Double.inf false
  | [], _ => rfl
  | x :: xs, h => by
    rw [List.foldl_cons, add_inf_left x (h x (List.mem_cons_self _ _))]
    exact foldl_add_inf xs (fun y hy => h y (List.mem_cons_of_mem _ hy))

theorem sum_val_nonneg : ∀ (xs : List Double), (∀ x ∈ xs, 0 ≤ x.val) →
    0 ≤ (xs.map Double.val).sum
  | [], _ => by simp
  | x :: xs, h => by
    rw [List.map_cons, List.sum_cons]
    have := sum_val_nonneg xs (fun y hy => h y (List.mem_cons_of_mem _ hy))
    have := h x (List.mem_cons_self _ _)
    linarith

theorem u_bounds : (0 : ℚ) < (2 : ℚ) ^ (-53 : Int) ∧ (2 : ℚ) ^ (-53 : Int) < 1 := by
  constructor
  · positivity
  · have := two_zpow_lt (-53) 0 (by norm_num)
    rwa [zpow_zero] at this

theorem foldl_add_spec : ∀ (xs : List Double) (acc : Double),
    acc.isFinite = true → 0 ≤ acc.val → (∀ x ∈ xs, x.isFinite = true ∧ 0 ≤ x.val) →
    (xs.foldl Double.add acc = Double.inf false ∧
      (2 : ℚ) ^ (1024 : Int)
        ≤ (acc.val + (xs.map Double.val).sum) * (1 + (2 : ℚ) ^ (-53 : Int)) ^ xs.length) ∨
    ((xs.foldl Double.add acc).isFinite = true ∧
      (acc.val + (xs.map Double.val).sum) * (1 - (2 : ℚ) ^ (-53 : Int)) ^ xs.length
        ≤ (xs.foldl Double.add acc).val ∧
      (xs.foldl Double.add acc).val
        ≤ (acc.val + (xs.map Double.val).sum) * (1 + (2 : ℚ) ^ (-53 : Int)) ^ xs.length)
  | [], acc, hf, h0, _ => by
    right
    simp [hf]
  | x :: xs, acc, hf, h0, h => by
    obtain ⟨hu0, hu1⟩ := u_bounds
    obtain ⟨hxf, hx0⟩ := h x (List.mem_cons_self _ _)
    have hrest : ∀ y ∈ xs, y.isFinite = true ∧ 0 ≤ y.val :=
      fun y hy => h y (List.mem_cons_of_mem _ hy)
    have hs0 := sum_val_nonneg xs (fun y hy => (hrest y hy).2)
    have hP : (1 : ℚ) ≤ (1 + (2 : ℚ) ^ (-53 : Int)) ^ xs.length := one_le_pow₀ (by linarith)
    have hQ0 : (0 : ℚ) ≤ (1 - (2 : ℚ) ^ (-53 : Int)) ^ xs.length := pow_nonneg (by linarith) _
    rw [List.foldl_cons, List.map_cons, List.sum_cons, List.length_cons, pow_succ, pow_succ]
    have hadd := add_spec acc x hf hxf h0 hx0
    have hih := foldl_add_spec xs (Double.add acc x)
    have hinf := foldl_add_inf xs (fun y hy => (hrest y hy).1)
    generalize (xs.map Double.val).sum = T at *
    generalize (1 + (2 : ℚ) ^ (-53 : Int)) ^ xs.length = P at *
    generalize (1 - (2 : ℚ) ^ (-53 : Int)) ^ xs.length = Q at *
    generalize (2 : ℚ) ^ (-53 : Int) = u at *
    generalize (2 : ℚ) ^ (1024 : Int) = B at *
    rcases hadd with ⟨e1, e2⟩ | ⟨e1, e2, e3⟩
    · left
      rw [e1]
      refine ⟨hinf, ?_⟩
      have h1 : (acc.val + x.val) * (1 + u) ≤ (acc.val + (x.val + T)) * (1 + u) := by
        apply mul_le_mul_of_nonneg_right _ (by linarith)
        linarith
      have h2 : (acc.val + (x.val + T)) * (1 + u) ≤ (acc.val + (x.val + T)) * (P * (1 + u)) := by
        apply mul_le_mul_of_nonneg_left _ (by linarith)
        nlinarith
      linarith
    · rw [abs_le] at e3
      obtain ⟨e3a, e3b⟩ := e3
      have h1 : (Double.add acc x).val + T ≤ (acc.val + (x.val + T)) * (1 + u) := by
        nlinarith
      have h2 : (acc.val + (x.val + T)) * (1 - u) ≤ (Double.add acc x).val + T := by
        nlinarith
      have h3 : ((Double.add acc x).val + T) * P ≤ (acc.val + (x.val + T)) * (P * (1 + u)) := by
        calc ((Double.add acc x).val + T) * P ≤ (acc.val + (x.val + T)) * (1 + u) * P :=
              mul_le_mul_of_nonneg_right h1 (by linarith)
          _ = (acc.val + (x.val + T)) * (P * (1 + u)) := by ring
      have h4 : (acc.val + (x.val + T)) * (Q * (1 - u)) ≤ ((Double.add acc x).val + T) * Q := by
        calc (acc.val + (x.val + T)) * (Q * (1 - u)) = (acc.val + (x.val + T)) * (1 - u) * Q := by
              ring
          _ ≤ ((Double.add acc x).val + T) * Q := mul_le_mul_of_nonneg_right h2 hQ0
      rcases hih e1 e2 hrest with ⟨i1, i2⟩ | ⟨i1, i2, i3⟩
      · left
        exact ⟨i1, le_trans i2 h3⟩
      · right
        exact ⟨i1, le_trans h4 i2, le_trans i3 h3⟩

/-! ## Bounds on the rounding errors -/

theorem eta_bounds : (0 : ℚ) < (2 : ℚ) ^ (-1075 : Int) ∧
    (2 : ℚ) ^ (-1075 : Int) * 17179869184 ≤ (2 : ℚ) ^ (-53 : Int) := by
  constructor
  · positivity
  · have h1 : (17179869184 : ℚ) = (2 : ℚ) ^ (34 : Int) := by norm_num
    rw [h1, ← zpow_add₀ (by norm_num)]
    exact two_zpow_le _ _ (by norm_num)

theorem u_value : (2 : ℚ) ^ (-53 : Int) * 9007199254740992 = 1 := by
  have h1 : (9007199254740992 : ℚ) = (2 : ℚ) ^ (53 : Int) := by norm_num
  rw [h1, ← zpow_add₀ (by norm_num)]
  norm_num

theorem big_value : (8 : ℚ) < (2 : ℚ) ^ (1024 : Int) := by
  have h1 : (8 : ℚ) = (2 : ℚ) ^ (3 : Int) := by norm_num
  rw [h1]
  exact two_zpow_lt _ _ (by norm_num)

theorem pow_bounds (n : Nat) (u : ℚ) (hu0 : 0 < u) (hu1 : u < 1) :
    1 - (n : ℚ) * u ≤ (1 - u) ^ n ∧ (1 + u) ^ n * (1 - (n : ℚ) * u) ≤ 1 ∨
    1 - (n : ℚ) * u ≤ (1 - u) ^ n ∧ 1 - (n : ℚ) * u < 0 := by
  have hb : 1 - (n : ℚ) * u ≤ (1 - u) ^ n := by
    have := one_add_mul_le_pow (show (-2 : ℚ) ≤ -u by linarith) n
    have e1 : (1 : ℚ) + (n : ℚ) * -u = 1 - (n : ℚ) * u := by ring
    have e2 : (1 : ℚ) + -u = 1 - u := by ring
    rw [e1, e2] at this
    exact this
  by_cases hc : 1 - (n : ℚ) * u < 0
  · exact Or.inr ⟨hb, hc⟩
  · left
    refine ⟨hb, ?_⟩
    have hP0 : (0 : ℚ) ≤ (1 + u) ^ n := pow_nonneg (by linarith) _
    calc (1 + u) ^ n * (1 - (n : ℚ) * u) ≤ (1 + u) ^ n * (1 - u) ^ n :=
          mul_le_mul_of_nonneg_left hb hP0
      _ = ((1 + u) * (1 - u)) ^ n := by rw [mul_pow]
      _ ≤ 1 := by
          apply pow_le_one₀
          · nlinarith
          · nlinarith

theorem ratio_bounds (n : Nat) (hn : n < 4294967296) (T S : ℚ) (hT : 0 ≤ T) (hS : 0 < S)
    (h1 : T * (1 - (2 : ℚ) ^ (-53 : Int)) ^ n ≤ S)
    (h2 : S ≤ T * (1 + (2 : ℚ) ^ (-53 : Int)) ^ n) :
    T / S * (1 - (n : ℚ) * (2 : ℚ) ^ (-53 : Int)) ≤ 1 ∧
    1 - (n : ℚ) * (2 : ℚ) ^ (-53 : Int) ≤ T / S ∧
    (n : ℚ) * (2 : ℚ) ^ (-53 : Int) * 2097152 ≤ 1 ∧ 0 ≤ T / S := by
  obtain ⟨hu0, hu1⟩ := u_bounds
  have huv := u_value
  have hnq : (n : ℚ) ≤ 4294967296 := by exact_mod_cast le_of_lt hn
  have hn0 : (0 : ℚ) ≤ (n : ℚ) := by positivity
  generalize (2 : ℚ) ^ (-53 : Int) = u at *
  have hc : (n : ℚ) * u * 2097152 ≤ 1 := by nlinarith
  have hr0 : 0 ≤ T / S := div_nonneg hT (le_of_lt hS)
  have hTS : T = T / S * S := by field_simp
  rcases pow_bounds n u hu0 hu1 with ⟨hQ, hP⟩ | ⟨_, hneg⟩
  · have hQ0 : (0 : ℚ) ≤ (1 - u) ^ n := pow_nonneg (by linarith) _
    have hP0 : (0 : ℚ) ≤ (1 + u) ^ n := pow_nonneg (by linarith) _
    generalize (1 - u) ^ n = Q at *
    generalize (1 + u) ^ n = P at *
    generalize T / S = r at *
    have hrQ : r * Q ≤ 1 := by
      have : r * S * Q ≤ S := by rw [← hTS]; exact h1
      have : (r * Q) * S ≤ 1 * S := by linarith
      exact le_of_mul_le_mul_right this hS
    have hrP : 1 ≤ r * P := by
      have : S ≤ r * S * P := by rw [← hTS]; exact h2
      have : 1 * S ≤ (r * P) * S := by linarith
      exact le_of_mul_le_mul_right this hS
    refine ⟨?_, ?_, hc, hr0⟩
    · have : r * (1 - (n : ℚ) * u) ≤ r * Q := mul_le_mul_of_nonneg_left hQ hr0
      linarith
    · have h3 : r * (P * (1 - (n : ℚ) * u)) ≤ r * 1 := mul_le_mul_of_nonneg_left hP hr0
      have h4 : (1 - (n : ℚ) * u) * 1 ≤ (1 - (n : ℚ) * u) * (r * P) :=
        mul_le_mul_of_nonneg_left hrP (by linarith)
      nlinarith
  · exfalso
    linarith

theorem sum_bound (n : Nat) (hn : n < 4294967296) (r Y : ℚ) (hr0 : 0 ≤ r)
    (h1 : r * (1 - (n : ℚ) * (2 : ℚ) ^ (-53 : Int)) ≤ 1)
    (h2 : 1 - (n : ℚ) * (2 : ℚ) ^ (-53 : Int) ≤ r)
    (hc : (n : ℚ) * (2 : ℚ) ^ (-53 : Int) * 2097152 ≤ 1)
    (hY : |Y - r| ≤ r * (2 : ℚ) ^ (-53 : Int) + (n : ℚ) * (2 : ℚ) ^ (-1075 : Int)) :
    |Y - 1| ≤ ((n : ℚ) + 1) / 4503599627370496 ∧ r ≤ 2 := by
  obtain ⟨hu0, hu1⟩ := u_bounds
  obtain ⟨he0, he1⟩ := eta_bounds
  have huv := u_value
  have hnq : (n : ℚ) ≤ 4294967296 := by exact_mod_cast le_of_lt hn
  have hn0 : (0 : ℚ) ≤ (n : ℚ) := by positivity
  generalize (2 : ℚ) ^ (-53 : Int) = u at *
  generalize (2 : ℚ) ^ (-1075 : Int) = η at *
  have hd : (n : ℚ) * η ≤ u / 4 := by nlinarith
  have hd0 : 0 ≤ (n : ℚ) * η := by positivity
  have hc0 : 0 ≤ (n : ℚ) * u := by positivity
  generalize (n : ℚ) * η = d at *
  have hr2 : r ≤ 2 := by nlinarith
  have hr3 : r ≤ 1 + 2 * ((n : ℚ) * u) := by nlinarith
  have htol : ((n : ℚ) + 1) / 4503599627370496 = 2 * ((n : ℚ) * u) + 2 * u := by
    have : u = 1 / 9007199254740992 := by
      rw [eq_div_iff (by norm_num)]; exact huv
    rw [this]; ring
  rw [htol]
  generalize (n : ℚ) * u = c at *
  rw [abs_le] at hY ⊢
  obtain ⟨hY1, hY2⟩ := hY
  refine ⟨⟨?_, ?_⟩, hr2⟩
  · nlinarith
  · nlinarith

theorem twice_bound (n : Nat) (x A Y z : ℚ) (hx0 : 0 ≤ x) (hxY : x ≤ Y)
    (hA : 0 < A)
    (h1 : Y / A * (1 - (n : ℚ) * (2 : ℚ) ^ (-53 : Int)) ≤ 1)
    (h2 : 1 - (n : ℚ) * (2 : ℚ) ^ (-53 : Int) ≤ Y / A)
    (hc : (n : ℚ) * (2 : ℚ) ^ (-53 : Int) * 2097152 ≤ 1)
    (hY : |Y - 1| ≤ ((n : ℚ) + 1) / 4503599627370496)
    (hz : |z - x / A| ≤ x / A * (2 : ℚ) ^ (-53 : Int) + (2 : ℚ) ^ (-1075 : Int)) :
    |z - x| ≤ ((n : ℚ) + 1) / 1125899906842624 := by
  obtain ⟨hu0, hu1⟩ := u_bounds
  obtain ⟨he0, he1⟩ := eta_bounds
  have huv := u_value
  have hn0 : (0 : ℚ) ≤ (n : ℚ) := by positivity
  have hw0 : 0 ≤ x / A := div_nonneg hx0 (le_of_lt hA)
  have hwA : x = x / A * A := by field_simp
  have hrA : Y = Y / A * A := by field_simp
  have hwr : x / A ≤ Y / A := div_le_div_of_nonneg_right hxY (le_of_lt hA)
  generalize (2 : ℚ) ^ (-53 : Int) = u at *
  generalize (2 : ℚ) ^ (-1075 : Int) = η at *
  have hu : u = 1 / 9007199254740992 := by
    rw [eq_div_iff (by norm_num)]; exact huv
  have ha : ((n : ℚ) + 1) / 4503599627370496 = 2 * ((n : ℚ) * u) + 2 * u := by
    rw [hu]; ring
  have hb : ((n : ℚ) + 1) / 1125899906842624 = 8 * ((n : ℚ) * u) + 8 * u := by
    rw [hu]; ring
  rw [ha] at hY
  rw [hb]
  have hc0 : 0 ≤ (n : ℚ) * u := by positivity
  have hus : u ≤ 1 / 1048576 := by rw [hu]; norm_num
  have hη : η ≤ u := by nlinarith
  generalize (n : ℚ) * u = c at *
  generalize x / A = w at *
  generalize Y / A = r at *
  rw [abs_le] at hY hz ⊢
  obtain ⟨hY1, hY2⟩ := hY
  obtain ⟨hz1, hz2⟩ := hz
  have hr0 : 0 ≤ r := le_trans hw0 hwr
  have hcs : c ≤ 1 / 2097152 := by linarith
  have hrc1 : r * c ≤ r * (1 / 2097152) := mul_le_mul_of_nonneg_left hcs hr0
  have hr2' : r ≤ 2 := by linarith
  have hrc2 : r * c ≤ 2 * c := mul_le_mul_of_nonneg_right hr2' hc0
  have hr2 : r ≤ 1 + 2 * c := by linarith
  have hAlo : Y * (1 - c) ≤ A := by
    have h3 : r * (1 - c) * A ≤ 1 * A := mul_le_mul_of_nonneg_right h1 (le_of_lt hA)
    have h4 : Y * (1 - c) = r * (1 - c) * A := by rw [hrA]; ring
    linarith
  have hAhi : A * (1 - c) ≤ Y := by
    have h3 : (1 - c) * A ≤ r * A := mul_le_mul_of_nonneg_right h2 (le_of_lt hA)
    have h4 : r * A = Y := hrA.symm
    linarith
  have hAc : A * c ≤ A * (1 / 2097152) := mul_le_mul_of_nonneg_left hcs (le_of_lt hA)
  have hA4 : A ≤ 4 := by linarith
  have hAc2 : A * c ≤ 4 * c := mul_le_mul_of_nonneg_right hA4 hc0
  have hA1 : A - 1 ≤ 6 * c + 2 * u := by linarith
  have hY0 : 0 ≤ Y := le_trans hx0 hxY
  have hY2 : Y ≤ 2 := by linarith
  have hYc : Y * c ≤ 2 * c := mul_le_mul_of_nonneg_right hY2 hc0
  have hA2 : 1 - A ≤ 4 * c + 2 * u := by linarith
  have hw1 : w ≤ 1 + 2 * c := le_trans hwr hr2
  have hw2 : w ≤ 2 := by linarith
  have hcc : c * c ≤ c * (1 / 2097152) := mul_le_mul_of_nonneg_left hcs hc0
  have hcu : c * u ≤ 1 / 2097152 * u := mul_le_mul_of_nonneg_right hcs (le_of_lt hu0)
  have hwu : w * u ≤ 2 * u := mul_le_mul_of_nonneg_right hw2 (le_of_lt hu0)
  have hid : w - x = w * (1 - A) := by rw [hwA]; ring
  have hd1 : w - x ≤ 8 * c + 4 * u := by
    rw [hid]
    have h3 : w * (1 - A) ≤ w * (4 * c + 2 * u) := mul_le_mul_of_nonneg_left hA2 hw0
    have h4 : w * (4 * c + 2 * u) ≤ 2 * (4 * c + 2 * u) :=
      mul_le_mul_of_nonneg_right hw2 (by linarith)
    linarith
  have hd2 : -(7 * c + 3 * u) ≤ w - x := by
    rw [hid]
    have h3 : w * (A - 1) ≤ w * (6 * c + 2 * u) := mul_le_mul_of_nonneg_left hA1 hw0
    have h4 : w * (6 * c + 2 * u) ≤ (1 + 2 * c) * (6 * c + 2 * u) :=
      mul_le_mul_of_nonneg_right hw1 (by linarith)
    have h5 : (1 + 2 * c) * (6 * c + 2 * u) = 6 * c + 2 * u + 12 * (c * c) + 4 * (c * u) := by
      ring
    have h6 : w * (1 - A) = -(w * (A - 1)) := by ring
    linarith
  constructor
  · linarith
  · linarith

/-! ## Normalisation of a row of doubles -/

theorem div_entry (z S : Double) (hz : z.isFinite = true) (hS : S.isFinite = true)
    (hz0 : 0 ≤ z.val) (hS0 : 0 < S.val) (hzS : z.val ≤ 4 * S.val) :
    (Double.div z S).isFinite = true ∧ 0 ≤ (Double.div z S).val ∧
      |(Double.div z S).val - z.val / S.val|
        ≤ z.val / S.val * (2 : ℚ) ^ (-53 : Int) + (2 : ℚ) ^ (-1075 : Int) := by
  rcases div_spec z S hz hS hz0 hS0 with ⟨_, h2⟩ | h
  · exfalso
    obtain ⟨hu0, hu1⟩ := u_bounds
    have hq : z.val / S.val ≤ 4 := by
      rw [div_le_iff₀ hS0]; exact hzS
    have hq0 : 0 ≤ z.val / S.val := div_nonneg hz0 (le_of_lt hS0)
    have := big_value
    nlinarith
  · exact h

theorem map_div_spec (S : Double) (hS : S.isFinite = true) (hS0 : 0 < S.val) :
    ∀ (zs : List Double), (∀ z ∈ zs, z.isFinite = true ∧ 0 ≤ z.val ∧ z.val ≤ 4 * S.val) →
    NonNegFinite (zs.map (fun z => Double.div z S)) ∧
    |exactSum (zs.map (fun z => Double.div z S)) - exactSum zs / S.val|
      ≤ exactSum zs / S.val * (2 : ℚ) ^ (-53 : Int)
        + (zs.length : ℚ) * (2 : ℚ) ^ (-1075 : Int)
  | [], _ => by
    refine ⟨fun x hx => by simp at hx, ?_⟩
    simp [exactSum]
  | z :: zs, h => by
    obtain ⟨hz1, hz2, hz3⟩ := h z (List.mem_cons_self _ _)
    obtain ⟨i1, i2⟩ := map_div_spec S hS hS0 zs (fun y hy => h y (List.mem_cons_of_mem _ hy))
    obtain ⟨d1, d2, d3⟩ := div_entry z S hz1 hS hz2 hS0 hz3
    constructor
    · intro x hx
      rw [List.map_cons] at hx
      rcases List.mem_cons.1 hx with hx | hx
      · rw [hx]; exact ⟨d1, d2⟩
      · exact i1 x hx
    · simp only [exactSum, List.map_cons, List.sum_cons, List.length_cons] at i2 ⊢
      rw [abs_le] at i2 d3 ⊢
      push_cast
      rw [add_div]
      constructor <;> nlinarith [i2.1, i2.2, d3.1, d3.2]

theorem val_le_sum : ∀ (xs : List Double), (∀ x ∈ xs, 0 ≤ x.val) →
    ∀ x ∈ xs, x.val ≤ exactSum xs
  | [], _, x, hx => by simp at hx
  | y :: ys, h, x, hx => by
    have hy := h y (List.mem_cons_self _ _)
    have hs := sum_val_nonneg ys (fun z hz => h z (List.mem_cons_of_mem _ hz))
    simp only [exactSum, List.map_cons, List.sum_cons]
    rcases List.mem_cons.1 hx with hx | hx
    · rw [hx]; linarith
    · have := val_le_sum ys (fun z hz => h z (List.mem_cons_of_mem _ hz)) x hx
      simp only [exactSum] at this
      linarith

theorem accumulator_spec (row : List Double) (h : NonNegFinite row) :
    (row.foldl Double.add (Double.zero false) = Double.inf false ∧
      (2 : ℚ) ^ (1024 : Int) ≤ exactSum row * (1 + (2 : ℚ) ^ (-53 : Int)) ^ row.length) ∨
    ((row.foldl Double.add (Double.zero false)).isFinite = true ∧
      exactSum row * (1 - (2 : ℚ) ^ (-53 : Int)) ^ row.length
        ≤ (row.foldl Double.add (Double.zero false)).val ∧
      (row.foldl Double.add (Double.zero false)).val
        ≤ exactSum row * (1 + (2 : ℚ) ^ (-53 : Int)) ^ row.length) := by
  have := foldl_add_spec row (Double.zero false) (isFinite_zero false)
    (le_of_eq (val_zero false).symm) h
  rw [val_zero, zero_add] at this
  exact this

theorem neZero_iff (x : Double) (hx : x.isFinite = true) : x.neZero = true ↔ x.val ≠ 0 := by
  have hp : (2 : ℚ) ^ x.ulpExp ≠ 0 := by positivity
  unfold Double.neZero
  rw [hx]
  simp only [Bool.true_and, Bool.not_eq_true', beq_eq_false_iff_ne, ne_eq]
  constructor
  · intro hm hv
    apply hm
    rw [val_eq] at hv
    rcases mul_eq_zero.1 hv with h1 | h1
    · split at h1 <;> norm_num at h1
    · rcases mul_eq_zero.1 h1 with h2 | h2
      · exact_mod_cast h2
      · exact absurd h2 hp
  · intro hv hm
    exact hv (val_mant_zero x hm)

theorem exactSum_nonneg (row : List Double) (h : NonNegFinite row) : 0 ≤ exactSum row :=
  sum_val_nonneg row (fun x hx => (h x hx).2)

theorem accumulate_of_summable (row : List Double) (h : SummableRow row) :
    exactSum row * (1 - (2 : ℚ) ^ (-53 : Int)) ^ row.length
        ≤ (row.foldl Double.add (Double.zero false)).val ∧
      (row.foldl Double.add (Double.zero false)).val
        ≤ exactSum row * (1 + (2 : ℚ) ^ (-53 : Int)) ^ row.length := by
  obtain ⟨h1, h2, _⟩ := h
  rcases accumulator_spec row h1 with ⟨e1, _⟩ | ⟨_, e2, e3⟩
  · rw [e1, isFinite_inf] at h2
    exact absurd h2 (by decide)
  · exact ⟨e2, e3⟩

theorem accumulate_zero_iff (row : List Double) (h : SummableRow row) :
    (row.foldl Double.add (Double.zero false)).val = 0 ↔ exactSum row = 0 := by
  obtain ⟨e2, e3⟩ := accumulate_of_summable row h
  obtain ⟨hu0, hu1⟩ := u_bounds
  have hT := exactSum_nonneg row h.1
  have hQ : (0 : ℚ) < (1 - (2 : ℚ) ^ (-53 : Int)) ^ row.length := pow_pos (by linarith) _
  constructor
  · intro hz
    rw [hz] at e2
    by_contra hne
    have : 0 < exactSum row := lt_of_le_of_ne hT (Ne.symm hne)
    have := mul_pos this hQ
    linarith
  · intro hz
    rw [hz, zero_mul] at e2 e3
    exact le_antisymm e3 e2

theorem b64_normalizeRow_length (row : List Double) :
    (binary64.normalizeRow row).length = row.length := by
  simp [binary64.normalizeRow]

theorem b64_normalizeRow_zero (row : List Double) (h : SummableRow row) (hz : exactSum row = 0) :
    binary64.normalizeRow row = row.map (fun _ => Double.zero false) := by
  have hv := (accumulate_zero_iff row h).2 hz
  have hne : (row.foldl Double.add (Double.zero false)).neZero = false := by
    cases hc : (row.foldl Double.add (Double.zero false)).neZero with
    | false => rfl
    | true => exact absurd hv ((neZero_iff _ h.2.1).1 hc)
  unfold binary64.normalizeRow
  simp only [hne]
  simp

theorem b64_normalizeRow_detail (row : List Double) (h : SummableRow row) (hz : exactSum row ≠ 0) :
    binary64.normalizeRow row
      = row.map (fun x => Double.div x (row.foldl Double.add (Double.zero false))) ∧
    0 < (row.foldl Double.add (Double.zero false)).val ∧
    exactSum row / (row.foldl Double.add (Double.zero false)).val
      * (1 - (row.length : ℚ) * (2 : ℚ) ^ (-53 : Int)) ≤ 1 ∧
    1 - (row.length : ℚ) * (2 : ℚ) ^ (-53 : Int)
      ≤ exactSum row / (row.foldl Double.add (Double.zero false)).val ∧
    (row.length : ℚ) * (2 : ℚ) ^ (-53 : Int) * 2097152 ≤ 1 ∧
    ∀ x ∈ row, x.val ≤ 4 * (row.foldl Double.add (Double.zero false)).val := by
  obtain ⟨e2, e3⟩ := accumulate_of_summable row h
  obtain ⟨hnn, hfin, hlen⟩ := h
  have hT0 := exactSum_nonneg row hnn
  have hTpos : 0 < exactSum row := lt_of_le_of_ne hT0 (Ne.symm hz)
  obtain ⟨hu0, hu1⟩ := u_bounds
  have hQ : (0 : ℚ) < (1 - (2 : ℚ) ^ (-53 : Int)) ^ row.length := pow_pos (by linarith) _
  have hApos : 0 < (row.foldl Double.add (Double.zero false)).val :=
    lt_of_lt_of_le (mul_pos hTpos hQ) e2
  have hne : (row.foldl Double.add (Double.zero false)).neZero = true :=
    (neZero_iff _ hfin).2 (ne_of_gt hApos)
  obtain ⟨r1, r2, r3, r4⟩ := ratio_bounds row.length hlen (exactSum row) _ hT0 hApos e2 e3
  refine ⟨?_, hApos, r1, r2, r3, ?_⟩
  · unfold binary64.normalizeRow
    simp only [hne, if_true]
  · intro x hx
    have hx1 := val_le_sum row (fun y hy => (hnn y hy).2) x hx
    have hTA : exactSum row = exactSum row / (row.foldl Double.add (Double.zero false)).val
        * (row.foldl Double.add (Double.zero false)).val := by
      field_simp
    generalize exactSum row / (row.foldl Double.add (Double.zero false)).val = r at *
    generalize (row.foldl Double.add (Double.zero false)).val = A at *
    generalize (row.length : ℚ) * (2 : ℚ) ^ (-53 : Int) = c at *
    have hr2 : r ≤ 2 := by nlinarith
    nlinarith

theorem b64_normalizeRow_pos (row : List Double) (h : SummableRow row) (hz : exactSum row ≠ 0) :
    NonNegFinite (binary64.normalizeRow row) ∧
    |exactSum (binary64.normalizeRow row) - 1| ≤ ((row.length : ℚ) + 1) / 4503599627370496 := by
  obtain ⟨d1, d2, d3, d4, d5, d6⟩ := b64_normalizeRow_detail row h hz
  obtain ⟨m1, m2⟩ := map_div_spec _ h.2.1 d2 row
    (fun x hx => ⟨(h.1 x hx).1, (h.1 x hx).2, d6 x hx⟩)
  rw [d1]
  refine ⟨m1, ?_⟩
  have hr0 : 0 ≤ exactSum row / (row.foldl Double.add (Double.zero false)).val :=
    div_nonneg (exactSum_nonneg row h.1) (le_of_lt d2)
  exact (sum_bound row.length h.2.2 _ _ hr0 d3 d4 d5 m2).1

theorem tol_small (n : Nat) (hn : n < 4294967296) :
    ((n : ℚ) + 1) / 4503599627370496 ≤ 1 / 1048576 := by
  have hnq : (n : ℚ) + 1 ≤ 4294967296 := by exact_mod_cast hn
  rw [div_le_div_iff₀ (by norm_num) (by norm_num)]
  linarith

theorem b64_normalizeRow_summable (row : List Double) (h : SummableRow row) :
    SummableRow (binary64.normalizeRow row) := by
  by_cases hz : exactSum row = 0
  · rw [b64_normalizeRow_zero row h hz]
    have hnn : NonNegFinite (row.map (fun _ => Double.zero false)) := by
      intro x hx
      obtain ⟨_, _, rfl⟩ := List.mem_map.1 hx
      exact ⟨isFinite_zero false, le_of_eq (val_zero false).symm⟩
    have hs : exactSum (row.map (fun _ => Double.zero false)) = 0 := by
      simp [exactSum, List.map_map, Function.comp_def, val_zero]
    refine ⟨hnn, ?_, by simpa using h.2.2⟩
    rcases accumulator_spec _ hnn with ⟨_, e2⟩ | ⟨e1, _, _⟩
    · rw [hs, zero_mul] at e2
      have := big_value
      linarith
    · exact e1
  · obtain ⟨p1, p2⟩ := b64_normalizeRow_pos row h hz
    refine ⟨p1, ?_, by rw [b64_normalizeRow_length]; exact h.2.2⟩
    rcases accumulator_spec _ p1 with ⟨_, e2⟩ | ⟨e1, _, _⟩
    · exfalso
      rw [b64_normalizeRow_length] at e2
      obtain ⟨hu0, hu1⟩ := u_bounds
      have huv := u_value
      have hnq : (row.length : ℚ) ≤ 4294967296 := by exact_mod_cast le_of_lt h.2.2
      have hn0 : (0 : ℚ) ≤ (row.length : ℚ) := by positivity
      have htol := tol_small row.length h.2.2
      have hY := (abs_le.1 p2).2
      have hY0 := exactSum_nonneg _ p1
      have hbig := big_value
      rcases pow_bounds row.length _ hu0 hu1 with ⟨_, hP⟩ | ⟨_, hneg⟩
      · have hP0 : (0 : ℚ) ≤ (1 + (2 : ℚ) ^ (-53 : Int)) ^ row.length :=
          pow_nonneg (by linarith) _
        generalize (1 + (2 : ℚ) ^ (-53 : Int)) ^ row.length = P at *
        generalize (2 : ℚ) ^ (-53 : Int) = u at *
        generalize exactSum (binary64.normalizeRow row) = Y at *
        have hc : (row.length : ℚ) * u ≤ 1 / 2 := by nlinarith
        generalize (row.length : ℚ) * u = c at *
        have hP2 : P ≤ 2 := by nlinarith
        nlinarith
      · generalize (2 : ℚ) ^ (-53 : Int) = u at *
        nlinarith
    · exact e1

theorem b64_normalizeRow_twice (row : List Double) (h : SummableRow row) (j : Nat) (x : Double)
    (hx : (binary64.normalizeRow row)[j]? = some x) :
    ∃ z, (binary64.normalizeRow (binary64.normalizeRow row))[j]? = some z ∧
      z.isFinite = true ∧ 0 ≤ z.val ∧
      |z.val - x.val| ≤ ((row.length : ℚ) + 1) / 1125899906842624 ∧
      (exactSum row = 0 → z = x) := by
  have hsum := b64_normalizeRow_summable row h
  have hmem : x ∈ binary64.normalizeRow row := List.getElem?_mem hx
  by_cases hz : exactSum row = 0
  · have hy := b64_normalizeRow_zero row h hz
    have hs : exactSum (binary64.normalizeRow row) = 0 := by
      rw [hy]
      simp [exactSum, List.map_map, Function.comp_def, val_zero]
    have hx0 : x = Double.zero false := by
      rw [hy] at hmem
      obtain ⟨_, _, e⟩ := List.mem_map.1 hmem
      exact e.symm
    have h2 := b64_normalizeRow_zero _ hsum hs
    refine ⟨Double.zero false, ?_, isFinite_zero false, le_of_eq (val_zero false).symm, ?_,
      fun _ => hx0.symm⟩
    · rw [h2, List.getElem?_map, hx]
      rfl
    · rw [hx0, sub_self, abs_zero]
      positivity
  · obtain ⟨p1, p2⟩ := b64_normalizeRow_pos row h hz
    have hY : exactSum (binary64.normalizeRow row) ≠ 0 := by
      intro h0
      rw [h0] at p2
      have := tol_small row.length h.2.2
      rw [abs_le] at p2
      linarith [p2.1]
    obtain ⟨d1, d2, d3, d4, d5, d6⟩ := b64_normalizeRow_detail _ hsum hY
    rw [b64_normalizeRow_length] at d3 d4 d5
    obtain ⟨e1, e2, e3⟩ := div_entry x _ (p1 x hmem).1 hsum.2.1 (p1 x hmem).2 d2 (d6 x hmem)
    refine ⟨Double.div x ((binary64.normalizeRow row).foldl Double.add (Double.zero false)),
      ?_, e1, e2, ?_, fun h0 => absurd h0 hz⟩
    · rw [d1, List.getElem?_map, hx]
      rfl
    · exact twice_bound row.length _ _ _ _ (p1 x hmem).2
        (val_le_sum _ (fun y hy => (p1 y hy).2) x hmem) d2 d3 d4 d5 p2 e3

theorem b64_normalize_keys (t : binary64.ConditionalProbabilityTable) :
    t.NormalizeProbabilities.conditionalMap.map Prod.fst = t.conditionalMap.map Prod.fst := by
  simp [binary64.ConditionalProbabilityTable.NormalizeProbabilities, List.map_map,
    Function.comp_def]

theorem b64_normalize_row (t : binary64.ConditionalProbabilityTable) (i : Nat) (key : Key)
    (row : List Double) (h : t.conditionalMap[i]? = some (key, row)) :
    t.NormalizeProbabilities.conditionalMap[i]? = some (key, binary64.normalizeRow row) := by
  simp [binary64.ConditionalProbabilityTable.NormalizeProbabilities, List.getElem?_map, h]

theorem div_inf_right (x : Double) (hx : x.isFinite = true) :
    Double.div x (Double.inf false) = Double.zero x.sign := by
  obtain ⟨hx1, hx2⟩ := finite_not_special x hx
  have h1 : (Double.inf false).isNaN = false := by decide
  have h2 : (Double.inf false).isInf = true := by decide
  have h3 : (Double.inf false).sign = false := rfl
  unfold Double.div
  rw [hx1, h1, hx2, h2, h3]
  simp

theorem zeros_summable (row : List Double) (hz : ∀ x ∈ row, x.isFinite = true ∧ x.val = 0)
    (hlen : row.length < 4294967296) : SummableRow row ∧ exactSum row = 0 := by
  have hnn : NonNegFinite row := fun x hx => ⟨(hz x hx).1, le_of_eq (hz x hx).2.symm⟩
  have hs : exactSum row = 0 := by
    unfold exactSum
    apply List.sum_eq_zero
    intro q hq
    obtain ⟨x, hx, rfl⟩ := List.mem_map.1 hq
    exact (hz x hx).2
  refine ⟨⟨hnn, ?_, hlen⟩, hs⟩
  rcases accumulator_spec _ hnn with ⟨_, e2⟩ | ⟨e1, _, _⟩
  · rw [hs, zero_mul] at e2
    have := big_value
    linarith
  · exact e1

theorem b64_normalizeRow_overflow (row : List Double) (hnn : NonNegFinite row)
    (hinf : (row.foldl Double.add (Double.zero false)).isFinite = false) :
    binary64.normalizeRow row = row.map (fun x => Double.zero x.sign) := by
  have hacc : row.foldl Double.add (Double.zero false) = Double.inf false := by
    rcases accumulator_spec row hnn with ⟨e1, _⟩ | ⟨e1, _, _⟩
    · exact e1
    · rw [e1] at hinf
      exact absurd hinf (by decide)
  have hne : (Double.inf false).neZero = true := by decide
  unfold binary64.normalizeRow
  rw [hacc]
  simp only [hne, if_true]
  apply List.map_congr_left
  intro x hx
  exact div_inf_right x (hnn x hx).1

theorem b64_normalizeRow_again (row : List Double) (hnn : NonNegFinite row)
    (hlen : row.length < 4294967296) (j : Nat) (x : Double)
    (hx : (binary64.normalizeRow row)[j]? = some x) :
    ∃ z, (binary64.normalizeRow (binary64.normalizeRow row))[j]? = some z ∧
      z.isFinite = true ∧ x.isFinite = true ∧
      |z.val - x.val| ≤ ((row.length : ℚ) + 1) / 1125899906842624 ∧
      (exactSum row = 0 → z = x) := by
  cases hfin : (row.foldl Double.add (Double.zero false)).isFinite with
  | true =>
    have hs : SummableRow row := ⟨hnn, hfin, hlen⟩
    obtain ⟨z, z1, z2, _, z4, z5⟩ := b64_normalizeRow_twice row hs j x hx
    exact ⟨z, z1, z2, ((b64_normalizeRow_summable row hs).1 x (List.getElem?_mem hx)).1, z4, z5⟩
  | false =>
    have hy := b64_normalizeRow_overflow row hnn hfin
    have hzs : ∀ y ∈ binary64.normalizeRow row, y.isFinite = true ∧ y.val = 0 := by
      intro y hym
      rw [hy] at hym
      obtain ⟨w, _, rfl⟩ := List.mem_map.1 hym
      exact ⟨isFinite_zero _, val_zero _⟩
    obtain ⟨hs1, hs2⟩ := zeros_summable _ hzs (by rw [b64_normalizeRow_length]; exact hlen)
    have h2 := b64_normalizeRow_zero _ hs1 hs2
    have hxm := hzs x (List.getElem?_mem hx)
    refine ⟨Double.zero false, ?_, isFinite_zero false, hxm.1, ?_, ?_⟩
    · rw [h2, List.getElem?_map, hx]
      rfl
    · rw [val_zero, hxm.2, sub_self, abs_zero]
      positivity
    · intro h0
      exfalso
      rcases accumulator_spec row hnn with ⟨_, e2⟩ | ⟨e1, _, _⟩
      · rw [h0, zero_mul] at e2
        have := big_value
        linarith
      · rw [e1] at hfin
        exact absurd hfin (by decide)

theorem b64_normalize_lengths (t : binary64.ConditionalProbabilityTable) :
    t.NormalizeProbabilities.conditionalMap.map (fun r => r.2.length)
      = t.conditionalMap.map (fun r => r.2.length) := by
  simp [binary64.ConditionalProbabilityTable.NormalizeProbabilities, List.map_map,
    Function.comp_def, b64_normalizeRow_length]

theorem b64_normalize_row_by_row (t : binary64.ConditionalProbabilityTable) :
    (∀ i : Nat, t.NormalizeProbabilities.conditionalMap[i]?
      = (t.conditionalMap[i]?).map
        (fun r : Key × List Double => (r.1, binary64.normalizeRow r.2))) ∧
    (∀ row : List Double, SummableRow row → exactSum row ≠ 0 →
      binary64.normalizeRow row
        = row.map (fun x => Double.div x (row.foldl Double.add (Double.zero false)))) := by
  refine ⟨?_, fun row hs hne => (b64_normalizeRow_detail row hs hne).1⟩
  intro i
  simp [binary64.ConditionalProbabilityTable.NormalizeProbabilities, List.getElem?_map]

/-! ## Claims on normalisation -/

/-- C6, as stated, fails on the values of the program. The row `[1, 4, 1]` is left with
entries whose exact sum is `1 - 2^-54`: the quotients are rounded. The row
`[2^1023, 2^1023]` is left all-zero although its sum is not 0: the accumulator overflows
to infinity. The row `[2^53, 3, -2^53]`, whose accumulated sum is 4, is left with entries
whose exact sum is `3/4`: sums of entries of both signs cancel. -/
theorem C6_normalized_rows_may_not_sum_to_one :
    ((binary64.ConditionalProbabilityTable.NormalizeProbabilities
        ⟨[([], [Double.ofRat 1, Double.ofRat 4, Double.ofRat 1])], []⟩).conditionalMap
      = [([], binary64.normalizeRow [Double.ofRat 1, Double.ofRat 4, Double.ofRat 1])] ∧
      exactSum (binary64.normalizeRow [Double.ofRat 1, Double.ofRat 4, Double.ofRat 1])
        = 1 - 1 / 2 ^ 54 ∧
      ¬ ∀ x ∈ binary64.normalizeRow [Double.ofRat 1, Double.ofRat 4, Double.ofRat 1],
        x.val = 0) ∧
    ((binary64.ConditionalProbabilityTable.NormalizeProbabilities
        ⟨[([], [Double.ofRat (2 ^ 1023), Double.ofRat (2 ^ 1023)])], []⟩).conditionalMap
      = [([], [Double.zero false, Double.zero false])] ∧
      exactSum [Double.ofRat (2 ^ 1023), Double.ofRat (2 ^ 1023)] = 2 ^ 1024) ∧
    ([Double.ofRat (2 ^ 53), Double.ofRat 3, Double.ofRat (-2 ^ 53)].foldl Double.add
        (Double.zero false) = Double.ofRat 4 ∧
      exactSum (binary64.normalizeRow
        [Double.ofRat (2 ^ 53), Double.ofRat 3, Double.ofRat (-2 ^ 53)]) = 3 / 4) ∧
    ¬ (∀ t : binary64.ConditionalProbabilityTable,
      ∀ r ∈ t.NormalizeProbabilities.conditionalMap,
        exactSum r.2 = 1 ∨ ∀ x ∈ r.2, x.val = 0) := by
  have h1 : exactSum (binary64.normalizeRow [Double.ofRat 1, Double.ofRat 4, Double.ofRat 1])
      = 1 - 1 / 2 ^ 54 := by decide!
  have h2 : ¬ ∀ x ∈ binary64.normalizeRow [Double.ofRat 1, Double.ofRat 4, Double.ofRat 1],
      x.val = 0 := by decide!
  refine ⟨⟨rfl, h1, h2⟩, ⟨by decide!, by decide!⟩, ⟨by decide!, by decide!⟩, ?_⟩
  intro h
  rcases h ⟨[([], [Double.ofRat 1, Double.ofRat 4, Double.ofRat 1])], []⟩
    ([], binary64.normalizeRow [Double.ofRat 1, Double.ofRat 4, Double.ofRat 1])
    (List.mem_singleton.2 rfl) with h3 | h3
  · rw [h1] at h3
    norm_num at h3
  · exact h2 h3

/-- C6, amended: in a table on `double` values `NormalizeProbabilities()` keeps the keys
and the lengths of the rows, and every row of fewer than `2^32` finite, non-negative
entries whose accumulated sum does not overflow is left with finite, non-negative entries
which either sum to 1 within `(n + 1) / 2^52`, `n` being the length of the row and the sum
being taken exactly, or are all `0.0`; the entries are all zero exactly when the sum of
the row was 0 before the call. -/
theorem C6_normalized_rows_sum_to_one_within_tolerance
    (t : binary64.ConditionalProbabilityTable) :
    t.NormalizeProbabilities.conditionalMap.map Prod.fst = t.conditionalMap.map Prod.fst ∧
    t.NormalizeProbabilities.conditionalMap.map (fun r => r.2.length)
      = t.conditionalMap.map (fun r => r.2.length) ∧
    ∀ (i : Nat) (key : Key) (row : List Double),
      t.conditionalMap[i]? = some (key, row) → SummableRow row →
      ∃ row1, t.NormalizeProbabilities.conditionalMap[i]? = some (key, row1) ∧
        row1.length = row.length ∧ NonNegFinite row1 ∧
        (|exactSum row1 - 1| ≤ ((row.length : ℚ) + 1) / 2 ^ 52 ∨
          ∀ x ∈ row1, x = Double.zero false) ∧
        ((∀ x ∈ row1, x.val = 0) ↔ exactSum row = 0) ∧
        (exactSum row ≠ 0 → |exactSum row1 - 1| ≤ ((row.length : ℚ) + 1) / 2 ^ 52) := by
  have e52 : ((2 : ℚ) ^ 52) = 4503599627370496 := by norm_num
  rw [e52]
  refine ⟨b64_normalize_keys t, b64_normalize_lengths t, ?_⟩
  intro i key row hrow hs
  refine ⟨binary64.normalizeRow row, b64_normalize_row t i key row hrow,
    b64_normalizeRow_length row, (b64_normalizeRow_summable row hs).1, ?_, ?_, ?_⟩
  · by_cases hz : exactSum row = 0
    · right
      intro x hx
      rw [b64_normalizeRow_zero row hs hz] at hx
      obtain ⟨_, _, e⟩ := List.mem_map.1 hx
      exact e.symm
    · exact Or.inl (b64_normalizeRow_pos row hs hz).2
  · constructor
    · intro hall
      by_contra hz
      have p2 := (b64_normalizeRow_pos row hs hz).2
      have h0 : exactSum (binary64.normalizeRow row) = 0 := by
        unfold exactSum
        apply List.sum_eq_zero
        intro q hq
        obtain ⟨x, hx, rfl⟩ := List.mem_map.1 hq
        exact hall x hx
      rw [h0] at p2
      have := tol_small row.length hs.2.2
      rw [abs_le] at p2
      linarith [p2.1]
    · intro hz x hx
      rw [b64_normalizeRow_zero row hs hz] at hx
      obtain ⟨_, _, e⟩ := List.mem_map.1 hx
      rw [← e]
      exact val_zero false
  · intro hz
    exact (b64_normalizeRow_pos row hs hz).2

/-- Instance of the amended C6: the table whose one row is `[1, 4, 1]`. -/
theorem C6_normalized_rows_sum_to_one_within_tolerance_witness :
    SummableRow [Double.ofRat 1, Double.ofRat 4, Double.ofRat 1] ∧
    ∃ row1, (binary64.ConditionalProbabilityTable.NormalizeProbabilities
        ⟨[([], [Double.ofRat 1, Double.ofRat 4, Double.ofRat 1])], []⟩).conditionalMap[0]?
        = some ([], row1) ∧
      |exactSum row1 - 1| ≤ (((3 : Nat) : ℚ) + 1) / 2 ^ 52 :=
  have hs : SummableRow [Double.ofRat 1, Double.ofRat 4, Double.ofRat 1] := by
    unfold SummableRow NonNegFinite
    decide!
  match (C6_normalized_rows_sum_to_one_within_tolerance
    ⟨[([], [Double.ofRat 1, Double.ofRat 4, Double.ofRat 1])], []⟩).2.2 0 []
    [Double.ofRat 1, Double.ofRat 4, Double.ofRat 1] rfl hs with
  | ⟨row1, h1, _, _, _, _, h2⟩ => ⟨hs, row1, h1, h2 (by decide!)⟩

/-- C7, as stated, fails on the values of the program. On the table whose one row is
`[1, 4, 1]` the second call of `NormalizeProbabilities()` changes every entry of the row
that the first call left (the fraction of each entry goes up by one unit): the quotients
and the sums are rounded. On the row `[2^54, 13.75, -2^54]`, in which entries of both signs
cancel, the first call leaves the middle entry at about 1.1458 and the second call at
about 0.9167. -/
theorem C7_normalize_twice_differs :
    (binary64.ConditionalProbabilityTable.NormalizeProbabilities
        ⟨[([], [Double.ofRat 1, Double.ofRat 4, Double.ofRat 1])], []⟩).conditionalMap
      = [([], [⟨false, ⟨1020, by decide⟩, ⟨1501199875790165, by decide⟩⟩,
          ⟨false, ⟨1022, by decide⟩, ⟨1501199875790165, by decide⟩⟩,
          ⟨false, ⟨1020, by decide⟩, ⟨1501199875790165, by decide⟩⟩])] ∧
    (binary64.ConditionalProbabilityTable.NormalizeProbabilities
      (binary64.ConditionalProbabilityTable.NormalizeProbabilities
        ⟨[([], [Double.ofRat 1, Double.ofRat 4, Double.ofRat 1])], []⟩)).conditionalMap
      = [([], [⟨false, ⟨1020, by decide⟩, ⟨1501199875790166, by decide⟩⟩,
          ⟨false, ⟨1022, by decide⟩, ⟨1501199875790166, by decide⟩⟩,
          ⟨false, ⟨1020, by decide⟩, ⟨1501199875790166, by decide⟩⟩])] ∧
    ((binary64.normalizeRow
        [Double.ofRat (2 ^ 54), Double.ofRat (55 / 4), Double.ofRat (-2 ^ 54)]).map Double.val
      = [6004799503160661 / 4, 5160374573028693 / 4503599627370496, -6004799503160661 / 4] ∧
      (binary64.normalizeRow (binary64.normalizeRow
        [Double.ofRat (2 ^ 54), Double.ofRat (55 / 4), Double.ofRat (-2 ^ 54)])).map Double.val
      = [4803839602528529 / 4, 8256599316845909 / 9007199254740992, -4803839602528529 / 4]) ∧
    ¬ (∀ t : binary64.ConditionalProbabilityTable,
      t.NormalizeProbabilities.NormalizeProbabilities = t.NormalizeProbabilities) := by
  refine ⟨by decide!, by decide!, ⟨by decide!, by decide!⟩, ?_⟩
  intro h
  have h1 := h ⟨[([], [Double.ofRat 1, Double.ofRat 4, Double.ofRat 1])], []⟩
  revert h1
  decide!

/-- C7, amended: in a table on `double` values, calling `NormalizeProbabilities()` twice
yields the same keys and the same lengths of the rows as calling it once, and for every
row of fewer than `2^32` finite, non-negative entries, a row whose entries are finite and
differ from the entries after one call by at most `(n + 1) / 2^50`, `n` being the length
of the row; a row whose sum was 0 is the same after two calls as after one. -/
theorem C7_normalize_is_idempotent_within_tolerance
    (t : binary64.ConditionalProbabilityTable) :
    t.NormalizeProbabilities.NormalizeProbabilities.conditionalMap.map Prod.fst
      = t.NormalizeProbabilities.conditionalMap.map Prod.fst ∧
    t.NormalizeProbabilities.NormalizeProbabilities.conditionalMap.map (fun r => r.2.length)
      = t.NormalizeProbabilities.conditionalMap.map (fun r => r.2.length) ∧
    ∀ (i : Nat) (key : Key) (row : List Double),
      t.conditionalMap[i]? = some (key, row) → NonNegFinite row →
      row.length < 4294967296 →
      ∃ row1 row2, t.NormalizeProbabilities.conditionalMap[i]? = some (key, row1) ∧
        t.NormalizeProbabilities.NormalizeProbabilities.conditionalMap[i]?
          = some (key, row2) ∧
        row1.length = row.length ∧ row2.length = row.length ∧
        (∀ (j : Nat) (x : Double), row1[j]? = some x →
          ∃ z, row2[j]? = some z ∧ x.isFinite = true ∧ z.isFinite = true ∧
            |z.val - x.val| ≤ ((row.length : ℚ) + 1) / 2 ^ 50) ∧
        (exactSum row = 0 → row2 = row1) := by
  have e50 : ((2 : ℚ) ^ 50) = 1125899906842624 := by norm_num
  rw [e50]
  refine ⟨b64_normalize_keys _, b64_normalize_lengths _, ?_⟩
  intro i key row hrow hnn hlen
  have h1 := b64_normalize_row t i key row hrow
  have h2 := b64_normalize_row t.NormalizeProbabilities i key _ h1
  refine ⟨binary64.normalizeRow row,
    binary64.normalizeRow (binary64.normalizeRow row), h1, h2, b64_normalizeRow_length _,
    by rw [b64_normalizeRow_length, b64_normalizeRow_length], ?_, ?_⟩
  · intro j x hx
    obtain ⟨z, z1, z2, z3, z4, _⟩ := b64_normalizeRow_again row hnn hlen j x hx
    exact ⟨z, z1, z3, z2, z4⟩
  · intro hz
    apply List.ext_getElem?
    intro j
    cases hx : (binary64.normalizeRow row)[j]? with
    | none =>
      rw [List.getElem?_eq_none_iff] at hx ⊢
      rw [b64_normalizeRow_length]
      exact hx
    | some x =>
      obtain ⟨z, z1, _, _, _, z5⟩ := b64_normalizeRow_again row hnn hlen j x hx
      rw [z1, z5 hz]

/-- Instance of the amended C7: the table whose one row is `[1, 4, 1]`. -/
theorem C7_normalize_is_idempotent_within_tolerance_witness :
    NonNegFinite [Double.ofRat 1, Double.ofRat 4, Double.ofRat 1] ∧
    [Double.ofRat 1, Double.ofRat 4, Double.ofRat 1].length < 4294967296 ∧
    ∃ row1 row2, (binary64.ConditionalProbabilityTable.NormalizeProbabilities
        ⟨[([], [Double.ofRat 1, Double.ofRat 4, Double.ofRat 1])], []⟩).conditionalMap[0]?
        = some ([], row1) ∧
      (binary64.ConditionalProbabilityTable.NormalizeProbabilities
        (binary64.ConditionalProbabilityTable.NormalizeProbabilities
          ⟨[([], [Double.ofRat 1, Double.ofRat 4, Double.ofRat 1])], []⟩)).conditionalMap[0]?
        = some ([], row2) ∧
      ∀ (j : Nat) (x : Double), row1[j]? = some x →
        ∃ z, row2[j]? = some z ∧ x.isFinite = true ∧ z.isFinite = true ∧
          |z.val - x.val| ≤ (((3 : Nat) : ℚ) + 1) / 2 ^ 50 :=
  have hnn : NonNegFinite [Double.ofRat 1, Double.ofRat 4, Double.ofRat 1] := by
    unfold NonNegFinite
    decide!
  match (C7_normalize_is_idempotent_within_tolerance
    ⟨[([], [Double.ofRat 1, Double.ofRat 4, Double.ofRat 1])], []⟩).2.2 0 []
    [Double.ofRat 1, Double.ofRat 4, Double.ofRat 1] rfl hnn (by decide) with
  | ⟨row1, row2, h1, h2, _, _, h3, _⟩ => ⟨hnn, by decide, row1, row2, h1, h2, h3⟩

theorem b64_joint_accumulator (m : RowMap Double) (z : Double) :
    m.foldl (fun acc r => Double.add acc r.2) z = (m.map Prod.snd).foldl Double.add z := by
  rw [List.foldl_map]

theorem b64_joint_normalize_eq (t : binary64.JointProbabilityTable) :
    t.NormalizeProbabilities.mJointMap = t.mJointMap.map (fun r =>
      (r.1, Double.div r.2 ((t.mJointMap.map Prod.snd).foldl Double.add (Double.zero false)))) := by
  simp only [binary64.JointProbabilityTable.NormalizeProbabilities, b64_joint_accumulator]

theorem b64_joint_normalize_masses (t : binary64.JointProbabilityTable)
    (hs : SummableRow (t.mJointMap.map Prod.snd)) (hne : exactSum (t.mJointMap.map Prod.snd) ≠ 0) :
    t.NormalizeProbabilities.mJointMap.map Prod.snd
      = binary64.normalizeRow (t.mJointMap.map Prod.snd) := by
  rw [(b64_normalizeRow_detail _ hs hne).1, b64_joint_normalize_eq]
  simp [List.map_map, Function.comp_def]

theorem b64_joint_normalize_keys (t : binary64.JointProbabilityTable) :
    t.NormalizeProbabilities.mJointMap.map Prod.fst = t.mJointMap.map Prod.fst := by
  rw [b64_joint_normalize_eq]
  simp [List.map_map, Function.comp_def]

/-- C8, as stated, fails. On the table freshly built for one binary variable, whose two
rows hold mass 0, `NormalizeProbabilities()` divides 0 by a zero accumulator and leaves a
not-a-number in both rows; on the table without rows it leaves the sum of the masses at 0.
On the table with masses 1, 4, 1 it leaves masses whose exact sum is `1 - 2^-54`: the
quotients are rounded. On the table with masses `2^1023`, `2^1023` it leaves the masses 0,
0: the accumulator overflows to infinity. On the table with masses `2^53`, 3, `-2^53` it
leaves masses whose exact sum is `3/4`: sums of masses of both signs cancel. -/
theorem C8_normalize_of_zero_total_fails :
    (∃ t, binary64.JointProbabilityTable.new [2] = some t ∧
      t.mJointMap = [([0], Double.zero false), ([1], Double.zero false)] ∧
      t.NormalizeProbabilities.mJointMap = [([0], Double.nan), ([1], Double.nan)]) ∧
    (∃ t, binary64.JointProbabilityTable.new [] = some t ∧
      exactSum (t.NormalizeProbabilities.mJointMap.map Prod.snd) = 0) ∧
    exactSum ((binary64.JointProbabilityTable.NormalizeProbabilities
      ⟨[([0], Double.ofRat 1), ([1], Double.ofRat 4), ([2], Double.ofRat 1)], [3]⟩).mJointMap.map
        Prod.snd) = 1 - 1 / 2 ^ 54 ∧
    (binary64.JointProbabilityTable.NormalizeProbabilities
      ⟨[([0], Double.ofRat (2 ^ 1023)), ([1], Double.ofRat (2 ^ 1023))], [2]⟩).mJointMap
      = [([0], Double.zero false), ([1], Double.zero false)] ∧
    exactSum ((binary64.JointProbabilityTable.NormalizeProbabilities
      ⟨[([0], Double.ofRat (2 ^ 53)), ([1], Double.ofRat 3), ([2], Double.ofRat (-2 ^ 53))],
        [3]⟩).mJointMap.map Prod.snd) = 3 / 4 ∧
    ¬ (∀ t : binary64.JointProbabilityTable,
      exactSum (t.NormalizeProbabilities.mJointMap.map Prod.snd) = 1) := by
  refine ⟨⟨⟨[([0], Double.zero false), ([1], Double.zero false)], [2]⟩, by decide!, rfl,
    by decide!⟩, ⟨⟨[], []⟩, by decide!, by decide!⟩, by decide!, by decide!, by decide!, ?_⟩
  intro h
  have h1 := h ⟨[], []⟩
  revert h1
  decide!

/-- C8, amended: for every joint table on `double` values with fewer than `2^32` rows,
whose masses are finite and non-negative and have an accumulated total that does not
overflow and is not zero, `NormalizeProbabilities()` keeps the keys, replaces every mass by
its quotient by the accumulated total, and leaves finite, non-negative masses whose exact
sum is 1 within `(N + 1) / 2^52`, `N` being the number of rows. -/
theorem C8_normalize_of_nonzero_total (t : binary64.JointProbabilityTable)
    (hs : SummableRow (t.mJointMap.map Prod.snd))
    (hne : exactSum (t.mJointMap.map Prod.snd) ≠ 0) :
    t.NormalizeProbabilities.mJointMap = t.mJointMap.map (fun r =>
      (r.1, Double.div r.2 ((t.mJointMap.map Prod.snd).foldl Double.add (Double.zero false)))) ∧
    t.NormalizeProbabilities.mJointMap.map Prod.fst = t.mJointMap.map Prod.fst ∧
    NonNegFinite (t.NormalizeProbabilities.mJointMap.map Prod.snd) ∧
    |exactSum (t.NormalizeProbabilities.mJointMap.map Prod.snd) - 1|
      ≤ ((t.mJointMap.length : ℚ) + 1) / 2 ^ 52 := by
  have e52 : ((2 : ℚ) ^ 52) = 4503599627370496 := by norm_num
  rw [e52, b64_joint_normalize_masses t hs hne]
  obtain ⟨p1, p2⟩ := b64_normalizeRow_pos _ hs hne
  rw [List.length_map] at p2
  exact ⟨b64_joint_normalize_eq t, b64_joint_normalize_keys t, p1, p2⟩

/-- Instance of the amended C8 at the table with masses 1 and 3. -/
theorem C8_normalize_of_nonzero_total_witness :
    SummableRow [Double.ofRat 1, Double.ofRat 3] ∧ exactSum [Double.ofRat 1, Double.ofRat 3] ≠ 0 ∧
    NonNegFinite ((binary64.JointProbabilityTable.NormalizeProbabilities
      ⟨[([0], Double.ofRat 1), ([1], Double.ofRat 3)], [2]⟩).mJointMap.map Prod.snd) ∧
    |exactSum ((binary64.JointProbabilityTable.NormalizeProbabilities
      ⟨[([0], Double.ofRat 1), ([1], Double.ofRat 3)], [2]⟩).mJointMap.map Prod.snd) - 1|
      ≤ (((2 : Nat) : ℚ) + 1) / 2 ^ 52 :=
  have hs : SummableRow [Double.ofRat 1, Double.ofRat 3] := by
    unfold SummableRow NonNegFinite
    decide!
  have hne : exactSum [Double.ofRat 1, Double.ofRat 3] ≠ 0 := by decide!
  have h := C8_normalize_of_nonzero_total
    ⟨[([0], Double.ofRat 1), ([1], Double.ofRat 3)], [2]⟩ hs hne
  ⟨hs, hne, h.2.2.1, h.2.2.2⟩

/-! ## Claims on randomisation -/

theorem sum_le_length : ∀ (ds : List Double), (∀ d ∈ ds, d.val < 1) →
    exactSum ds ≤ (ds.length : ℚ)
  | [], _ => by simp [exactSum]
  | d :: ds, h => by
    have h1 := h d (List.mem_cons_self _ _)
    have h2 := sum_le_length ds (fun x hx => h x (List.mem_cons_of_mem _ hx))
    simp only [exactSum, List.map_cons, List.sum_cons, List.length_cons] at h2 ⊢
    push_cast
    linarith

theorem draws_summable (ds : List Double)
    (hd : ∀ d ∈ ds, d.isFinite = true ∧ 0 ≤ d.val ∧ d.val < 1)
    (hlen : ds.length < 4294967296) : SummableRow ds := by
  have hnn : NonNegFinite ds := fun d h => ⟨(hd d h).1, (hd d h).2.1⟩
  refine ⟨hnn, ?_, hlen⟩
  rcases accumulator_spec ds hnn with ⟨_, e2⟩ | ⟨e1, _, _⟩
  · exfalso
    obtain ⟨hu0, hu1⟩ := u_bounds
    have huv := u_value
    have hT := sum_le_length ds (fun d h => (hd d h).2.2)
    have hT0 := exactSum_nonneg ds hnn
    have hnq : (ds.length : ℚ) ≤ 4294967296 := by exact_mod_cast le_of_lt hlen
    have hn0 : (0 : ℚ) ≤ (ds.length : ℚ) := by positivity
    have hbig : (8589934592 : ℚ) < (2 : ℚ) ^ (1024 : Int) := by
      have h1 : (8589934592 : ℚ) = (2 : ℚ) ^ (33 : Int) := by norm_num
      rw [h1]
      exact two_zpow_lt _ _ (by norm_num)
    rcases pow_bounds ds.length _ hu0 hu1 with ⟨_, hP⟩ | ⟨_, hneg⟩
    · have hP0 : (0 : ℚ) ≤ (1 + (2 : ℚ) ^ (-53 : Int)) ^ ds.length :=
        pow_nonneg (by linarith) _
      generalize (1 + (2 : ℚ) ^ (-53 : Int)) ^ ds.length = P at *
      generalize (2 : ℚ) ^ (-53 : Int) = u at *
      generalize exactSum ds = T at *
      have hc : (ds.length : ℚ) * u ≤ 1 / 2 := by nlinarith
      generalize (ds.length : ℚ) * u = c at *
      have hPc : P * c ≤ P * (1 / 2) := mul_le_mul_of_nonneg_left hc hP0
      have hP2 : P ≤ 2 := by linarith
      have hTP : T * P ≤ 4294967296 * 2 := mul_le_mul (by linarith) hP2 hP0 (by norm_num)
      linarith
    · generalize (2 : ℚ) ^ (-53 : Int) = u at *
      nlinarith
  · exact e1

theorem b64_randomizeRows_keys (draws : Nat → Double) : ∀ (m : RowMap (List Double)) (pos : Nat),
    (binary64.randomizeRows draws m pos).map Prod.fst = m.map Prod.fst
  | [], _ => rfl
  | (k, row) :: rest, pos => by
    simp only [binary64.randomizeRows, List.map_cons, b64_randomizeRows_keys draws rest]

theorem b64_randomizeRows_getElem (draws : Nat → Double) :
    ∀ (m : RowMap (List Double)) (pos i : Nat) (key : Key) (row : List Double),
    m[i]? = some (key, row) →
    ∃ ds, (drawsOfRows draws m pos)[i]? = some ds ∧ ds.length = row.length ∧
      (∀ d ∈ ds, ∃ j, d = draws j) ∧
      (binary64.randomizeRows draws m pos)[i]?
        = some (key, ds.map (fun x => Double.div x (ds.foldl Double.add (Double.zero false))))
  | [], _, i, key, row, h => by simp at h
  | (k, r) :: rest, pos, 0, key, row, h => by
    simp only [List.getElem?_cons_zero, Option.some.injEq, Prod.mk.injEq] at h
    obtain ⟨rfl, rfl⟩ := h
    refine ⟨(List.range r.length).map (fun i => draws (pos + i)), ?_, by simp, ?_, ?_⟩
    · simp [drawsOfRows]
    · intro d hd
      obtain ⟨i, _, rfl⟩ := List.mem_map.1 hd
      exact ⟨pos + i, rfl⟩
    · simp [binary64.randomizeRows]
  | (k, r) :: rest, pos, i + 1, key, row, h => by
    simp only [List.getElem?_cons_succ] at h
    obtain ⟨ds, h1, h2, h3, h4⟩ :=
      b64_randomizeRows_getElem draws rest (pos + r.length) i key row h
    refine ⟨ds, ?_, h2, h3, ?_⟩
    · simpa [drawsOfRows] using h1
    · simpa [binary64.randomizeRows] using h4

theorem b64_randomizeRows_lengths (draws : Nat → Double) :
    ∀ (m : RowMap (List Double)) (pos : Nat),
    (binary64.randomizeRows draws m pos).map (fun r => r.2.length) = m.map (fun r => r.2.length)
  | [], _ => rfl
  | (k, row) :: rest, pos => by
    simp [binary64.randomizeRows, b64_randomizeRows_lengths draws rest]

/-- C21, as stated, fails. On a table with one row of two entries, the outcome in which
every draw is 0, which lies in [0,1), makes `RandomizeProbabilities()` divide 0 by a zero
accumulator and leaves a not-a-number in both entries; on a table whose rows are empty
vectors (as left by `Clear()` followed by `AddVariable(2)`) every outcome leaves the rows
empty, with sum 0; and the draws 1/8, 1/2, 1/8 leave a row whose exact sum is `1 - 2^-54`,
the quotients being rounded. -/
theorem C21_randomize_may_not_sum_to_one :
    ((∀ i : Nat, ((fun _ => Double.zero false) i).isFinite = true ∧
        0 ≤ ((fun _ => Double.zero false) i).val ∧ ((fun _ => Double.zero false) i).val < 1) ∧
      (binary64.ConditionalProbabilityTable.RandomizeProbabilities
        ⟨[([], [Double.ofRat (1 / 2), Double.ofRat (1 / 2)])], []⟩
        (fun _ => Double.zero false)).conditionalMap = [([], [Double.nan, Double.nan])]) ∧
    (∀ draws : Nat → Double,
      binary64.ConditionalProbabilityTable.RandomizeProbabilities
        ⟨[([0], []), ([1], [])], [2]⟩ draws = ⟨[([0], []), ([1], [])], [2]⟩) ∧
    ((∀ i : Nat, ((fun i => if i = 1 then Double.ofRat (1 / 2) else Double.ofRat (1 / 8)) i).isFinite
          = true ∧
        0 ≤ ((fun i => if i = 1 then Double.ofRat (1 / 2) else Double.ofRat (1 / 8)) i).val ∧
        ((fun i => if i = 1 then Double.ofRat (1 / 2) else Double.ofRat (1 / 8)) i).val < 1) ∧
      ∃ row1, (binary64.ConditionalProbabilityTable.RandomizeProbabilities
          ⟨[([], [Double.ofRat (1 / 3), Double.ofRat (1 / 3), Double.ofRat (1 / 3)])], []⟩
          (fun i => if i = 1 then Double.ofRat (1 / 2) else Double.ofRat (1 / 8))).conditionalMap
          = [([], row1)] ∧ exactSum row1 = 1 - 1 / 2 ^ 54) ∧
    ¬ (∀ (t : binary64.ConditionalProbabilityTable) (draws : Nat → Double),
      (∀ i, (draws i).isFinite = true ∧ 0 ≤ (draws i).val ∧ (draws i).val < 1) →
      ∀ r ∈ (t.RandomizeProbabilities draws).conditionalMap, exactSum r.2 = 1) := by
  have hz : ∀ i : Nat, ((fun _ => Double.zero false) i).isFinite = true ∧
      0 ≤ ((fun _ => Double.zero false) i).val ∧ ((fun _ => Double.zero false) i).val < 1 := by
    intro i
    simp only [isFinite_zero, val_zero]
    norm_num
  have hd : ∀ i : Nat,
      ((fun i => if i = 1 then Double.ofRat (1 / 2) else Double.ofRat (1 / 8)) i).isFinite = true ∧
      0 ≤ ((fun i => if i = 1 then Double.ofRat (1 / 2) else Double.ofRat (1 / 8)) i).val ∧
      ((fun i => if i = 1 then Double.ofRat (1 / 2) else Double.ofRat (1 / 8)) i).val < 1 := by
    intro i
    by_cases h : i = 1
    · simp only [h, if_true]
      decide!
    · simp only [h, if_false]
      decide!
  refine ⟨⟨hz, by decide!⟩, ?_, ⟨hd, _, rfl, by decide!⟩, ?_⟩
  · intro draws
    simp [binary64.ConditionalProbabilityTable.RandomizeProbabilities, binary64.randomizeRows]
  · intro h
    have h1 := h ⟨[([0], [])], [1]⟩ (fun _ => Double.zero false) hz ([0], [])
      (by simp [binary64.ConditionalProbabilityTable.RandomizeProbabilities,
        binary64.randomizeRows])
    simp [exactSum] at h1

/-- C21, amended: for every table on `double` values and every outcome of the random
source in which each draw is a finite value of [0,1), `RandomizeProbabilities()` keeps the
keys of the rows and the length of every row; and every row of fewer than `2^32` entries
whose draws have a nonzero sum is left with the quotients of its draws by their
accumulated sum, which are finite and non-negative and sum to 1 within `(n + 1) / 2^52`,
`n` being the length of the row and the sum being taken exactly. -/
theorem C21_randomize_of_nonzero_draws (t : binary64.ConditionalProbabilityTable)
    (draws : Nat → Double)
    (hd : ∀ i, (draws i).isFinite = true ∧ 0 ≤ (draws i).val ∧ (draws i).val < 1) :
    (t.RandomizeProbabilities draws).conditionalMap.map Prod.fst
      = t.conditionalMap.map Prod.fst ∧
    (t.RandomizeProbabilities draws).conditionalMap.map (fun r => r.2.length)
      = t.conditionalMap.map (fun r => r.2.length) ∧
    (t.RandomizeProbabilities draws).mTotalParentsStates = t.mTotalParentsStates ∧
    ∀ (i : Nat) (key : Key) (row : List Double), t.conditionalMap[i]? = some (key, row) →
      ∃ ds, (drawsOfRows draws t.conditionalMap 0)[i]? = some ds ∧
        ds.length = row.length ∧
        (t.RandomizeProbabilities draws).conditionalMap[i]?
          = some (key, ds.map (fun x => Double.div x (ds.foldl Double.add (Double.zero false)))) ∧
        (row.length < 4294967296 → exactSum ds ≠ 0 →
          NonNegFinite (ds.map (fun x => Double.div x (ds.foldl Double.add (Double.zero false)))) ∧
          |exactSum (ds.map (fun x => Double.div x (ds.foldl Double.add (Double.zero false)))) - 1|
            ≤ ((row.length : ℚ) + 1) / 2 ^ 52) := by
  have e52 : ((2 : ℚ) ^ 52) = 4503599627370496 := by norm_num
  rw [e52]
  refine ⟨b64_randomizeRows_keys draws _ 0, b64_randomizeRows_lengths draws _ 0, rfl, ?_⟩
  intro i key row hrow
  obtain ⟨ds, h1, h2, h3, h4⟩ := b64_randomizeRows_getElem draws t.conditionalMap 0 i key row hrow
  refine ⟨ds, h1, h2, h4, ?_⟩
  intro hlen hne
  have hs : SummableRow ds := by
    apply draws_summable ds _ (by rw [h2]; exact hlen)
    intro d hdm
    obtain ⟨j, rfl⟩ := h3 d hdm
    exact hd j
  rw [← (b64_normalizeRow_detail ds hs hne).1, ← h2]
  exact b64_normalizeRow_pos ds hs hne

/-- Instance of the amended C21: one row of two entries, every draw equal to 1/4. -/
theorem C21_randomize_of_nonzero_draws_witness :
    (∀ i : Nat, ((fun _ => Double.ofRat (1 / 4)) i).isFinite = true ∧
      0 ≤ ((fun _ => Double.ofRat (1 / 4)) i).val ∧ ((fun _ => Double.ofRat (1 / 4)) i).val < 1) ∧
    ∃ ds, (drawsOfRows (fun _ => Double.ofRat (1 / 4))
        [([0], [Double.ofRat (1 / 2), Double.ofRat (1 / 2)])] 0)[0]? = some ds ∧
      ((binary64.ConditionalProbabilityTable.mk
        [([0], [Double.ofRat (1 / 2), Double.ofRat (1 / 2)])] [1]).RandomizeProbabilities
          (fun _ => Double.ofRat (1 / 4))).conditionalMap[0]?
        = some ([0], ds.map (fun x => Double.div x (ds.foldl Double.add (Double.zero false)))) ∧
      (exactSum ds ≠ 0 →
        |exactSum (ds.map (fun x => Double.div x (ds.foldl Double.add (Double.zero false)))) - 1|
          ≤ (((2 : Nat) : ℚ) + 1) / 2 ^ 52) :=
  have h0 : (Double.ofRat (1 / 4)).isFinite = true ∧ 0 ≤ (Double.ofRat (1 / 4)).val ∧
      (Double.ofRat (1 / 4)).val < 1 := by decide!
  have hd : ∀ i : Nat, ((fun _ => Double.ofRat (1 / 4)) i).isFinite = true ∧
      0 ≤ ((fun _ => Double.ofRat (1 / 4)) i).val ∧
      ((fun _ => Double.ofRat (1 / 4)) i).val < 1 := fun _ => h0
  match (C21_randomize_of_nonzero_draws
    ⟨[([0], [Double.ofRat (1 / 2), Double.ofRat (1 / 2)])], [1]⟩
    (fun _ => Double.ofRat (1 / 4)) hd).2.2.2 0 [0]
    [Double.ofRat (1 / 2), Double.ofRat (1 / 2)] rfl with
  | ⟨ds, h1, _, h2, h3⟩ => ⟨hd, ds, h1, h2, fun hne => (h3 (by decide) hne).2⟩

/-! ## Marginals -/

theorem b64_returnMarginalLoop_eq (i v : Nat) : ∀ (m : RowMap Double) (total : Double),
    (∀ r ∈ m, i < r.1.length) →
    binary64.returnMarginalLoop i v m total = some ((massesAt m i v).foldl Double.add total)
  | [], total, _ => by simp [binary64.returnMarginalLoop, massesAt]
  | (key, mass) :: rest, total, h => by
    have hk : i < key.length := h (key, mass) (List.mem_cons_self _ _)
    have ih := fun tot => b64_returnMarginalLoop_eq i v rest tot
      (fun r hr => h r (List.mem_cons_of_mem _ hr))
    have hget : key[i]? = some key[i] := List.getElem?_eq_getElem hk
    unfold binary64.returnMarginalLoop
    rw [hget]
    simp only [ih, massesAt, List.filter_cons, hget, Option.some.injEq, decide_eq_true_eq]
    by_cases hs : key[i] = v
    · simp [hs]
    · simp [hs]

theorem b64_returnMarginalLoop_none (i v : Nat) : ∀ (m : RowMap Double) (total : Double),
    (∃ r ∈ m, r.1.length ≤ i) → binary64.returnMarginalLoop i v m total = none
  | [], _, h => by simp at h
  | (key, mass) :: rest, total, h => by
    unfold binary64.returnMarginalLoop
    cases hk : key[i]? with
    | none => rfl
    | some s =>
      simp only
      apply b64_returnMarginalLoop_none i v rest
      obtain ⟨r, hr, hlen⟩ := h
      rcases List.mem_cons.1 hr with h1 | h1
      · subst h1
        rw [List.getElem?_eq_none hlen] at hk
        exact Option.noConfusion hk
      · exact ⟨r, h1, hlen⟩

theorem sum_indicator (c : Nat) (x : ℚ) : ∀ k : Nat,
    ((List.range k).map (fun v => if c = v then x else 0)).sum = if c < k then x else 0
  | 0 => by simp
  | k + 1 => by
    rw [List.range_succ, List.map_append, List.sum_append, sum_indicator c x k]
    simp only [List.map_cons, List.map_nil, List.sum_cons, List.sum_nil, add_zero]
    by_cases h1 : c < k
    · have h2 : ¬ c = k := by omega
      have h3 : c < k + 1 := by omega
      simp [h1, h2, h3]
    · by_cases h2 : c = k
      · have h3 : c < k + 1 := by omega
        simp [h1, h2, h3]
      · have h3 : ¬ c < k + 1 := by omega
        simp [h1, h2, h3]

theorem exact_marginals_sum (i k : Nat) : ∀ (m : RowMap Double),
    (∀ r ∈ m, ∃ c, r.1[i]? = some c ∧ c < k) →
    ((List.range k).map (fun v => exactSum (massesAt m i v))).sum = exactSum (m.map Prod.snd)
  | [], _ => by simp [massesAt, exactSum]
  | (key, mass) :: rest, h => by
    obtain ⟨c, hc, hck⟩ := h (key, mass) (List.mem_cons_self _ _)
    have ih := exact_marginals_sum i k rest (fun r hr => h r (List.mem_cons_of_mem _ hr))
    have hfun : (fun v => exactSum (massesAt ((key, mass) :: rest) i v))
        = fun v => (if c = v then mass.val else 0) + exactSum (massesAt rest i v) := by
      funext v
      by_cases hv : c = v
      · simp [massesAt, exactSum, List.filter_cons, hc, hv]
      · simp [massesAt, exactSum, List.filter_cons, hc, hv]
    rw [hfun, List.sum_map_add, ih, sum_indicator, if_pos hck]
    simp [exactSum]

theorem massesAt_nil_of_ge (i k v : Nat) (m : RowMap Double)
    (h : ∀ r ∈ m, ∃ c, r.1[i]? = some c ∧ c < k) (hv : k ≤ v) : massesAt m i v = [] := by
  unfold massesAt
  rw [List.map_eq_nil_iff, List.filter_eq_nil_iff]
  intro r hr
  obtain ⟨c, hc, hck⟩ := h r hr
  simp only [hc, Option.some.injEq, decide_eq_true_eq]
  omega

theorem massesAt_mem (m : RowMap Double) (i v : Nat) :
    ∀ x ∈ massesAt m i v, x ∈ m.map Prod.snd := by
  intro x hx
  obtain ⟨r, hr, rfl⟩ := List.mem_map.1 hx
  exact List.mem_map_of_mem _ (List.mem_filter.1 hr).1

theorem massesAt_length (m : RowMap Double) (i v : Nat) : (massesAt m i v).length ≤ m.length := by
  unfold massesAt
  rw [List.length_map]
  exact List.length_filter_le _ _

theorem massesAt_sum_le : ∀ (m : RowMap Double) (i v : Nat), NonNegFinite (m.map Prod.snd) →
    exactSum (massesAt m i v) ≤ exactSum (m.map Prod.snd)
  | [], _, _, _ => by simp [massesAt, exactSum]
  | (key, mass) :: rest, i, v, h => by
    have h1 : 0 ≤ mass.val := (h mass (by simp)).2
    have ih := massesAt_sum_le rest i v (fun x hx => h x (by
      simp only [List.map_cons, List.mem_cons]
      exact Or.inr hx))
    simp only [massesAt, exactSum, List.filter_cons, List.map_cons, List.sum_cons] at ih ⊢
    split
    · simp only [List.map_cons, List.sum_cons]
      linarith
    · linarith

theorem b64_jpt_new_mem (vs : List Nat) (t : binary64.JointProbabilityTable)
    (h : binary64.JointProbabilityTable.new vs = some t) :
    ∀ r ∈ t.mJointMap, inProduct vs r.1 := by
  unfold binary64.JointProbabilityTable.new binary64.JointProbabilityTable.FillMap at h
  by_cases hl : vs.length = 0
  · rw [if_pos hl] at h
    simp only [Option.map_some', Option.some.injEq] at h
    subst h
    intro r hr
    simp at hr
  · rw [if_neg hl] at h
    cases hf : fillRows vs (Double.zero false) [] with
    | none =>
      rw [hf] at h
      exact Option.noConfusion h
    | some m =>
      rw [hf] at h
      simp only [Option.map_some', Option.some.injEq] at h
      subst h
      intro r hr
      rcases (fillRows_mem _ _ _ _ hf).1 r hr with h1 | h1
      · simp at h1
      · exact h1.1

theorem huge_value : (2 : ℚ) ^ (1024 : Int) = 2 * (2 : ℚ) ^ (1023 : Int) := by
  have : (2 : ℚ) ^ (1024 : Int) = (2 : ℚ) ^ (1 : Int) * (2 : ℚ) ^ (1023 : Int) := by
    rw [← zpow_add₀ (by norm_num)]; norm_num
  rw [this, zpow_one]

theorem marginal_bounds (m : RowMap Double) (i v : Nat) (hnn : NonNegFinite (m.map Prod.snd))
    (hN : m.length < 4294967296) (hT : exactSum (m.map Prod.snd) < (2 : ℚ) ^ (1023 : Int)) :
    ((massesAt m i v).foldl Double.add (Double.zero false)).isFinite = true ∧
    0 ≤ ((massesAt m i v).foldl Double.add (Double.zero false)).val ∧
    exactSum (massesAt m i v) * (1 - (m.length : ℚ) * (2 : ℚ) ^ (-53 : Int))
      ≤ ((massesAt m i v).foldl Double.add (Double.zero false)).val ∧
    ((massesAt m i v).foldl Double.add (Double.zero false)).val
      ≤ exactSum (massesAt m i v) * (1 + 2 * ((m.length : ℚ) * (2 : ℚ) ^ (-53 : Int))) := by
  have hL : NonNegFinite (massesAt m i v) := fun x hx => hnn x (massesAt_mem m i v x hx)
  have hTv := massesAt_sum_le m i v hnn
  have hTv0 := exactSum_nonneg _ hL
  have hlen := massesAt_length m i v
  obtain ⟨hu0, hu1⟩ := u_bounds
  have huv := u_value
  have hhuge := huge_value
  have hNq : (m.length : ℚ) ≤ 4294967296 := by exact_mod_cast le_of_lt hN
  have hnq : ((massesAt m i v).length : ℚ) ≤ (m.length : ℚ) := by exact_mod_cast hlen
  have hn0 : (0 : ℚ) ≤ ((massesAt m i v).length : ℚ) := by positivity
  have hpb := pow_bounds (massesAt m i v).length _ hu0 hu1
  have hP0 : (0 : ℚ) ≤ (1 + (2 : ℚ) ^ (-53 : Int)) ^ (massesAt m i v).length :=
    pow_nonneg (by linarith) _
  have hacc := accumulator_spec _ hL
  generalize ((massesAt m i v).foldl Double.add (Double.zero false)) = M at *
  generalize (1 + (2 : ℚ) ^ (-53 : Int)) ^ (massesAt m i v).length = P at *
  generalize (1 - (2 : ℚ) ^ (-53 : Int)) ^ (massesAt m i v).length = Q at *
  generalize (2 : ℚ) ^ (-53 : Int) = u at *
  generalize exactSum (massesAt m i v) = Tv at *
  generalize exactSum (m.map Prod.snd) = T at *
  generalize (2 : ℚ) ^ (1023 : Int) = B at *
  generalize (2 : ℚ) ^ (1024 : Int) = B2 at *
  generalize ((massesAt m i v).length : ℚ) = n at *
  generalize (m.length : ℚ) = N at *
  have hNu : N * u ≤ 1 / 2 := by nlinarith
  have hnu : n * u ≤ N * u := mul_le_mul_of_nonneg_right hnq (le_of_lt hu0)
  have hnu0 : 0 ≤ n * u := mul_nonneg hn0 (le_of_lt hu0)
  rcases hpb with ⟨hQ, hP⟩ | ⟨_, hneg⟩
  · have hPn : P * (n * u) ≤ P * (1 / 2) := mul_le_mul_of_nonneg_left (by linarith) hP0
    have hP2 : P ≤ 2 := by linarith
    have hPn2 : P * (n * u) ≤ 2 * (n * u) := mul_le_mul_of_nonneg_right hP2 hnu0
    have hP3 : P ≤ 1 + 2 * (N * u) := by linarith
    rcases hacc with ⟨_, e2⟩ | ⟨e1, e2, e3⟩
    · exfalso
      have : Tv * P ≤ Tv * 2 := mul_le_mul_of_nonneg_left hP2 hTv0
      linarith
    · have h1 : Tv * (1 - N * u) ≤ Tv * Q := mul_le_mul_of_nonneg_left (by linarith) hTv0
      have h2 : Tv * P ≤ Tv * (1 + 2 * (N * u)) := mul_le_mul_of_nonneg_left hP3 hTv0
      have h3 : 0 ≤ Tv * (1 - N * u) := mul_nonneg hTv0 (by linarith)
      exact ⟨e1, by linarith, by linarith, by linarith⟩
  · exfalso
    linarith

theorem marginals_sum_bounds (m : RowMap Double) (i k : Nat)
    (hk : ∀ r ∈ m, ∃ c, r.1[i]? = some c ∧ c < k) (hnn : NonNegFinite (m.map Prod.snd))
    (hN : m.length < 4294967296) (hT : exactSum (m.map Prod.snd) < (2 : ℚ) ^ (1023 : Int)) :
    NonNegFinite ((List.range k).map
      (fun v => (massesAt m i v).foldl Double.add (Double.zero false))) ∧
    exactSum (m.map Prod.snd) * (1 - (m.length : ℚ) * (2 : ℚ) ^ (-53 : Int))
      ≤ exactSum ((List.range k).map
        (fun v => (massesAt m i v).foldl Double.add (Double.zero false))) ∧
    exactSum ((List.range k).map
        (fun v => (massesAt m i v).foldl Double.add (Double.zero false)))
      ≤ exactSum (m.map Prod.snd) * (1 + 2 * ((m.length : ℚ) * (2 : ℚ) ^ (-53 : Int))) := by
  have hb := fun v => marginal_bounds m i v hnn hN hT
  have hs := exact_marginals_sum i k m hk
  refine ⟨?_, ?_, ?_⟩
  · intro x hx
    obtain ⟨v, _, rfl⟩ := List.mem_map.1 hx
    exact ⟨(hb v).1, (hb v).2.1⟩
  · rw [← hs, ← List.sum_map_mul_right]
    unfold exactSum
    rw [List.map_map]
    apply List.sum_le_sum
    intro v _
    exact (hb v).2.2.1
  · rw [← hs, ← List.sum_map_mul_right]
    unfold exactSum
    rw [List.map_map]
    apply List.sum_le_sum
    intro v _
    exact (hb v).2.2.2

theorem b64_returnMarginal_eq (t : binary64.JointProbabilityTable) (i v : Nat)
    (h : ∀ r ∈ t.mJointMap, i < r.1.length) :
    t.ReturnMarginal i v
      = some ((massesAt t.mJointMap i v).foldl Double.add (Double.zero false)) := by
  unfold binary64.JointProbabilityTable.ReturnMarginal
  exact b64_returnMarginalLoop_eq i v _ _ h

theorem marginals_of_total_bound (N : Nat) (T S : ℚ) (hT : 0 ≤ T)
    (h1 : T * (1 - (N : ℚ) * (2 : ℚ) ^ (-53 : Int)) ≤ S)
    (h2 : S ≤ T * (1 + 2 * ((N : ℚ) * (2 : ℚ) ^ (-53 : Int)))) :
    |S - T| ≤ (N : ℚ) / 4503599627370496 * T := by
  have huv := u_value
  generalize (2 : ℚ) ^ (-53 : Int) = u at *
  have hu : u = 1 / 9007199254740992 := by
    rw [eq_div_iff (by norm_num)]; exact huv
  have e : (N : ℚ) / 4503599627370496 * T = T * (2 * ((N : ℚ) * u)) := by
    rw [hu]; ring
  have hN0 : (0 : ℚ) ≤ (N : ℚ) := by positivity
  have hc0 : 0 ≤ T * ((N : ℚ) * u) := by
    rw [hu]; positivity
  rw [e, abs_le]
  constructor <;> linarith

theorem marginals_of_unit_bound (N : Nat) (hN : N < 4294967296) (T S : ℚ) (hT : 0 ≤ T)
    (ha : |T - 1| ≤ ((N : ℚ) + 1) / 4503599627370496)
    (h1 : T * (1 - (N : ℚ) * (2 : ℚ) ^ (-53 : Int)) ≤ S)
    (h2 : S ≤ T * (1 + 2 * ((N : ℚ) * (2 : ℚ) ^ (-53 : Int)))) :
    |S - 1| ≤ ((N : ℚ) + 1) / 1125899906842624 := by
  obtain ⟨hu0, hu1⟩ := u_bounds
  have huv := u_value
  have hNq : (N : ℚ) ≤ 4294967296 := by exact_mod_cast le_of_lt hN
  have hN0 : (0 : ℚ) ≤ (N : ℚ) := by positivity
  generalize (2 : ℚ) ^ (-53 : Int) = u at *
  have hu : u = 1 / 9007199254740992 := by
    rw [eq_div_iff (by norm_num)]; exact huv
  have ea : ((N : ℚ) + 1) / 4503599627370496 = 2 * ((N : ℚ) * u) + 2 * u := by
    rw [hu]; ring
  have eb : ((N : ℚ) + 1) / 1125899906842624 = 8 * ((N : ℚ) * u) + 8 * u := by
    rw [hu]; ring
  rw [ea] at ha
  rw [eb]
  have hc : (N : ℚ) * u ≤ 1 / 2097152 := by rw [hu]; linarith
  have hc0 : 0 ≤ (N : ℚ) * u := by positivity
  have hus : u ≤ 1 / 1048576 := by rw [hu]; norm_num
  generalize (N : ℚ) * u = c at *
  rw [abs_le] at ha ⊢
  obtain ⟨ha1, ha2⟩ := ha
  have hT2 : T ≤ 2 := by linarith
  have hTc : T * c ≤ 2 * c := mul_le_mul_of_nonneg_right hT2 hc0
  have hTc0 : 0 ≤ T * c := mul_nonneg hT hc0
  constructor <;> linarith

theorem two_lt_huge : (2 : ℚ) < (2 : ℚ) ^ (1023 : Int) := by
  have h1 : (2 : ℚ) = (2 : ℚ) ^ (1 : Int) := by norm_num
  nth_rewrite 1 [h1]
  exact two_zpow_lt _ _ (by norm_num)

/-! ## Claims on marginals -/

/-- C20, as stated, fails. On the table over two binary variables with masses 0.1, 0.1,
0.1, 0.4 the marginals of the first variable, 0.2 and 0.5, have the exact sum
`0.7000000000000000111` and the `double` sum 0.7, while the masses of the rows have the
exact sum `0.7000000000000000389` and the accumulated sum 0.7000000000000001: each
accumulation is rounded on its way. With the masses `2^53`, 1, `-2^53`, 1, of total 2, the
marginals of the first variable are `2^53` and `-(2^53 - 1)`, of sum 1: sums of masses of
both signs cancel. With the masses `2^1023`, `2^1023` a marginal is infinite. And for a
`variableIndex` that no key has, `ReturnMarginal` throws `std::out_of_range` instead of
returning the sum over no row. -/
theorem C20_marginals_may_not_sum_to_total :
    (∃ t0, binary64.JointProbabilityTable.new [2, 2] = some t0 ∧
      ([([0, 0], Double.ofRat (1 / 10)), ([0, 1], Double.ofRat (1 / 10)),
        ([1, 0], Double.ofRat (1 / 10)), ([1, 1], Double.ofRat (4 / 10))] : RowMap Double).map
          Prod.fst = t0.mJointMap.map Prod.fst) ∧
    binary64.JointProbabilityTable.ReturnMarginal
      ⟨[([0, 0], Double.ofRat (1 / 10)), ([0, 1], Double.ofRat (1 / 10)),
        ([1, 0], Double.ofRat (1 / 10)), ([1, 1], Double.ofRat (4 / 10))], [2, 2]⟩ 0 0
      = some (Double.ofRat (2 / 10)) ∧
    binary64.JointProbabilityTable.ReturnMarginal
      ⟨[([0, 0], Double.ofRat (1 / 10)), ([0, 1], Double.ofRat (1 / 10)),
        ([1, 0], Double.ofRat (1 / 10)), ([1, 1], Double.ofRat (4 / 10))], [2, 2]⟩ 0 1
      = some (Double.ofRat (1 / 2)) ∧
    exactSum [Double.ofRat (2 / 10), Double.ofRat (1 / 2)]
      ≠ exactSum [Double.ofRat (1 / 10), Double.ofRat (1 / 10), Double.ofRat (1 / 10),
          Double.ofRat (4 / 10)] ∧
    Double.add (Double.ofRat (2 / 10)) (Double.ofRat (1 / 2))
      ≠ [Double.ofRat (1 / 10), Double.ofRat (1 / 10), Double.ofRat (1 / 10),
          Double.ofRat (4 / 10)].foldl Double.add (Double.zero false) ∧
    (binary64.JointProbabilityTable.ReturnMarginal
        ⟨[([0, 0], Double.ofRat (2 ^ 53)), ([0, 1], Double.ofRat 1),
          ([1, 0], Double.ofRat (-2 ^ 53)), ([1, 1], Double.ofRat 1)], [2, 2]⟩ 0 0
        = some (Double.ofRat (2 ^ 53)) ∧
      binary64.JointProbabilityTable.ReturnMarginal
        ⟨[([0, 0], Double.ofRat (2 ^ 53)), ([0, 1], Double.ofRat 1),
          ([1, 0], Double.ofRat (-2 ^ 53)), ([1, 1], Double.ofRat 1)], [2, 2]⟩ 0 1
        = some (Double.ofRat (-(2 ^ 53 - 1))) ∧
      exactSum [Double.ofRat (2 ^ 53), Double.ofRat (-(2 ^ 53 - 1))] = 1 ∧
      exactSum [Double.ofRat (2 ^ 53), Double.ofRat 1, Double.ofRat (-2 ^ 53), Double.ofRat 1]
        = 2) ∧
    binary64.JointProbabilityTable.ReturnMarginal
      ⟨[([0, 0], Double.ofRat (2 ^ 1023)), ([0, 1], Double.ofRat (2 ^ 1023))], [1, 2]⟩ 0 0
      = some (Double.inf false) ∧
    binary64.JointProbabilityTable.ReturnMarginal
      ⟨[([0, 0], Double.ofRat (1 / 10)), ([0, 1], Double.ofRat (1 / 10)),
        ([1, 0], Double.ofRat (1 / 10)), ([1, 1], Double.ofRat (4 / 10))], [2, 2]⟩ 2 0
      = none ∧
    ¬ (∀ (t : binary64.JointProbabilityTable) (a b : Double),
      t.mJointMap.map Prod.fst = [[0, 0], [0, 1], [1, 0], [1, 1]] →
      t.ReturnMarginal 0 0 = some a → t.ReturnMarginal 0 1 = some b →
      exactSum [a, b] = exactSum (t.mJointMap.map Prod.snd)) := by
  have h1 : binary64.JointProbabilityTable.ReturnMarginal
      ⟨[([0, 0], Double.ofRat (1 / 10)), ([0, 1], Double.ofRat (1 / 10)),
        ([1, 0], Double.ofRat (1 / 10)), ([1, 1], Double.ofRat (4 / 10))], [2, 2]⟩ 0 0
      = some (Double.ofRat (2 / 10)) := by decide!
  have h2 : binary64.JointProbabilityTable.ReturnMarginal
      ⟨[([0, 0], Double.ofRat (1 / 10)), ([0, 1], Double.ofRat (1 / 10)),
        ([1, 0], Double.ofRat (1 / 10)), ([1, 1], Double.ofRat (4 / 10))], [2, 2]⟩ 0 1
      = some (Double.ofRat (1 / 2)) := by decide!
  have h3 : exactSum [Double.ofRat (2 / 10), Double.ofRat (1 / 2)]
      ≠ exactSum [Double.ofRat (1 / 10), Double.ofRat (1 / 10), Double.ofRat (1 / 10),
          Double.ofRat (4 / 10)] := by decide!
  refine ⟨⟨⟨[([0, 0], Double.zero false), ([0, 1], Double.zero false),
    ([1, 0], Double.zero false), ([1, 1], Double.zero false)], [2, 2]⟩, by decide!, rfl⟩,
    h1, h2, h3, by decide!, ⟨by decide!, by decide!, by decide!, by decide!⟩, by decide!,
    by decide!, ?_⟩
  intro h
  exact h3 (h ⟨[([0, 0], Double.ofRat (1 / 10)), ([0, 1], Double.ofRat (1 / 10)),
    ([1, 0], Double.ofRat (1 / 10)), ([1, 1], Double.ofRat (4 / 10))], [2, 2]⟩ _ _ rfl h1 h2)

/-- C20, amended: on a joint table on `double` values in which every key has a
`variableIndex`-th entry, `ReturnMarginal(variableIndex, value)` is the sum, accumulated
from `0.0` in row order, of the masses of exactly the rows whose `variableIndex`-th key
entry equals `value`; when some key has no such entry the call throws. For a table with
the keys of the table built from cardinalities `[k1,...,km]` and every `i < m`:
`ReturnMarginal(i, value)` is `0.0` for `value >= k_i`; when there are fewer than `2^32`
rows and the masses are finite, non-negative and of total below `2^1023`, the marginals
for `value = 0..k_i-1` are finite and non-negative and their exact sum is the total mass
`T` within `N / 2^52 * T`, `N` being the number of rows; and after a normalization of
finite, non-negative masses whose accumulated total neither overflows nor is zero, their
exact sum is 1 within `(N + 1) / 2^50`. -/
theorem C20_return_marginal (t : binary64.JointProbabilityTable) (i : Nat) :
    ((∀ r ∈ t.mJointMap, i < r.1.length) →
      ∀ v, t.ReturnMarginal i v
        = some ((massesAt t.mJointMap i v).foldl Double.add (Double.zero false))) ∧
    ((∃ r ∈ t.mJointMap, r.1.length ≤ i) → ∀ v, t.ReturnMarginal i v = none) ∧
    (∀ (vs : List Nat) (t0 : binary64.JointProbabilityTable),
      binary64.JointProbabilityTable.new vs = some t0 →
      t.mJointMap.map Prod.fst = t0.mJointMap.map Prod.fst → i < vs.length →
      (∀ v, t.ReturnMarginal i v
        = some ((massesAt t.mJointMap i v).foldl Double.add (Double.zero false))) ∧
      (∀ v, vs.getD i 0 ≤ v → t.ReturnMarginal i v = some (Double.zero false)) ∧
      (NonNegFinite (t.mJointMap.map Prod.snd) → t.mJointMap.length < 4294967296 →
        exactSum (t.mJointMap.map Prod.snd) < 2 ^ 1023 →
        ∃ ms : List Double, ms.length = vs.getD i 0 ∧
          (∀ v, v < vs.getD i 0 → t.ReturnMarginal i v = ms[v]?) ∧
          NonNegFinite ms ∧
          |exactSum ms - exactSum (t.mJointMap.map Prod.snd)|
            ≤ (t.mJointMap.length : ℚ) / 2 ^ 52 * exactSum (t.mJointMap.map Prod.snd)) ∧
      (SummableRow (t.mJointMap.map Prod.snd) → exactSum (t.mJointMap.map Prod.snd) ≠ 0 →
        ∃ ms : List Double, ms.length = vs.getD i 0 ∧
          (∀ v, v < vs.getD i 0 → t.NormalizeProbabilities.ReturnMarginal i v = ms[v]?) ∧
          NonNegFinite ms ∧
          |exactSum ms - 1| ≤ ((t.mJointMap.length : ℚ) + 1) / 2 ^ 50)) := by
  have e52 : ((2 : ℚ) ^ 52) = 4503599627370496 := by norm_num
  have e50 : ((2 : ℚ) ^ 50) = 1125899906842624 := by norm_num
  have e1023 : ((2 : ℚ) ^ 1023) = (2 : ℚ) ^ (1023 : Int) := by
    rw [← zpow_natCast]; rfl
  rw [e52, e50, e1023]
  refine ⟨fun h v => b64_returnMarginal_eq t i v h,
    fun h v => b64_returnMarginalLoop_none i v _ _ h, ?_⟩
  intro vs t0 hbuilt hkeys hi
  have hprod : ∀ (m : RowMap Double), m.map Prod.fst = t0.mJointMap.map Prod.fst →
      ∀ r ∈ m, ∃ c, r.1[i]? = some c ∧ c < vs.getD i 0 := by
    intro m hm r hr
    have hmem : r.1 ∈ t0.mJointMap.map Prod.fst := by
      rw [← hm]
      exact List.mem_map_of_mem _ hr
    obtain ⟨r0, hr0, he⟩ := List.mem_map.1 hmem
    rw [← he]
    exact inProduct_entry vs r0.1 i (b64_jpt_new_mem vs t0 hbuilt r0 hr0) hi
  have hlen : ∀ (m : RowMap Double), m.map Prod.fst = t0.mJointMap.map Prod.fst →
      ∀ r ∈ m, i < r.1.length := by
    intro m hm r hr
    obtain ⟨c, hc, _⟩ := hprod m hm r hr
    by_contra hge
    rw [List.getElem?_eq_none (by omega)] at hc
    exact Option.noConfusion hc
  have hms : ∀ (t2 : binary64.JointProbabilityTable),
      t2.mJointMap.map Prod.fst = t0.mJointMap.map Prod.fst →
      ∀ v, v < vs.getD i 0 → t2.ReturnMarginal i v = ((List.range (vs.getD i 0)).map
        (fun v => (massesAt t2.mJointMap i v).foldl Double.add (Double.zero false)))[v]? := by
    intro t2 hk v hv
    rw [b64_returnMarginal_eq t2 i v (hlen _ hk), List.getElem?_map,
      List.getElem?_range hv]
    rfl
  refine ⟨fun v => b64_returnMarginal_eq t i v (hlen _ hkeys), ?_, ?_, ?_⟩
  · intro v hv
    rw [b64_returnMarginal_eq t i v (hlen _ hkeys),
      massesAt_nil_of_ge i _ v _ (hprod _ hkeys) hv]
    rfl
  · intro hnn hN hT
    obtain ⟨b1, b2, b3⟩ := marginals_sum_bounds t.mJointMap i _ (hprod _ hkeys) hnn hN hT
    refine ⟨_, by simp, hms t hkeys, b1, ?_⟩
    exact marginals_of_total_bound _ _ _ (exactSum_nonneg _ hnn) b2 b3
  · intro hs hne
    have hk1 : t.NormalizeProbabilities.mJointMap.map Prod.fst = t0.mJointMap.map Prod.fst := by
      rw [b64_joint_normalize_keys, hkeys]
    have hm1 := b64_joint_normalize_masses t hs hne
    obtain ⟨p1, p2⟩ := b64_normalizeRow_pos _ hs hne
    rw [← hm1] at p1 p2
    have hN1 : t.NormalizeProbabilities.mJointMap.length = t.mJointMap.length := by
      have := congrArg List.length (b64_joint_normalize_keys t)
      simpa using this
    have hN : t.mJointMap.length < 4294967296 := by
      have := hs.2.2
      simpa using this
    rw [List.length_map] at p2
    have hT1 : exactSum (t.NormalizeProbabilities.mJointMap.map Prod.snd)
        < (2 : ℚ) ^ (1023 : Int) := by
      have h1 := tol_small _ hN
      have h2 := (abs_le.1 p2).2
      have h3 := two_lt_huge
      linarith
    obtain ⟨b1, b2, b3⟩ := marginals_sum_bounds t.NormalizeProbabilities.mJointMap i _
      (hprod _ hk1) p1 (by rw [hN1]; exact hN) hT1
    rw [hN1] at b2 b3
    refine ⟨_, by simp, hms _ hk1, b1, ?_⟩
    exact marginals_of_unit_bound _ hN _ _ (exactSum_nonneg _ p1) p2 b2 b3

/-- Instance of the amended C20 on the table over two binary variables with masses 0.1,
0.1, 0.1, 0.4, for the first variable. -/
theorem C20_return_marginal_witness :
    ∃ t0, binary64.JointProbabilityTable.new [2, 2] = some t0 ∧
      ([([0, 0], Double.ofRat (1 / 10)), ([0, 1], Double.ofRat (1 / 10)),
        ([1, 0], Double.ofRat (1 / 10)), ([1, 1], Double.ofRat (4 / 10))] : RowMap Double).map
          Prod.fst = t0.mJointMap.map Prod.fst ∧
      0 < [2, 2].length ∧
      NonNegFinite [Double.ofRat (1 / 10), Double.ofRat (1 / 10), Double.ofRat (1 / 10),
        Double.ofRat (4 / 10)] ∧
      exactSum [Double.ofRat (1 / 10), Double.ofRat (1 / 10), Double.ofRat (1 / 10),
        Double.ofRat (4 / 10)] < 2 ^ 1023 ∧
      ∃ ms : List Double, ms.length = 2 ∧
        (∀ v, v < 2 → binary64.JointProbabilityTable.ReturnMarginal
          ⟨[([0, 0], Double.ofRat (1 / 10)), ([0, 1], Double.ofRat (1 / 10)),
            ([1, 0], Double.ofRat (1 / 10)), ([1, 1], Double.ofRat (4 / 10))], [2, 2]⟩ 0 v
          = ms[v]?) ∧
        |exactSum ms - exactSum [Double.ofRat (1 / 10), Double.ofRat (1 / 10),
            Double.ofRat (1 / 10), Double.ofRat (4 / 10)]|
          ≤ ((4 : Nat) : ℚ) / 2 ^ 52 * exactSum [Double.ofRat (1 / 10), Double.ofRat (1 / 10),
            Double.ofRat (1 / 10), Double.ofRat (4 / 10)] :=
  have hbuilt : binary64.JointProbabilityTable.new [2, 2]
      = some ⟨[([0, 0], Double.zero false), ([0, 1], Double.zero false),
        ([1, 0], Double.zero false), ([1, 1], Double.zero false)], [2, 2]⟩ := by decide!
  have hnn : NonNegFinite [Double.ofRat (1 / 10), Double.ofRat (1 / 10), Double.ofRat (1 / 10),
      Double.ofRat (4 / 10)] := by
    unfold NonNegFinite
    decide!
  have hT : exactSum [Double.ofRat (1 / 10), Double.ofRat (1 / 10), Double.ofRat (1 / 10),
      Double.ofRat (4 / 10)] < 2 ^ 1023 := by decide!
  match ((C20_return_marginal
    ⟨[([0, 0], Double.ofRat (1 / 10)), ([0, 1], Double.ofRat (1 / 10)),
      ([1, 0], Double.ofRat (1 / 10)), ([1, 1], Double.ofRat (4 / 10))], [2, 2]⟩ 0).2.2
    [2, 2] _ hbuilt rfl (by decide)).2.2.1 hnn (by decide) hT with
  | ⟨ms, h1, h2, _, h3⟩ => ⟨_, hbuilt, rfl, by decide, hnn, hT, ms, h1, h2, h3⟩

end bayonet
